import Mathlib

/-!
# TCP stream reassembly engine: a verification development

This file embeds the TCP reassembly engine of PcapPlusPlus
(`src/Packet++/header/TcpReassembly.h`) in Lean 4 and proves properties
of it.  Only the header (declarations, data-structure layout and
documentation) of the engine is in the repository; the bodies of
`reassemblePacket`, `checkOutOfOrderFragments`, `prepareMissingDataMessage`,
`closeConnection`, `purgeClosedConnections` and the `TcpStreamData` copy
operations are not.  Every definition whose body is missing from the
sources is therefore modelled from the specification (`spec.md`), which
describes the algorithm step by step; such definitions carry a doc
comment starting with `Modelled from the spec:`.

Conventions of the embedding:
* machine integers are `Nat` reduced modulo `2^32` where the C++ code
  uses `uint32_t` wrap-around (sequence numbers);
* byte buffers are `List Nat`;
* the callback interface is represented by an explicit event trace
  (`TraceEvent`): invoking a callback appends an event;
* each data delivery (`Delivery`) carries, besides the bytes handed to
  the `OnTcpMessageReady` callback, ghost bookkeeping used only for
  specification: the reassembled sequence number at which the delivery
  happened (`startSeq`), whether it is a synthetic missing-data marker
  (`isMarker`) and the declared gap length (`gapLen`).
-/

/-! ## Sequence-number arithmetic (spec §4.2)

All sequence comparisons are modulo `2^32`; `seq_lt a b` is
`(int32_t)(a - b) < 0` in the C++ source, i.e. the wrapped difference
lies in `[2^31, 2^32)`. -/

/-- `2^32`, the size of the TCP sequence-number space. -/
def SEQ_MOD : Nat := 4294967296

/-- `2^31`, the half of the sequence space used by the signed comparison. -/
def SEQ_HALF : Nat := 2147483648

/-- Modelled from the spec: wrapping 32-bit difference `a - b (mod 2^32)`. -/
def seq_diff (a b : Nat) : Nat := (a % SEQ_MOD + SEQ_MOD - b % SEQ_MOD) % SEQ_MOD

/-- Modelled from the spec: `seq_lt(a,b)` is `(int32_t)(a-b) < 0`. -/
def seq_lt (a b : Nat) : Bool := decide (SEQ_HALF ≤ seq_diff a b)

/-- Modelled from the spec: `seq_le(a,b)` is `a = b (mod 2^32)` or `seq_lt a b`. -/
def seq_le (a b : Nat) : Bool := decide (a % SEQ_MOD = b % SEQ_MOD) || seq_lt a b

/-! ## Deliveries and fragments -/

/-- One payload handed to the `OnTcpMessageReady` callback.  `bytes` is
exactly the buffer the callback receives; `startSeq`, `isMarker` and
`gapLen` are ghost annotations recording where in the reassembled
sequence space the delivery starts and whether it is a synthetic
"[N bytes missing]" marker declaring a gap of `gapLen` bytes. -/
structure Delivery where
  startSeq : Nat
  bytes : List Nat
  isMarker : Bool
  gapLen : Nat
deriving DecidableEq, Repr

/-- The number of sequence positions a delivery advances the expected
sequence over: the declared gap for a marker, the byte count otherwise. -/
def Delivery.covered (d : Delivery) : Nat := if d.isMarker then d.gapLen else d.bytes.length

/-- A buffered out-of-order TCP segment: starting sequence number and
owned payload bytes (`TcpReassembly::TcpFragment` of the header, whose
`dataLength` field is `data.length` here). -/
structure TcpFragment where
  sequence : Nat
  data : List Nat
deriving DecidableEq, Repr

/-- The `dataLength` field of the C++ `TcpFragment`. -/
def TcpFragment.dataLength (f : TcpFragment) : Nat := f.data.length

/-- First sequence number beyond the fragment (`sequence + dataLength`, wrapped). -/
def fragEnd (f : TcpFragment) : Nat := (f.sequence + f.data.length) % SEQ_MOD

/-- Modelled from the spec (§4.4): a buffered fragment overlaps or abuts the
expected sequence, so its tail can be delivered now. -/
def isDeliverable (e : Nat) (f : TcpFragment) : Bool :=
  seq_le f.sequence e && seq_lt e (fragEnd f)

/-- Modelled from the spec (§4.4): a buffered fragment lies fully behind the
expected sequence (contains no byte beyond it) and is a retransmission. -/
def isStale (e : Nat) (f : TcpFragment) : Bool := !seq_lt e (fragEnd f)

/-- Modelled from the spec (§4.4): deliver a fragment whose head (up to the
expected sequence `e`) is trimmed away; returns the new expected sequence
and the delivery. -/
def deliverFragment (e : Nat) (f : TcpFragment) : Nat × Delivery :=
  (fragEnd f, ⟨e, f.data.drop (seq_diff e f.sequence), false, 0⟩)

/-- Modelled from the spec (§4.4): linear scan for the first deliverable
fragment; returns it together with the rest of the list. -/
def findDeliverable (e : Nat) : List TcpFragment → Option (TcpFragment × List TcpFragment)
  | [] => none
  | f :: fs =>
    if isDeliverable e f then some (f, fs)
    else match findDeliverable e fs with
      | some (g, r) => some (g, f :: r)
      | none => none

/-- Modelled from the spec (§4.4): one round of fragment-store draining per
fuel unit: discard stale fragments, deliver the first deliverable one,
restart.  `fuel` dominates the number of fragments, so the cut-off branch
is never reached when called through `drainFragments`. -/
def drainGo : Nat → Nat → List TcpFragment → Nat × List TcpFragment × List Delivery
  | 0, e, fs => (e, fs, [])
  | fuel + 1, e, fs =>
    let fs1 := fs.filter (fun f => !isStale e f)
    match findDeliverable e fs1 with
    | none => (e, fs1, [])
    | some (f, rest) =>
      let p := deliverFragment e f
      let q := drainGo fuel p.1 rest
      (q.1, q.2.1, p.2 :: q.2.2)

/-- Modelled from the spec (§4.4): fragment store draining after a successful
in-order delivery; returns the advanced expected sequence, the remaining
fragments and the deliveries made. -/
def drainFragments (e : Nat) (fs : List TcpFragment) : Nat × List TcpFragment × List Delivery :=
  drainGo (fs.length + 1) e fs

/-! ## Missing-data marker (spec §6, `prepareMissingDataMessage`) -/

/-- Modelled from the spec: the literal missing-data marker string,
`[` decimal-N ` bytes missing]`, no trailing newline. -/
def prepareMissingDataMessage (missingDataLen : Nat) : String :=
  "[" ++ toString missingDataLen ++ " bytes missing]"

/-- ASCII bytes of a string. -/
def stringBytes (s : String) : List Nat := s.toList.map Char.toNat

/-- The byte buffer delivered for a missing-data marker. -/
def missingDataBytes (n : Nat) : List Nat := stringBytes (prepareMissingDataMessage n)

/-- The synthetic delivery for a gap of `n` bytes at expected sequence `e`. -/
def markerDelivery (e n : Nat) : Delivery := ⟨e, missingDataBytes n, true, n⟩

/-! ## Per-side state and its operations -/

/-- `TcpReassembly::TcpOneSideData` of the header: source endpoint of the
direction, the expected ("current") sequence number, the out-of-order
fragment list and the FIN/RST flag.  The C++ field `sequence` is a
`uint32_t` whose "uninitialized" state the spec makes explicit; here it
is an `Option`. -/
structure TcpOneSideData where
  srcIP : Nat := 0
  srcPort : Nat := 0
  sequence : Option Nat := none
  tcpFragmentList : List TcpFragment := []
  gotFinOrRst : Bool := false
deriving DecidableEq, Repr

/-- Modelled from the spec (§4.5): one flush round per fuel unit: find the
closest buffered fragment, declare the gap to it missing, deliver it,
drain; when `cleanWhole` repeat until the store is empty. -/
def findClosest (e : Nat) : List TcpFragment → Option (TcpFragment × List TcpFragment)
  | [] => none
  | f :: fs =>
    match findClosest e fs with
    | none => some (f, [])
    | some (g, r) =>
      if seq_diff f.sequence e ≤ seq_diff g.sequence e then some (f, fs)
      else some (g, f :: r)

/-- Modelled from the spec (§4.5): the rounds of the out-of-order flush.
Each round emits the missing-data marker for the gap to the closest
buffered fragment, jumps the expected sequence to that fragment, delivers
it and drains; with `cleanWhole` rounds repeat until no fragment is left. -/
def coofGo : Nat → Bool → Nat → List TcpFragment → Nat × List TcpFragment × List Delivery
  | 0, _, e, fs => (e, fs, [])
  | fuel + 1, cleanWhole, e, fs =>
    match findClosest e fs with
    | none => (e, fs, [])
    | some (f, rest) =>
      let n := seq_diff f.sequence e
      let p := deliverFragment f.sequence f
      let q := drainFragments p.1 rest
      let round := markerDelivery e n :: p.2 :: q.2.2
      if cleanWhole then
        let more := coofGo fuel cleanWhole q.1 q.2.1
        (more.1, more.2.1, round ++ more.2.2)
      else (q.1, q.2.1, round)

/-- Modelled from the spec (§4.5): `TcpReassembly::checkOutOfOrderFragments`,
the out-of-order flush run on a direction switch (`cleanWholeFragList =
false`, one round) or on connection close (`cleanWholeFragList = true`,
until the fragment store is empty). -/
def checkOutOfOrderFragments (cleanWholeFragList : Bool) (s : TcpOneSideData) :
    TcpOneSideData × List Delivery :=
  match s.sequence with
  | none => (s, [])
  | some e =>
    let r := coofGo (s.tcpFragmentList.length + 1) cleanWholeFragList e s.tcpFragmentList
    ({ s with sequence := some r.1, tcpFragmentList := r.2.1 }, r.2.2)

/-- Modelled from the spec (§4.3 step 8 and §4.4): classify a data segment
`[seq, seq+len)` against the side's expected sequence and process it:
drop retransmissions, left-trim overlaps, deliver exact matches followed
by a drain of the fragment store, buffer future segments. -/
def processTcpPayload (s : TcpOneSideData) (seq : Nat) (payload : List Nat) :
    TcpOneSideData × List Delivery :=
  if payload.isEmpty then (s, [])
  else
    match s.sequence with
    | none => (s, [])
    | some e =>
      let sq := seq % SEQ_MOD
      let endSeq := (sq + payload.length) % SEQ_MOD
      if seq_lt endSeq e || endSeq = e then (s, [])
      else if seq_lt sq e then
        let trimmed := payload.drop (seq_diff e sq)
        let d : Delivery := ⟨e, trimmed, false, 0⟩
        let r := drainFragments ((e + trimmed.length) % SEQ_MOD) s.tcpFragmentList
        ({ s with sequence := some r.1, tcpFragmentList := r.2.1 }, d :: r.2.2)
      else if sq = e then
        let d : Delivery := ⟨e, payload, false, 0⟩
        let r := drainFragments ((e + payload.length) % SEQ_MOD) s.tcpFragmentList
        ({ s with sequence := some r.1, tcpFragmentList := r.2.1 }, d :: r.2.2)
      else if seq_lt e sq then
        ({ s with tcpFragmentList := s.tcpFragmentList ++ [⟨sq, payload⟩] }, [])
      else (s, [])

/-! ## Packets, connections and the engine -/

/-- The parsed packet view the engine consumes (spec §6): endpoints, TCP
sequence number, payload, SYN/FIN/RST flags and the capture timestamp in
seconds.  `isTcp` is false for packets lacking IP/TCP layers. -/
structure Packet where
  isTcp : Bool := true
  srcIP : Nat := 0
  srcPort : Nat := 0
  dstIP : Nat := 0
  dstPort : Nat := 0
  seqNum : Nat := 0
  payload : List Nat := []
  synFlag : Bool := false
  finFlag : Bool := false
  rstFlag : Bool := false
  time : Nat := 0
deriving DecidableEq, Repr

/-- Modelled from the spec (§4.1): the direction-independent flow key,
an idealized (injective) symmetric hash of the endpoint pair. -/
def flowKey (p : Packet) : Nat :=
  let a := Nat.pair p.srcIP p.srcPort
  let b := Nat.pair p.dstIP p.dstPort
  if a ≤ b then Nat.pair a b else Nat.pair b a

/-- `TcpReassembly::TcpReassemblyData` of the header: the two sides, how many
sides have been seen, and the side whose data was most recently processed
(`prevSide`, `-1` initially, here an `Option`).  `connId` is a ghost
identifier, unique per connection instance, used only to state trace
properties. -/
structure TcpReassemblyData where
  numOfSides : Nat := 0
  prevSide : Option Nat := none
  side0 : TcpOneSideData := {}
  side1 : TcpOneSideData := {}
  connId : Nat := 0
deriving DecidableEq, Repr

/-- The side of a connection with the given index (0 or 1). -/
def getSide (c : TcpReassemblyData) (i : Nat) : TcpOneSideData :=
  if i = 0 then c.side0 else c.side1

/-- Replace the side of a connection with the given index (0 or 1). -/
def setSide (c : TcpReassemblyData) (i : Nat) (s : TcpOneSideData) : TcpReassemblyData :=
  if i = 0 then { c with side0 := s } else { c with side1 := s }

/-- Modelled from the spec (§4.1, §4.3 step 3): classify a packet to a side of
the connection by its source endpoint; the first packet from the opposite
direction populates side 1; a packet matching neither recorded endpoint
(flow-key collision) yields `none` and is ignored. -/
def determineSide (c : TcpReassemblyData) (p : Packet) :
    Option (Nat × TcpReassemblyData) :=
  if c.side0.srcIP = p.srcIP ∧ c.side0.srcPort = p.srcPort then some (0, c)
  else if 2 ≤ c.numOfSides then
    if c.side1.srcIP = p.srcIP ∧ c.side1.srcPort = p.srcPort then some (1, c) else none
  else
    some (1, { c with numOfSides := 2,
                      side1 := { srcIP := p.srcIP, srcPort := p.srcPort } })

/-- Modelled from the spec (§4.3 steps 5–6): the SYN and first-data
initialization of a side's expected sequence. -/
def initSeqStep (p : Packet) (s0 : TcpOneSideData) : TcpOneSideData :=
  if p.payload.length = 0 ∧ p.synFlag ∧ s0.sequence = none then
    { s0 with sequence := some ((p.seqNum % SEQ_MOD + 1) % SEQ_MOD) }
  else if 0 < p.payload.length ∧ s0.sequence = none then
    { s0 with sequence := some (p.seqNum % SEQ_MOD) }
  else s0

/-- Modelled from the spec (§4.3 step 7): the direction-switch flush: when
the previously active side differs from the present one, run the
out-of-order flush on it with `cleanWholeFragList = false`. -/
def flushPrevStep (c : TcpReassemblyData) (side : Nat) :
    TcpReassemblyData × List (Nat × Delivery) :=
  match c.prevSide with
  | some ps =>
    if ps ≠ side then
      let r := checkOutOfOrderFragments false (getSide c ps)
      (setSide c ps r.1, r.2.map (fun d => (ps, d)))
    else (c, [])
  | none => (c, [])

/-- Modelled from the spec (§4.3 steps 3–10): process one packet on its
connection.  Returns the updated connection, the deliveries made (tagged
with their side index, in callback order) and whether both sides are now
terminal so the connection must be closed. -/
def processConnPacket (c : TcpReassemblyData) (p : Packet) :
    TcpReassemblyData × List (Nat × Delivery) × Bool :=
  match determineSide c p with
  | none => (c, [], false)
  | some (side, c1) =>
    let c2 := setSide c1 side (initSeqStep p (getSide c1 side))
    let fl := flushPrevStep c2 side
    let r8 := processTcpPayload (getSide fl.1 side) (p.seqNum % SEQ_MOD) p.payload
    let c4 := setSide fl.1 side r8.1
    let c5 := { c4 with prevSide := some side }
    let finOrRst := p.finFlag || p.rstFlag
    let c6 :=
      if finOrRst then setSide c5 side { getSide c5 side with gotFinOrRst := true } else c5
    let closeNow := finOrRst && c6.side0.gotFinOrRst && c6.side1.gotFinOrRst
    (c6, fl.2 ++ r8.2.map (fun d => (side, d)), closeNow)

/-- One callback invocation recorded in the trace.  `cid` is the ghost
connection-instance identifier; `manual` of `connEnd` is true for a
manual close (`TcpReassemblyConnectionClosedManually`). -/
inductive TraceEvent where
  | connStart (key cid : Nat)
  | msgReady (key cid side : Nat) (d : Delivery)
  | connEnd (key cid : Nat) (manual : Bool)
deriving DecidableEq, Repr

/-- `TcpReassemblyConfiguration` of the header: cleanup parameters. -/
structure TcpReassemblyConfiguration where
  removeConnInfo : Bool := true
  closedConnectionDelay : Nat := 5
  maxNumToClean : Nat := 30
deriving DecidableEq, Repr

/-- The `TcpReassembly` engine state: connection table, connection-info
table (kept after close until purge; only the keys matter to the claims),
cleanup queue (time buckets in ascending time order), configuration and
the automatic-purge timestamp.  `nextConnId` is the ghost counter handing
out connection-instance identifiers. -/
structure TcpReassembly where
  m_ConnectionList : List (Nat × TcpReassemblyData) := []
  m_ConnectionInfo : List Nat := []
  m_CleanupList : List (Nat × List Nat) := []
  m_RemoveConnInfo : Bool := true
  m_ClosedConnectionDelay : Nat := 5
  m_MaxNumToClean : Nat := 30
  m_PurgeTimepoint : Nat := 0
  nextConnId : Nat := 0
deriving DecidableEq, Repr

/-- The engine as constructed (`TcpReassembly` constructor) at time `t0`. -/
def mkTcpReassembly (cfg : TcpReassemblyConfiguration) (t0 : Nat) : TcpReassembly :=
  { m_RemoveConnInfo := cfg.removeConnInfo,
    m_ClosedConnectionDelay := cfg.closedConnectionDelay,
    m_MaxNumToClean := cfg.maxNumToClean,
    m_PurgeTimepoint := t0 }

/-- Look a connection up in the connection table. -/
def lookupConn (l : List (Nat × TcpReassemblyData)) (k : Nat) : Option TcpReassemblyData :=
  match l.find? (fun kc => kc.1 = k) with
  | some kc => some kc.2
  | none => none

/-- Replace the connection stored under a key. -/
def updateConn (l : List (Nat × TcpReassemblyData)) (k : Nat) (c : TcpReassemblyData) :
    List (Nat × TcpReassemblyData) :=
  l.map (fun kc => if kc.1 = k then (k, c) else kc)

/-- Remove the connection stored under a key. -/
def eraseConn (l : List (Nat × TcpReassemblyData)) (k : Nat) :
    List (Nat × TcpReassemblyData) :=
  l.filter (fun kc => kc.1 ≠ k)

/-- Modelled from the spec (§3 CleanupQueue): append a key to the time bucket
`t` of the cleanup queue, keeping buckets sorted by time. -/
def insertCleanup : List (Nat × List Nat) → Nat → Nat → List (Nat × List Nat)
  | [], t, k => [(t, [k])]
  | (t', ks) :: rest, t, k =>
    if t < t' then (t, [k]) :: (t', ks) :: rest
    else if t = t' then (t', ks ++ [k]) :: rest
    else (t', ks) :: insertCleanup rest t k

/-- The effective closed-connection delay (0 selects the default 5, spec §6). -/
def effectiveDelay (st : TcpReassembly) : Nat :=
  if st.m_ClosedConnectionDelay = 0 then 5 else st.m_ClosedConnectionDelay

/-- The effective per-call purge cap (0 selects the default 30, spec §6). -/
def effectiveMaxClean (st : TcpReassembly) : Nat :=
  if st.m_MaxNumToClean = 0 then 30 else st.m_MaxNumToClean

/-- Modelled from the spec (§4.6): terminate a connection: flush both sides
with `cleanWholeFragList = true`, fire `onConnectionEnd`, drop the
connection state (its info entry stays) and schedule the key for cleanup
at `now + delay` when configured to remove connection info. -/
def closeConnectionInternal (st : TcpReassembly) (key : Nat) (manual : Bool) (now : Nat) :
    TcpReassembly × List TraceEvent :=
  match lookupConn st.m_ConnectionList key with
  | none => (st, [])
  | some c =>
    let r0 := checkOutOfOrderFragments true c.side0
    let r1 := checkOutOfOrderFragments true c.side1
    let evs := r0.2.map (fun d => TraceEvent.msgReady key c.connId 0 d) ++
               r1.2.map (fun d => TraceEvent.msgReady key c.connId 1 d) ++
               [TraceEvent.connEnd key c.connId manual]
    let st1 := { st with
      m_ConnectionList := eraseConn st.m_ConnectionList key,
      m_CleanupList :=
        if st.m_RemoveConnInfo then insertCleanup st.m_CleanupList (now + effectiveDelay st) key
        else st.m_CleanupList }
    (st1, evs)

/-- Modelled from the spec (§4.7): walk the cleanup queue in time order,
popping keys of buckets whose time is at or before `now` until `cap`
keys have been collected; returns the removed keys and the new queue. -/
def purgeWalk (now : Nat) : Nat → List (Nat × List Nat) → List Nat × List (Nat × List Nat)
  | _, [] => ([], [])
  | cap, (t, ks) :: rest =>
    if cap = 0 then ([], (t, ks) :: rest)
    else if t ≤ now then
      if ks.length ≤ cap then
        let r := purgeWalk now (cap - ks.length) rest
        (ks ++ r.1, r.2)
      else (ks.take cap, (t, ks.drop cap) :: rest)
    else ([], (t, ks) :: rest)

/-- Modelled from the spec (§4.7): `TcpReassembly::purgeClosedConnections`;
a non-zero `maxNumToClean` overrides the configured cap.  Returns the
number of connection-info entries removed. -/
def purgeClosedConnections (st : TcpReassembly) (now maxNumToClean : Nat) :
    TcpReassembly × Nat :=
  let cap := if maxNumToClean ≠ 0 then maxNumToClean else effectiveMaxClean st
  let r := purgeWalk now cap st.m_CleanupList
  ({ st with
      m_CleanupList := r.2,
      m_ConnectionInfo := st.m_ConnectionInfo.filter (fun k => ¬ k ∈ r.1) },
   r.1.length)

/-- Modelled from the spec (§4.7): the automatic purge run at most once per
wall-clock second from `reassemblePacket`, when configured. -/
def autoPurge (st : TcpReassembly) (now : Nat) : TcpReassembly :=
  if st.m_RemoveConnInfo && 1 ≤ now - st.m_PurgeTimepoint then
    { (purgeClosedConnections st now 0).1 with m_PurgeTimepoint := now }
  else st

/-- Modelled from the spec (§4.3): the tail of `reassemblePacket` once the
packet's connection is at hand: process the packet on it, emit the
deliveries, terminate the connection if both sides turned terminal, and
run the automatic purge. -/
def processFound (st : TcpReassembly) (key : Nat) (c : TcpReassemblyData) (p : Packet)
    (pre : List TraceEvent) : TcpReassembly × List TraceEvent :=
  let r := processConnPacket c p
  let st1 := { st with m_ConnectionList := updateConn st.m_ConnectionList key r.1 }
  let evs := pre ++ r.2.1.map (fun sd => TraceEvent.msgReady key c.connId sd.1 sd.2)
  if r.2.2 then
    let r2 := closeConnectionInternal st1 key false p.time
    (autoPurge r2.1 p.time, evs ++ r2.2)
  else (autoPurge st1 p.time, evs)

/-- Modelled from the spec (§4.3): `TcpReassembly::reassemblePacket`.
Non-TCP packets are ignored; packets of a closed but not yet purged
connection are detected by the info table and ignored (header §
"Additional information"); a novel flow key creates a connection and
fires `onConnectionStart`. -/
def reassemblePacket (st : TcpReassembly) (p : Packet) : TcpReassembly × List TraceEvent :=
  if !p.isTcp then (st, [])
  else
    let key := flowKey p
    match lookupConn st.m_ConnectionList key with
    | some c => processFound st key c p []
    | none =>
      if key ∈ st.m_ConnectionInfo then (st, [])
      else
        let cid := st.nextConnId
        let c : TcpReassemblyData :=
          { numOfSides := 1,
            side0 := { srcIP := p.srcIP, srcPort := p.srcPort },
            connId := cid }
        let st1 := { st with
          m_ConnectionList := st.m_ConnectionList ++ [(key, c)],
          m_ConnectionInfo := st.m_ConnectionInfo ++ [key],
          nextConnId := cid + 1 }
        processFound st1 key c p [TraceEvent.connStart key cid]

/-- Modelled from the spec (§4.6, §7): `TcpReassembly::closeConnection`, the
manual close; closing an unknown or already-closed flow key only logs. -/
def closeConnection (st : TcpReassembly) (key now : Nat) : TcpReassembly × List TraceEvent :=
  closeConnectionInternal st key true now

/-- Modelled from the spec: `TcpReassembly::closeAllConnections` closes every
currently open connection manually. -/
def closeAllGo (now : Nat) : TcpReassembly → List Nat → TcpReassembly × List TraceEvent
  | st, [] => (st, [])
  | st, k :: ks =>
    let r := closeConnection st k now
    let q := closeAllGo now r.1 ks
    (q.1, r.2 ++ q.2)

/-- Modelled from the spec: close all open connections manually. -/
def closeAllConnections (st : TcpReassembly) (now : Nat) : TcpReassembly × List TraceEvent :=
  closeAllGo now st (st.m_ConnectionList.map Prod.fst)

/-- One call of the public mutating interface of the engine. -/
inductive EngineOp where
  | packet (p : Packet)
  | close (key now : Nat)
  | closeAll (now : Nat)
  | purge (maxNumToClean now : Nat)
deriving DecidableEq, Repr

/-- Dispatch one interface call. -/
def stepEngine (st : TcpReassembly) : EngineOp → TcpReassembly × List TraceEvent
  | .packet p => reassemblePacket st p
  | .close k now => closeConnection st k now
  | .closeAll now => closeAllConnections st now
  | .purge limit now => ((purgeClosedConnections st now limit).1, [])

/-- Run a sequence of interface calls, concatenating the callback trace. -/
def runEngine (st : TcpReassembly) : List EngineOp → TcpReassembly × List TraceEvent
  | [] => (st, [])
  | op :: ops =>
    let r := stepEngine st op
    let q := runEngine r.1 ops
    (q.1, r.2 ++ q.2)

/-! ## Trace projections and shape predicates -/

/-- The ghost connection-instance identifier of an event. -/
def eventCid : TraceEvent → Nat
  | .connStart _ cid => cid
  | .msgReady _ cid _ _ => cid
  | .connEnd _ cid _ => cid

/-- The events of one connection instance, in trace order. -/
def cidEvents (tr : List TraceEvent) (cid : Nat) : List TraceEvent :=
  tr.filter (fun e => eventCid e = cid)

/-- The deliveries of one side of one connection instance, in trace order. -/
def sideDeliveries (tr : List TraceEvent) (cid side : Nat) : List Delivery :=
  tr.filterMap (fun e =>
    match e with
    | .msgReady _ c s d => if c = cid ∧ s = side then some d else none
    | _ => none)

/-- Whether an event is an `onConnectionStart` callback. -/
def isStartEv : TraceEvent → Bool
  | .connStart _ _ => true
  | _ => false

/-- Whether an event is an `onMessageReady` callback. -/
def isMsgEv : TraceEvent → Bool
  | .msgReady _ _ _ _ => true
  | _ => false

/-- Whether an event is an `onConnectionEnd` callback. -/
def isEndEv : TraceEvent → Bool
  | .connEnd _ _ _ => true
  | _ => false

/-- `onMessageReady` events optionally terminated by one `onConnectionEnd`. -/
def tailShape : List TraceEvent → Bool
  | [] => true
  | [e] => isMsgEv e || isEndEv e
  | e :: f :: rest => isMsgEv e && tailShape (f :: rest)

/-- The lifecycle shape of one connection's events: nothing, or one
`onConnectionStart` followed by `onMessageReady` events and at most one
final `onConnectionEnd`. -/
def episodeShape : List TraceEvent → Bool
  | [] => true
  | e :: rest => isStartEv e && tailShape rest

/-- The shape of a live connection's events so far: exactly one
`onConnectionStart` followed only by `onMessageReady` events. -/
def openEpisode : List TraceEvent → Bool
  | [] => false
  | e :: rest => isStartEv e && rest.all isMsgEv

/-- A delivery list is chained from `e`: each delivery starts exactly where
the previous one ended (markers covering their declared gap), i.e. the
payloads are in strictly ascending sequence order, contiguous, with no
duplicated and no overlapping bytes. -/
def chainOK : Nat → List Delivery → Bool
  | _, [] => true
  | e, d :: ds => d.startSeq == e && chainOK ((e + d.covered) % SEQ_MOD) ds

/-- The sequence position one past a chained delivery list starting at `e`. -/
def chainEnd : Nat → List Delivery → Nat
  | e, [] => e
  | e, d :: ds => chainEnd ((e + d.covered) % SEQ_MOD) ds

/-- A byte buffer agrees with the stream `f` starting at position `start`. -/
def bytesAgree (f : Nat → Nat) (start : Nat) (bs : List Nat) : Bool :=
  (List.range bs.length).all (fun i => bs.getD i 0 == f ((start + i) % SEQ_MOD))

/-! ## Basic facts about sequence arithmetic -/

theorem seq_diff_lt (a b : Nat) : seq_diff a b < SEQ_MOD := by
  simp only [seq_diff, SEQ_MOD]
  omega

theorem seq_diff_self (a : Nat) : seq_diff a a = 0 := by
  simp only [seq_diff, SEQ_MOD]
  omega

theorem seq_lt_iff (a b : Nat) : seq_lt a b = true ↔ SEQ_HALF ≤ seq_diff a b := by
  simp [seq_lt]

theorem seq_le_iff (a b : Nat) :
    seq_le a b = true ↔ a % SEQ_MOD = b % SEQ_MOD ∨ seq_lt a b = true := by
  simp [seq_le]

/-- Adding the wrapped difference to the subtrahend recovers the minuend. -/
theorem seq_add_diff (a b : Nat) (hb : b < SEQ_MOD) :
    (a % SEQ_MOD + seq_diff b a) % SEQ_MOD = b := by
  simp only [seq_diff, SEQ_MOD] at *
  omega

/-- A step of at most `2^31` positions never decreases the sequence in the
modular order. -/
theorem seq_le_of_small_step (a c : Nat) (hc : c ≤ SEQ_HALF) :
    seq_le a ((a + c) % SEQ_MOD) = true := by
  simp only [seq_le, seq_lt, seq_diff, SEQ_MOD, SEQ_HALF] at *
  simp only [Bool.or_eq_true, decide_eq_true_eq]
  omega

/-! ## Chains of deliveries -/

theorem chainOK_append (e : Nat) (xs ys : List Delivery) :
    chainOK e (xs ++ ys) = (chainOK e xs && chainOK (chainEnd e xs) ys) := by
  induction xs generalizing e with
  | nil => simp [chainOK, chainEnd]
  | cons d ds ih =>
    simp only [List.cons_append, chainOK, chainEnd, List.append_eq, ih, Bool.and_assoc]

theorem chainEnd_append (e : Nat) (xs ys : List Delivery) :
    chainEnd e (xs ++ ys) = chainEnd (chainEnd e xs) ys := by
  induction xs generalizing e with
  | nil => simp [chainEnd]
  | cons d ds ih => simp only [List.cons_append, chainEnd, List.append_eq, ih]

/-! ## Fragment invariants -/

/-- Structural well-formedness of a buffered fragment: it holds at least one
byte and its sequence number is reduced. -/
def fragBase (f : TcpFragment) : Prop := f.data ≠ [] ∧ f.sequence < SEQ_MOD

/-- The window invariant of a buffered fragment relative to the expected
sequence `e`: the fragment starts strictly beyond `e` but within half the
sequence space, and ends strictly beyond `e` (the property of claim C5). -/
def fragInv (e : Nat) (f : TcpFragment) : Prop :=
  0 < seq_diff f.sequence e ∧ seq_diff f.sequence e ≤ SEQ_HALF ∧
    seq_lt e (fragEnd f) = true

/-- The invariant of one side: an uninitialized expected sequence has an
empty fragment store; an initialized one is reduced and every buffered
fragment satisfies the window invariant. -/
def sideInv (s : TcpOneSideData) : Prop :=
  match s.sequence with
  | none => s.tcpFragmentList = []
  | some e => e < SEQ_MOD ∧ ∀ f ∈ s.tcpFragmentList, fragBase f ∧ fragInv e f

/-- A fragment that a finished drain pass keeps (neither stale nor
deliverable) satisfies the window invariant. -/
theorem kept_fragInv (e : Nat) (f : TcpFragment) (he : e < SEQ_MOD)
    (hb : fragBase f) (hst : isStale e f = false) (hdl : isDeliverable e f = false) :
    fragInv e f := by
  simp only [isStale, Bool.not_eq_false', isDeliverable, Bool.and_eq_false_iff] at hst hdl
  rcases hdl with hdl | hdl
  · refine ⟨?_, ?_, hst⟩ <;>
    · simp only [seq_le, seq_lt, seq_diff, Bool.or_eq_false_iff, decide_eq_false_iff_not,
        SEQ_MOD, SEQ_HALF] at hdl ⊢
      omega
  · rw [hst] at hdl
    simp at hdl

/-! ## Properties of the fragment-store drain -/

theorem findDeliverable_none (e : Nat) (l : List TcpFragment)
    (h : findDeliverable e l = none) : ∀ f ∈ l, isDeliverable e f = false := by
  induction l with
  | nil => simp
  | cons f fs ih =>
    intro g hg
    simp only [findDeliverable] at h
    by_cases hf : isDeliverable e f = true
    · simp [hf] at h
    · rcases List.mem_cons.mp hg with hg | hg
      · subst hg; simpa using hf
      · rw [if_neg hf] at h
        cases hrec : findDeliverable e fs with
        | none => exact ih hrec g hg
        | some p => rw [hrec] at h; simp at h

theorem findDeliverable_some (e : Nat) (l : List TcpFragment)
    (f : TcpFragment) (r : List TcpFragment)
    (h : findDeliverable e l = some (f, r)) :
    isDeliverable e f = true ∧ f ∈ l ∧ r.length + 1 = l.length ∧ ∀ g ∈ r, g ∈ l := by
  induction l generalizing f r with
  | nil => simp [findDeliverable] at h
  | cons a fs ih =>
    simp only [findDeliverable] at h
    by_cases ha : isDeliverable e a = true
    · rw [if_pos ha] at h
      obtain ⟨rfl, rfl⟩ : a = f ∧ fs = r := by
        constructor <;> [skip; skip] <;> cases h <;> rfl
      exact ⟨ha, List.mem_cons_self _ _, rfl, fun g hg => List.mem_cons_of_mem _ hg⟩
    · rw [if_neg ha] at h
      cases hrec : findDeliverable e fs with
      | none => rw [hrec] at h; simp at h
      | some p =>
        obtain ⟨g, r'⟩ := p
        rw [hrec] at h
        obtain ⟨rfl, rfl⟩ : g = f ∧ a :: r' = r := by
          constructor <;> cases h <;> rfl
        obtain ⟨h1, h2, h3, h4⟩ := ih _ _ hrec
        refine ⟨h1, List.mem_cons_of_mem _ h2, by simpa using h3, ?_⟩
        intro x hx
        rcases List.mem_cons.mp hx with hx | hx
        · subst hx; exact List.mem_cons_self _ _
        · exact List.mem_cons_of_mem _ (h4 x hx)

/-- The single-fragment delivery: starts at the expected sequence, is not a
marker, advances the expected sequence exactly by its byte count, and
lands on the fragment's end. -/
theorem deliverFragment_spec (e : Nat) (f : TcpFragment) (he : e < SEQ_MOD)
    (hb : fragBase f) (hd : isDeliverable e f = true) :
    (deliverFragment e f).2.startSeq = e ∧
    (deliverFragment e f).2.isMarker = false ∧
    (deliverFragment e f).1 = (e + (deliverFragment e f).2.covered) % SEQ_MOD ∧
    (deliverFragment e f).1 < SEQ_MOD ∧
    (deliverFragment e f).2.bytes.length ≤ f.data.length ∧
    (deliverFragment e f).1 = fragEnd f := by
  obtain ⟨hne, ha⟩ := hb
  have hlen : f.data.length ≠ 0 := by simpa [List.length_eq_zero] using hne
  simp only [isDeliverable, Bool.and_eq_true] at hd
  obtain ⟨h1, h2⟩ := hd
  refine ⟨rfl, rfl, ?_, ?_, ?_, rfl⟩
  · show fragEnd f = (e + (f.data.drop (seq_diff e f.sequence)).length) % SEQ_MOD
    simp only [List.length_drop]
    simp only [seq_le, seq_lt, seq_diff, fragEnd, Bool.or_eq_true, decide_eq_true_eq,
      SEQ_MOD, SEQ_HALF] at h1 h2 ⊢
    omega
  · show fragEnd f < SEQ_MOD
    simp only [fragEnd, SEQ_MOD]
    omega
  · show (f.data.drop (seq_diff e f.sequence)).length ≤ f.data.length
    simp [List.length_drop]

/-- Dropping `k` bytes of a buffer that agrees with a stream yields a buffer
that agrees with the stream `k` positions later. -/
theorem bytesAgree_drop (g : Nat → Nat) (start : Nat) (bs : List Nat) (k : Nat)
    (h : bytesAgree g start bs = true) :
    bytesAgree g ((start + k) % SEQ_MOD) (bs.drop k) = true := by
  simp only [bytesAgree, List.all_eq_true, List.mem_range, beq_iff_eq] at h ⊢
  intro i hi
  rw [List.length_drop] at hi
  have h1 : (bs.drop k).getD i 0 = bs.getD (k + i) 0 := by
    simp only [List.getD_eq_getElem?_getD, List.getElem?_drop]
  have h2 : bs.getD (k + i) 0 = g ((start + (k + i)) % SEQ_MOD) := h (k + i) (by omega)
  rw [h1, h2]
  congr 1
  simp only [SEQ_MOD]
  omega

/-- Master lemma of the fragment-store drain: the deliveries form a chain
from the entry expected sequence to the exit one, no markers are emitted,
remaining fragments come from the input and satisfy the window invariant
at the exit sequence, each delivery is bounded by some input fragment,
and the exit sequence is the entry one or some input fragment's end. -/
theorem drainGo_spec (fuel : Nat) : ∀ (e : Nat) (fs : List TcpFragment),
    fs.length < fuel → e < SEQ_MOD → (∀ f ∈ fs, fragBase f) →
    chainOK e (drainGo fuel e fs).2.2 = true ∧
    chainEnd e (drainGo fuel e fs).2.2 = (drainGo fuel e fs).1 ∧
    (drainGo fuel e fs).1 < SEQ_MOD ∧
    (∀ f ∈ (drainGo fuel e fs).2.1, f ∈ fs) ∧
    (∀ f ∈ (drainGo fuel e fs).2.1, fragInv (drainGo fuel e fs).1 f) ∧
    (∀ d ∈ (drainGo fuel e fs).2.2, d.isMarker = false) ∧
    (∀ d ∈ (drainGo fuel e fs).2.2, ∃ f ∈ fs, d.bytes.length ≤ f.data.length) ∧
    (drainGo fuel e fs).2.1.length ≤ fs.length ∧
    ((drainGo fuel e fs).1 = e ∨ ∃ f ∈ fs, (drainGo fuel e fs).1 = fragEnd f) := by
  induction fuel with
  | zero => intro e fs hfuel; omega
  | succ fuel ih =>
    intro e fs hfuel he hbase
    have hsub : ∀ f ∈ fs.filter (fun f => !isStale e f), f ∈ fs := by
      intro f hf; exact (List.mem_filter.mp hf).1
    have hflen : (fs.filter (fun f => !isStale e f)).length ≤ fs.length :=
      List.length_filter_le _ _
    simp only [drainGo]
    cases hfind : findDeliverable e (fs.filter (fun f => !isStale e f)) with
    | none =>
      simp only [hfind]
      refine ⟨by first | trivial | simp [chainOK], by first | trivial | simp [chainEnd],
        he, hsub, ?_, by simp, by simp, hflen, by left; trivial⟩
      intro f hf
      have h1 : isStale e f = false := by
        have := (List.mem_filter.mp hf).2
        simpa using this
      exact kept_fragInv e f he (hbase f (hsub f hf)) h1
        (findDeliverable_none e _ hfind f hf)
    | some p =>
      obtain ⟨f, rest⟩ := p
      obtain ⟨hdel, hmem, hrlen, hrsub⟩ := findDeliverable_some e _ f rest hfind
      have hfbase : fragBase f := hbase f (hsub f hmem)
      obtain ⟨d1, d2, d3, d4, d5, d6⟩ := deliverFragment_spec e f he hfbase hdel
      have hrest : ∀ g ∈ rest, g ∈ fs := fun g hg => hsub g (hrsub g hg)
      have hrfuel : rest.length < fuel := by omega
      obtain ⟨c1, c2, c3, c4, c5, c6, c7, c8, c9⟩ :=
        ih (deliverFragment e f).1 rest hrfuel d4 (fun g hg => hbase g (hrest g hg))
      simp only [hfind]
      refine ⟨?_, ?_, c3, ?_, c5, ?_, ?_, ?_, ?_⟩
      · simp only [chainOK, d1, beq_self_eq_true, Bool.true_and, ← d3, c1]
      · simp only [chainEnd, ← d3, c2]
      · intro g hg; exact hrest g (c4 g hg)
      · intro d hd
        rcases List.mem_cons.mp hd with hd | hd
        · subst hd; exact d2
        · exact c6 d hd
      · intro d hd
        rcases List.mem_cons.mp hd with hd | hd
        · subst hd; exact ⟨f, hsub f hmem, d5⟩
        · obtain ⟨g, hg1, hg2⟩ := c7 d hd
          exact ⟨g, hrest g hg1, hg2⟩
      · omega
      · rcases c9 with h | ⟨g, hg1, hg2⟩
        · exact Or.inr ⟨f, hsub f hmem, by rw [h, d6]⟩
        · exact Or.inr ⟨g, hrest g hg1, hg2⟩

/-- Every payload the drain delivers agrees with the sender stream the
buffered fragments agree with. -/
theorem drainGo_agree (g : Nat → Nat) (fuel : Nat) : ∀ (e : Nat) (fs : List TcpFragment),
    e < SEQ_MOD → (∀ f ∈ fs, fragBase f) →
    (∀ f ∈ fs, bytesAgree g f.sequence f.data = true) →
    ∀ d ∈ (drainGo fuel e fs).2.2, bytesAgree g d.startSeq d.bytes = true := by
  induction fuel with
  | zero => intro e fs _ _ _ d hd; simp [drainGo] at hd
  | succ fuel ih =>
    intro e fs he hbase hagree
    have hsub : ∀ f ∈ fs.filter (fun f => !isStale e f), f ∈ fs := by
      intro f hf; exact (List.mem_filter.mp hf).1
    simp only [drainGo]
    cases hfind : findDeliverable e (fs.filter (fun f => !isStale e f)) with
    | none => simp
    | some p =>
      obtain ⟨f, rest⟩ := p
      obtain ⟨hdel, hmem, hrlen, hrsub⟩ := findDeliverable_some e _ f rest hfind
      have hfbase : fragBase f := hbase f (hsub f hmem)
      have hfagree := hagree f (hsub f hmem)
      intro d hd
      rcases List.mem_cons.mp hd with hd | hd
      · subst hd
        show bytesAgree g e (f.data.drop (seq_diff e f.sequence)) = true
        have h1 := bytesAgree_drop g f.sequence f.data (seq_diff e f.sequence) hfagree
        have h2 : (f.sequence + seq_diff e f.sequence) % SEQ_MOD = e := by
          rw [← Nat.mod_add_mod]
          exact seq_add_diff f.sequence e he
        rwa [h2] at h1
      · exact ih (deliverFragment e f).1 rest
          (by simp [deliverFragment, fragEnd, SEQ_MOD]; omega)
          (fun x hx => hbase x (hsub x (hrsub x hx)))
          (fun x hx => hagree x (hsub x (hrsub x hx))) d hd

/-- Delivering a fragment at its own sequence number delivers all its bytes. -/
theorem deliverFragment_self (f : TcpFragment) :
    (deliverFragment f.sequence f).2.startSeq = f.sequence ∧
    (deliverFragment f.sequence f).2.bytes = f.data ∧
    (deliverFragment f.sequence f).2.isMarker = false ∧
    (deliverFragment f.sequence f).1 =
      (f.sequence + (deliverFragment f.sequence f).2.covered) % SEQ_MOD ∧
    (deliverFragment f.sequence f).1 < SEQ_MOD := by
  have hdrop : f.data.drop (seq_diff f.sequence f.sequence) = f.data := by
    rw [seq_diff_self, List.drop_zero]
  refine ⟨rfl, hdrop, rfl, ?_, by simp [deliverFragment, fragEnd, SEQ_MOD]; omega⟩
  show fragEnd f = (f.sequence + (f.data.drop (seq_diff f.sequence f.sequence)).length) % SEQ_MOD
  rw [hdrop, fragEnd]

theorem findClosest_nil (e : Nat) (l : List TcpFragment)
    (h : findClosest e l = none) : l = [] := by
  cases l with
  | nil => rfl
  | cons f fs =>
    simp only [findClosest] at h
    cases hrec : findClosest e fs with
    | none => rw [hrec] at h; simp at h
    | some p =>
      rw [hrec] at h
      by_cases hle : seq_diff f.sequence e ≤ seq_diff p.1.sequence e <;> simp [hle] at h

theorem findClosest_some (e : Nat) : ∀ (l : List TcpFragment) (f : TcpFragment)
    (r : List TcpFragment), findClosest e l = some (f, r) →
    f ∈ l ∧ (∀ g ∈ r, g ∈ l) ∧ r.length + 1 = l.length ∧
      ∀ g ∈ l, seq_diff f.sequence e ≤ seq_diff g.sequence e := by
  intro l
  induction l with
  | nil => intro f r h; simp [findClosest] at h
  | cons a fs ih =>
    intro f r h
    simp only [findClosest] at h
    cases hrec : findClosest e fs with
    | none =>
      rw [hrec] at h
      have hnil : fs = [] := findClosest_nil e fs hrec
      obtain ⟨rfl, rfl⟩ : a = f ∧ ([] : List TcpFragment) = r := by
        constructor <;> cases h <;> rfl
      subst hnil
      exact ⟨List.mem_cons_self _ _, by simp, rfl, by
        intro g hg
        rcases List.mem_cons.mp hg with hg | hg
        · subst hg; omega
        · simp at hg⟩
    | some p =>
      obtain ⟨gmin, r'⟩ := p
      rw [hrec] at h
      have h' : (if seq_diff a.sequence e ≤ seq_diff gmin.sequence e then some (a, fs)
          else some (gmin, a :: r')) = some (f, r) := h
      clear h
      obtain ⟨h1, h2, h3, h4⟩ := ih gmin r' hrec
      by_cases hle : seq_diff a.sequence e ≤ seq_diff gmin.sequence e
      · rw [if_pos hle] at h'
        obtain ⟨rfl, rfl⟩ : a = f ∧ fs = r := by
          constructor <;> cases h' <;> rfl
        refine ⟨List.mem_cons_self _ _, fun g hg => List.mem_cons_of_mem _ hg, rfl, ?_⟩
        intro g hg
        rcases List.mem_cons.mp hg with hg | hg
        · subst hg; omega
        · exact le_trans hle (h4 g hg)
      · rw [if_neg hle] at h'
        obtain ⟨rfl, rfl⟩ : gmin = f ∧ a :: r' = r := by
          constructor <;> cases h' <;> rfl
        refine ⟨List.mem_cons_of_mem _ h1, ?_, by simpa using h3, ?_⟩
        · intro g hg
          rcases List.mem_cons.mp hg with hg | hg
          · subst hg; exact List.mem_cons_self _ _
          · exact List.mem_cons_of_mem _ (h2 g hg)
        · intro g hg
          rcases List.mem_cons.mp hg with hg | hg
          · subst hg; omega
          · exact h4 g hg

theorem markerDelivery_startSeq (e n : Nat) : (markerDelivery e n).startSeq = e := rfl

theorem markerDelivery_covered (e n : Nat) : (markerDelivery e n).covered = n := rfl

theorem markerDelivery_isMarker (e n : Nat) : (markerDelivery e n).isMarker = true := rfl

/-- Master lemma of the out-of-order flush: the deliveries (markers
included, covering their declared gaps) form a chain from the entry
expected sequence to the exit one; each marker declares a gap of at most
`2^31`; non-marker deliveries are bounded by input fragments; remaining
fragments come from the input and satisfy the window invariant. -/
theorem coofGo_spec (fuel : Nat) : ∀ (cw : Bool) (e : Nat) (fs : List TcpFragment),
    fs.length < fuel → e < SEQ_MOD → (∀ f ∈ fs, fragBase f) → (∀ f ∈ fs, fragInv e f) →
    chainOK e (coofGo fuel cw e fs).2.2 = true ∧
    chainEnd e (coofGo fuel cw e fs).2.2 = (coofGo fuel cw e fs).1 ∧
    (coofGo fuel cw e fs).1 < SEQ_MOD ∧
    (∀ f ∈ (coofGo fuel cw e fs).2.1, f ∈ fs) ∧
    (∀ f ∈ (coofGo fuel cw e fs).2.1, fragInv (coofGo fuel cw e fs).1 f) ∧
    (∀ d ∈ (coofGo fuel cw e fs).2.2, d.isMarker = true → d.covered ≤ SEQ_HALF) ∧
    (∀ d ∈ (coofGo fuel cw e fs).2.2, d.isMarker = false →
        ∃ f ∈ fs, d.bytes.length ≤ f.data.length) ∧
    (coofGo fuel cw e fs).2.1.length ≤ fs.length := by
  induction fuel with
  | zero => intro cw e fs hfuel; omega
  | succ fuel ih =>
    intro cw e fs hfuel he hbase hinv
    simp only [coofGo]
    cases hcl : findClosest e fs with
    | none =>
      simp only [hcl]
      exact ⟨rfl, rfl, he, fun f hf => hf, fun f hf => hinv f hf, by simp, by simp, le_refl _⟩
    | some pr =>
      obtain ⟨f, rest⟩ := pr
      simp only [hcl]
      obtain ⟨hfmem, hrsub, hrlen, hmin⟩ := findClosest_some e fs f rest hcl
      have hfbase : fragBase f := hbase f hfmem
      obtain ⟨hn1, hn2, hn3⟩ := hinv f hfmem
      have hjump : (e + seq_diff f.sequence e) % SEQ_MOD = f.sequence := by
        have := seq_add_diff e f.sequence hfbase.2
        rwa [Nat.mod_eq_of_lt he] at this
      obtain ⟨s1, s2, s3, s4, s5⟩ := deliverFragment_self f
      have hrbase : ∀ g ∈ rest, fragBase g := fun g hg => hbase g (hrsub g hg)
      obtain ⟨c1, c2, c3, c4, c5, c6, c7, c8, c9⟩ :=
        drainGo_spec (rest.length + 1) (deliverFragment f.sequence f).1 rest
          (by omega) s5 hrbase
      have hroundOK : chainOK e (markerDelivery e (seq_diff f.sequence e) ::
          (deliverFragment f.sequence f).2 ::
          (drainFragments (deliverFragment f.sequence f).1 rest).2.2) = true := by
        simp only [chainOK, markerDelivery_startSeq, markerDelivery_covered,
          beq_self_eq_true, Bool.true_and, hjump, drainFragments, s1, ← s4, c1]
      have hroundEnd : chainEnd e (markerDelivery e (seq_diff f.sequence e) ::
          (deliverFragment f.sequence f).2 ::
          (drainFragments (deliverFragment f.sequence f).1 rest).2.2) =
          (drainFragments (deliverFragment f.sequence f).1 rest).1 := by
        simp only [chainEnd, markerDelivery_covered, markerDelivery_startSeq, hjump,
          drainFragments, ← s4, c2]
      have hroundMarkers : ∀ d ∈ (markerDelivery e (seq_diff f.sequence e) ::
          (deliverFragment f.sequence f).2 ::
          (drainFragments (deliverFragment f.sequence f).1 rest).2.2),
          d.isMarker = true → d.covered ≤ SEQ_HALF := by
        intro d hd hm
        rcases List.mem_cons.mp hd with hd | hd
        · subst hd
          rw [markerDelivery_covered]
          exact hn2
        rcases List.mem_cons.mp hd with hd | hd
        · subst hd; rw [s3] at hm; simp at hm
        · rw [c6 d hd] at hm; simp at hm
      have hroundBytes : ∀ d ∈ (markerDelivery e (seq_diff f.sequence e) ::
          (deliverFragment f.sequence f).2 ::
          (drainFragments (deliverFragment f.sequence f).1 rest).2.2),
          d.isMarker = false → ∃ g ∈ fs, d.bytes.length ≤ g.data.length := by
        intro d hd hm
        rcases List.mem_cons.mp hd with hd | hd
        · subst hd; rw [markerDelivery_isMarker] at hm; simp at hm
        rcases List.mem_cons.mp hd with hd | hd
        · subst hd; exact ⟨f, hfmem, by rw [s2]⟩
        · obtain ⟨g, hg1, hg2⟩ := c7 d hd
          exact ⟨g, hrsub g hg1, hg2⟩
      cases cw with
      | false =>
        rw [if_neg Bool.false_ne_true]
        refine ⟨hroundOK, hroundEnd, c3, ?_, c5, hroundMarkers, hroundBytes, ?_⟩
        · intro g hg; exact hrsub g (c4 g hg)
        · simp only [drainFragments]
          omega
      | true =>
        rw [if_pos rfl]
        have hq3 : (drainFragments (deliverFragment f.sequence f).1 rest).2.1.length < fuel := by
          have := c8
          simp only [drainFragments] at this ⊢
          omega
        obtain ⟨m1, m2, m3, m4, m5, m6, m7, m8⟩ :=
          ih true (drainFragments (deliverFragment f.sequence f).1 rest).1
            (drainFragments (deliverFragment f.sequence f).1 rest).2.1 hq3 c3
            (fun g hg => hrbase g (c4 g hg)) c5
        refine ⟨?_, ?_, m3, ?_, m5, ?_, ?_, ?_⟩
        · rw [chainOK_append, hroundOK, hroundEnd, m1]
          rfl
        · rw [chainEnd_append, hroundEnd, m2]
        · intro g hg; exact hrsub g (c4 g (m4 g hg))
        · intro d hd
          rcases List.mem_append.mp hd with hd | hd
          · exact hroundMarkers d hd
          · exact m6 d hd
        · intro d hd
          rcases List.mem_append.mp hd with hd | hd
          · exact hroundBytes d hd
          · intro hm
            obtain ⟨g, hg1, hg2⟩ := m7 d hd hm
            exact ⟨g, hrsub g (c4 g hg1), hg2⟩
        · have hlen : (drainFragments (deliverFragment f.sequence f).1 rest).2.1.length ≤
              rest.length := by simpa [drainFragments] using c8
          simp only [drainFragments] at hlen m8 ⊢
          omega

theorem drainGo_subset (fuel : Nat) : ∀ (e : Nat) (fs : List TcpFragment),
    ∀ f ∈ (drainGo fuel e fs).2.1, f ∈ fs := by
  induction fuel with
  | zero => intro e fs f hf; simpa [drainGo] using hf
  | succ fuel ih =>
    intro e fs f hf
    simp only [drainGo] at hf
    cases hfind : findDeliverable e (fs.filter (fun f => !isStale e f)) with
    | none =>
      simp only [hfind] at hf
      exact (List.mem_filter.mp hf).1
    | some p =>
      obtain ⟨g, rest⟩ := p
      simp only [hfind] at hf
      obtain ⟨_, _, _, hrsub⟩ := findDeliverable_some e _ g rest hfind
      exact (List.mem_filter.mp (hrsub f (ih _ rest f hf))).1

theorem coofGo_subset (fuel : Nat) : ∀ (cw : Bool) (e : Nat) (fs : List TcpFragment),
    ∀ f ∈ (coofGo fuel cw e fs).2.1, f ∈ fs := by
  induction fuel with
  | zero => intro cw e fs f hf; simpa [coofGo] using hf
  | succ fuel ih =>
    intro cw e fs f hf
    simp only [coofGo] at hf
    cases hcl : findClosest e fs with
    | none => simp only [hcl] at hf; exact hf
    | some pr =>
      obtain ⟨g, rest⟩ := pr
      simp only [hcl] at hf
      obtain ⟨_, hrsub, _, _⟩ := findClosest_some e fs g rest hcl
      cases cw with
      | false =>
        rw [if_neg Bool.false_ne_true] at hf
        exact hrsub f (drainGo_subset _ _ rest f hf)
      | true =>
        rw [if_pos rfl] at hf
        exact hrsub f (drainGo_subset _ _ rest f (ih true _ _ f hf))

/-- Every non-marker payload the flush delivers agrees with the sender
stream the buffered fragments agree with. -/
theorem coofGo_agree (g : Nat → Nat) (fuel : Nat) : ∀ (cw : Bool) (e : Nat)
    (fs : List TcpFragment), e < SEQ_MOD → (∀ f ∈ fs, fragBase f) →
    (∀ f ∈ fs, bytesAgree g f.sequence f.data = true) →
    ∀ d ∈ (coofGo fuel cw e fs).2.2, d.isMarker = false →
      bytesAgree g d.startSeq d.bytes = true := by
  induction fuel with
  | zero => intro cw e fs _ _ _ d hd; simp [coofGo] at hd
  | succ fuel ih =>
    intro cw e fs he hbase hagree d hd hm
    simp only [coofGo] at hd
    cases hcl : findClosest e fs with
    | none => simp only [hcl] at hd; simp at hd
    | some pr =>
      obtain ⟨f, rest⟩ := pr
      simp only [hcl] at hd
      obtain ⟨hfmem, hrsub, hrlen, _⟩ := findClosest_some e fs f rest hcl
      obtain ⟨s1, s2, s3, s4, s5⟩ := deliverFragment_self f
      have hdrain : ∀ d ∈ (drainFragments (deliverFragment f.sequence f).1 rest).2.2,
          bytesAgree g d.startSeq d.bytes = true := by
        intro d hd
        exact drainGo_agree g (rest.length + 1) (deliverFragment f.sequence f).1 rest s5
          (fun x hx => hbase x (hrsub x hx)) (fun x hx => hagree x (hrsub x hx)) d hd
      have hhead : ∀ x ∈ (markerDelivery e (seq_diff f.sequence e) ::
          (deliverFragment f.sequence f).2 ::
          (drainFragments (deliverFragment f.sequence f).1 rest).2.2),
          x.isMarker = false → bytesAgree g x.startSeq x.bytes = true := by
        intro x hx hxm
        rcases List.mem_cons.mp hx with hx | hx
        · subst hx; rw [markerDelivery_isMarker] at hxm; simp at hxm
        rcases List.mem_cons.mp hx with hx | hx
        · subst hx
          rw [s1, s2]
          exact hagree f hfmem
        · exact hdrain x hx
      cases cw with
      | false =>
        rw [if_neg Bool.false_ne_true] at hd
        exact hhead d hd hm
      | true =>
        rw [if_pos rfl] at hd
        rcases List.mem_append.mp hd with hd | hd
        · exact hhead d hd hm
        · have hsub2 : ∀ x ∈ (drainFragments (deliverFragment f.sequence f).1 rest).2.1,
              x ∈ fs := fun x hx => hrsub x (drainGo_subset _ _ rest x hx)
          exact ih true (drainFragments (deliverFragment f.sequence f).1 rest).1
            (drainFragments (deliverFragment f.sequence f).1 rest).2.1
            (by
              have := drainGo_spec (rest.length + 1) (deliverFragment f.sequence f).1 rest
                (by omega) s5 (fun x hx => hbase x (hrsub x hx))
              exact this.2.2.1)
            (fun x hx => hbase x (hsub2 x hx))
            (fun x hx => hagree x (hsub2 x hx)) d hd hm

/-! ## Side-level progress -/

/-- How one operation advances a side: an initialized expected sequence is
chained forward by the deliveries; an initialization picks some base; an
untouched uninitialized side delivers nothing. -/
def sideProgress : Option Nat → Option Nat → List Delivery → Prop
  | some e, some e2, ds => chainOK e ds = true ∧ chainEnd e ds = e2
  | none, some e2, ds => ∃ b, chainOK b ds = true ∧ chainEnd b ds = e2
  | none, none, ds => ds = []
  | some _, none, _ => False

theorem sideProgress_refl (o : Option Nat) : sideProgress o o [] := by
  cases o <;> simp [sideProgress, chainOK, chainEnd]

theorem sideProgress_trans (o1 o2 o3 : Option Nat) (ds1 ds2 : List Delivery)
    (h1 : sideProgress o1 o2 ds1) (h2 : sideProgress o2 o3 ds2) :
    sideProgress o1 o3 (ds1 ++ ds2) := by
  cases o1 with
  | some e1 =>
    cases o2 with
    | some e2 =>
      cases o3 with
      | some e3 =>
        obtain ⟨a1, a2⟩ := h1
        obtain ⟨b1, b2⟩ := h2
        exact ⟨by rw [chainOK_append, a1, a2, b1]; rfl, by rw [chainEnd_append, a2, b2]⟩
      | none => exact absurd h2 (by simp [sideProgress])
    | none => exact absurd h1 (by simp [sideProgress])
  | none =>
    cases o2 with
    | some e2 =>
      cases o3 with
      | some e3 =>
        obtain ⟨b, a1, a2⟩ := h1
        obtain ⟨b1, b2⟩ := h2
        exact ⟨b, by rw [chainOK_append, a1, a2, b1]; rfl, by rw [chainEnd_append, a2, b2]⟩
      | none => exact absurd h2 (by simp [sideProgress])
    | none =>
      cases o3 with
      | some e3 =>
        subst h1
        obtain ⟨b, b1, b2⟩ := h2
        exact ⟨b, by simpa using b1, by simpa using b2⟩
      | none => subst h1; simpa using h2

/-- Specification of `checkOutOfOrderFragments`: preserves the side
invariant and endpoint identity, advances the expected sequence along the
chained deliveries, bounds marker gaps by `2^31` and data deliveries by
buffered fragments, and only keeps fragments that were already buffered. -/
theorem checkOutOfOrderFragments_spec (cw : Bool) (s : TcpOneSideData) (hs : sideInv s) :
    sideInv (checkOutOfOrderFragments cw s).1 ∧
    sideProgress s.sequence (checkOutOfOrderFragments cw s).1.sequence
      (checkOutOfOrderFragments cw s).2 ∧
    (checkOutOfOrderFragments cw s).1.srcIP = s.srcIP ∧
    (checkOutOfOrderFragments cw s).1.srcPort = s.srcPort ∧
    (checkOutOfOrderFragments cw s).1.gotFinOrRst = s.gotFinOrRst ∧
    (∀ d ∈ (checkOutOfOrderFragments cw s).2, d.isMarker = true → d.covered ≤ SEQ_HALF) ∧
    (∀ d ∈ (checkOutOfOrderFragments cw s).2, d.isMarker = false →
        ∃ f ∈ s.tcpFragmentList, d.bytes.length ≤ f.data.length) ∧
    (∀ f ∈ (checkOutOfOrderFragments cw s).1.tcpFragmentList, f ∈ s.tcpFragmentList) := by
  unfold checkOutOfOrderFragments
  cases hseq : s.sequence with
  | none =>
    simp only
    rw [← hseq]
    exact ⟨hs, sideProgress_refl _, by trivial, by trivial, by trivial, by simp, by simp,
      by simp⟩
  | some e =>
    simp only
    unfold sideInv at hs
    rw [hseq] at hs
    obtain ⟨he, hfr⟩ := hs
    obtain ⟨c1, c2, c3, c4, c5, c6, c7, c8⟩ :=
      coofGo_spec (s.tcpFragmentList.length + 1) cw e s.tcpFragmentList (by omega) he
        (fun f hf => (hfr f hf).1) (fun f hf => (hfr f hf).2)
    refine ⟨?_, ?_, by trivial, by trivial, by trivial, c6, c7, c4⟩
    · unfold sideInv
      simp only
      exact ⟨c3, fun f hf => ⟨(hfr f (c4 f hf)).1, c5 f hf⟩⟩
    · exact ⟨c1, c2⟩

/-- `checkOutOfOrderFragments` delivers only payloads that agree with the
stream the buffered fragments agree with (markers aside). -/
theorem checkOutOfOrderFragments_agree (g : Nat → Nat) (cw : Bool) (s : TcpOneSideData)
    (hs : sideInv s)
    (hf : ∀ f ∈ s.tcpFragmentList, bytesAgree g f.sequence f.data = true) :
    ∀ d ∈ (checkOutOfOrderFragments cw s).2, d.isMarker = false →
      bytesAgree g d.startSeq d.bytes = true := by
  unfold checkOutOfOrderFragments
  cases hseq : s.sequence with
  | none => simp
  | some e =>
    simp only
    unfold sideInv at hs
    rw [hseq] at hs
    obtain ⟨he, hfr⟩ := hs
    exact coofGo_agree g (s.tcpFragmentList.length + 1) cw e s.tcpFragmentList he
      (fun f hff => (hfr f hff).1) hf

/-- Specification of the segment classification (`processTcpPayload`):
preserves the side invariant and endpoint identity, advances the expected
sequence along the chained deliveries, never emits a marker, bounds each
delivery by the payload or a buffered fragment, and only adds the present
segment to the fragment store. -/
theorem processTcpPayload_spec (s : TcpOneSideData) (seq : Nat) (payload : List Nat)
    (hs : sideInv s) :
    sideInv (processTcpPayload s seq payload).1 ∧
    sideProgress s.sequence (processTcpPayload s seq payload).1.sequence
      (processTcpPayload s seq payload).2 ∧
    (processTcpPayload s seq payload).1.srcIP = s.srcIP ∧
    (processTcpPayload s seq payload).1.srcPort = s.srcPort ∧
    (processTcpPayload s seq payload).1.gotFinOrRst = s.gotFinOrRst ∧
    (∀ d ∈ (processTcpPayload s seq payload).2, d.isMarker = false) ∧
    (∀ d ∈ (processTcpPayload s seq payload).2, d.bytes.length ≤ payload.length ∨
        ∃ f ∈ s.tcpFragmentList, d.bytes.length ≤ f.data.length) ∧
    (∀ f ∈ (processTcpPayload s seq payload).1.tcpFragmentList,
        f ∈ s.tcpFragmentList ∨ f = ⟨seq % SEQ_MOD, payload⟩) := by
  unfold processTcpPayload
  by_cases hemp : payload.isEmpty
  · rw [if_pos hemp]
    exact ⟨hs, sideProgress_refl _, by trivial, by trivial, by trivial, by simp, by simp,
      fun f hf => Or.inl hf⟩
  · rw [if_neg hemp]
    cases hseq : s.sequence with
    | none =>
      simp only
      rw [← hseq]
      exact ⟨hs, sideProgress_refl _, by trivial, by trivial, by trivial, by simp, by simp,
        fun f hf => Or.inl hf⟩
    | some e =>
      simp only
      have hsinv := hs
      unfold sideInv at hsinv
      rw [hseq] at hsinv
      obtain ⟨he, hfr⟩ := hsinv
      have hne : payload ≠ [] := by simpa [List.isEmpty_iff] using hemp
      by_cases h1 : (seq_lt ((seq % SEQ_MOD + payload.length) % SEQ_MOD) e
          || decide ((seq % SEQ_MOD + payload.length) % SEQ_MOD = e)) = true
      · rw [if_pos h1]
        rw [← hseq]
        exact ⟨hs, sideProgress_refl _, by trivial, by trivial, by trivial, by simp, by simp,
          fun f hf => Or.inl hf⟩
      · rw [if_neg h1]
        by_cases h2 : seq_lt (seq % SEQ_MOD) e = true
        · rw [if_pos h2]
          obtain ⟨c1, c2, c3, c4, c5, c6, c7, c8, c9⟩ :=
            drainGo_spec (s.tcpFragmentList.length + 1)
              ((e + (payload.drop (seq_diff e (seq % SEQ_MOD))).length) % SEQ_MOD)
              s.tcpFragmentList (by omega) (by simp [SEQ_MOD]; omega)
              (fun f hf => (hfr f hf).1)
          refine ⟨?_, ?_, by trivial, by trivial, by trivial, ?_, ?_, ?_⟩
          · unfold sideInv
            simp only [drainFragments]
            exact ⟨c3, fun f hf => ⟨(hfr f (c4 f hf)).1, c5 f hf⟩⟩
          · simp only [drainFragments]
            constructor
            · simp only [chainOK, beq_self_eq_true, Bool.true_and]
              show chainOK ((e + (Delivery.mk e (payload.drop (seq_diff e (seq % SEQ_MOD)))
                false 0).covered) % SEQ_MOD) _ = true
              exact c1
            · simp only [chainEnd]
              show chainEnd ((e + (Delivery.mk e (payload.drop (seq_diff e (seq % SEQ_MOD)))
                false 0).covered) % SEQ_MOD) _ = _
              exact c2
          · intro d hd
            rcases List.mem_cons.mp hd with hd | hd
            · subst hd; rfl
            · exact c6 d (by simpa [drainFragments] using hd)
          · intro d hd
            rcases List.mem_cons.mp hd with hd | hd
            · subst hd; exact Or.inl (by simp [List.length_drop])
            · exact Or.inr (c7 d (by simpa [drainFragments] using hd))
          · intro f hf
            exact Or.inl (c4 f (by simpa [drainFragments] using hf))
        · rw [if_neg h2]
          by_cases h3 : seq % SEQ_MOD = e
          · rw [if_pos h3]
            obtain ⟨c1, c2, c3, c4, c5, c6, c7, c8, c9⟩ :=
              drainGo_spec (s.tcpFragmentList.length + 1)
                ((e + payload.length) % SEQ_MOD)
                s.tcpFragmentList (by omega) (by simp [SEQ_MOD]; omega)
                (fun f hf => (hfr f hf).1)
            refine ⟨?_, ?_, by trivial, by trivial, by trivial, ?_, ?_, ?_⟩
            · unfold sideInv
              simp only [drainFragments]
              exact ⟨c3, fun f hf => ⟨(hfr f (c4 f hf)).1, c5 f hf⟩⟩
            · simp only [drainFragments]
              constructor
              · simp only [chainOK, beq_self_eq_true, Bool.true_and]
                show chainOK ((e + (Delivery.mk e payload false 0).covered) % SEQ_MOD) _ = true
                exact c1
              · simp only [chainEnd]
                show chainEnd ((e + (Delivery.mk e payload false 0).covered) % SEQ_MOD) _ = _
                exact c2
            · intro d hd
              rcases List.mem_cons.mp hd with hd | hd
              · subst hd; rfl
              · exact c6 d (by simpa [drainFragments] using hd)
            · intro d hd
              rcases List.mem_cons.mp hd with hd | hd
              · subst hd; exact Or.inl (le_refl _)
              · exact Or.inr (c7 d (by simpa [drainFragments] using hd))
            · intro f hf
              exact Or.inl (c4 f (by simpa [drainFragments] using hf))
          · rw [if_neg h3]
            by_cases h4 : seq_lt e (seq % SEQ_MOD) = true
            · rw [if_pos h4]
              refine ⟨?_, ?_, by trivial, by trivial, by trivial, by simp, by simp, ?_⟩
              · unfold sideInv
                simp only
                refine ⟨he, ?_⟩
                intro f hf
                rcases List.mem_append.mp hf with hf | hf
                · exact hfr f hf
                · rw [List.mem_singleton.mp hf]
                  constructor
                  · exact ⟨hne, by simp [SEQ_MOD]; omega⟩
                  · simp only [Bool.or_eq_true, not_or] at h1
                    obtain ⟨h1a, h1b⟩ := h1
                    refine ⟨?_, ?_, ?_⟩ <;>
                      (simp only [seq_lt, seq_diff, fragEnd, decide_eq_true_eq,
                        Bool.not_eq_true, decide_eq_false_iff_not,
                        SEQ_MOD, SEQ_HALF] at h1a h1b h2 h4 he ⊢ ; omega)
              · constructor
                · simp [chainOK]
                · simp [chainEnd]
              · intro f hf
                rcases List.mem_append.mp hf with hf | hf
                · exact Or.inl hf
                · exact Or.inr (List.mem_singleton.mp hf)
            · rw [if_neg h4]
              rw [← hseq]
              exact ⟨hs, sideProgress_refl _, by trivial, by trivial, by trivial, by simp,
                by simp, fun f hf => Or.inl hf⟩

theorem covered_of_not_marker (d : Delivery) (h : d.isMarker = false) :
    d.covered = d.bytes.length := by
  simp [Delivery.covered, h]

/-- `processTcpPayload` delivers only payload bytes that agree with the
sender stream, and keeps only agreeing fragments, provided the incoming
segment and the buffered fragments agree with that stream. -/
theorem processTcpPayload_agree (g : Nat → Nat) (s : TcpOneSideData) (seq : Nat)
    (payload : List Nat) (hs : sideInv s)
    (hp : bytesAgree g (seq % SEQ_MOD) payload = true)
    (hf : ∀ f ∈ s.tcpFragmentList, bytesAgree g f.sequence f.data = true) :
    (∀ d ∈ (processTcpPayload s seq payload).2, bytesAgree g d.startSeq d.bytes = true) ∧
    (∀ f ∈ (processTcpPayload s seq payload).1.tcpFragmentList,
        bytesAgree g f.sequence f.data = true) := by
  constructor
  · unfold processTcpPayload
    by_cases hemp : payload.isEmpty
    · rw [if_pos hemp]; simp
    · rw [if_neg hemp]
      cases hseq : s.sequence with
      | none => simp
      | some e =>
        simp only
        have hsinv := hs
        unfold sideInv at hsinv
        rw [hseq] at hsinv
        obtain ⟨he, hfr⟩ := hsinv
        have hdrain : ∀ (e1 : Nat), e1 < SEQ_MOD →
            ∀ d ∈ (drainFragments e1 s.tcpFragmentList).2.2,
              bytesAgree g d.startSeq d.bytes = true := by
          intro e1 he1 d hd
          exact drainGo_agree g (s.tcpFragmentList.length + 1) e1 s.tcpFragmentList he1
            (fun x hx => (hfr x hx).1) hf d hd
        by_cases h1 : (seq_lt ((seq % SEQ_MOD + payload.length) % SEQ_MOD) e
            || decide ((seq % SEQ_MOD + payload.length) % SEQ_MOD = e)) = true
        · rw [if_pos h1]; simp
        · rw [if_neg h1]
          by_cases h2 : seq_lt (seq % SEQ_MOD) e = true
          · rw [if_pos h2]
            intro d hd
            rcases List.mem_cons.mp hd with hd | hd
            · subst hd
              show bytesAgree g e (payload.drop (seq_diff e (seq % SEQ_MOD))) = true
              have ha := bytesAgree_drop g (seq % SEQ_MOD) payload
                (seq_diff e (seq % SEQ_MOD)) hp
              have hb : (seq % SEQ_MOD + seq_diff e (seq % SEQ_MOD)) % SEQ_MOD = e := by
                simp only [seq_diff, SEQ_MOD] at he ⊢
                omega
              rwa [hb] at ha
            · exact hdrain _ (by simp [SEQ_MOD]; omega) d hd
          · rw [if_neg h2]
            by_cases h3 : seq % SEQ_MOD = e
            · rw [if_pos h3]
              intro d hd
              rcases List.mem_cons.mp hd with hd | hd
              · subst hd
                show bytesAgree g e payload = true
                rwa [h3] at hp
              · exact hdrain _ (by simp [SEQ_MOD]; omega) d hd
            · rw [if_neg h3]
              by_cases h4 : seq_lt e (seq % SEQ_MOD) = true
              · rw [if_pos h4]; simp
              · rw [if_neg h4]; simp
  · intro f hfmem
    rcases (processTcpPayload_spec s seq payload hs).2.2.2.2.2.2.2 f hfmem with h | h
    · exact hf f h
    · rw [h]
      exact hp

/-- `processTcpPayload` with a payload of at most `2^31` bytes on a side
whose fragments are that small delivers only payloads of at most `2^31`
bytes and keeps only fragments of at most `2^31` bytes. -/
theorem processTcpPayload_bound (s : TcpOneSideData) (seq : Nat) (payload : List Nat)
    (hs : sideInv s) (hb : payload.length ≤ SEQ_HALF)
    (hfb : ∀ f ∈ s.tcpFragmentList, f.data.length ≤ SEQ_HALF) :
    (∀ d ∈ (processTcpPayload s seq payload).2, d.covered ≤ SEQ_HALF) ∧
    (∀ f ∈ (processTcpPayload s seq payload).1.tcpFragmentList,
        f.data.length ≤ SEQ_HALF) := by
  obtain ⟨_, _, _, _, _, hm, hlen, hsub⟩ := processTcpPayload_spec s seq payload hs
  constructor
  · intro d hd
    rw [covered_of_not_marker d (hm d hd)]
    rcases hlen d hd with h | ⟨f, hf1, hf2⟩
    · omega
    · have := hfb f hf1
      omega
  · intro f hfmem
    rcases hsub f hfmem with h | h
    · exact hfb f h
    · rw [h]
      exact hb

/-- `checkOutOfOrderFragments` on a side whose fragments hold at most
`2^31` bytes delivers only payloads covering at most `2^31` sequence
positions and keeps only fragments of at most `2^31` bytes. -/
theorem checkOutOfOrderFragments_bound (cw : Bool) (s : TcpOneSideData) (hs : sideInv s)
    (hfb : ∀ f ∈ s.tcpFragmentList, f.data.length ≤ SEQ_HALF) :
    (∀ d ∈ (checkOutOfOrderFragments cw s).2, d.covered ≤ SEQ_HALF) ∧
    (∀ f ∈ (checkOutOfOrderFragments cw s).1.tcpFragmentList,
        f.data.length ≤ SEQ_HALF) := by
  obtain ⟨_, _, _, _, _, hm, hlen, hsub⟩ := checkOutOfOrderFragments_spec cw s hs
  constructor
  · intro d hd
    cases hmark : d.isMarker with
    | true => exact hm d hd hmark
    | false =>
      rw [covered_of_not_marker d hmark]
      obtain ⟨f, hf1, hf2⟩ := hlen d hd hmark
      have := hfb f hf1
      omega
  · intro f hfmem
    exact hfb f (hsub f hfmem)

/-! ## Connection-level invariants -/

/-- Both sides of a connection satisfy the side invariant. -/
def connInv (c : TcpReassemblyData) : Prop := sideInv c.side0 ∧ sideInv c.side1

/-- The side invariant of the side with index `i`. -/
theorem connInv_getSide (c : TcpReassemblyData) (hc : connInv c) (i : Nat) :
    sideInv (getSide c i) := by
  unfold getSide
  by_cases hi : i = 0 <;> simp [hi, hc.1, hc.2]

theorem getSide_setSide_same (c : TcpReassemblyData) (i : Nat) (s : TcpOneSideData) :
    getSide (setSide c i s) i = s := by
  by_cases hi : i = 0 <;> simp [getSide, setSide, hi]

theorem getSide_setSide_ne (c : TcpReassemblyData) (i j : Nat) (s : TcpOneSideData)
    (hi : i < 2) (hj : j < 2) (hij : i ≠ j) :
    getSide (setSide c i s) j = getSide c j := by
  by_cases h0 : i = 0
  · have h1 : j = 1 := by omega
    simp [getSide, setSide, h0, h1]
  · have h1 : j = 0 := by omega
    simp [getSide, setSide, h0, h1]

theorem setSide_connId (c : TcpReassemblyData) (i : Nat) (s : TcpOneSideData) :
    (setSide c i s).connId = c.connId := by
  by_cases hi : i = 0 <;> simp [setSide, hi]

theorem setSide_prevSide (c : TcpReassemblyData) (i : Nat) (s : TcpOneSideData) :
    (setSide c i s).prevSide = c.prevSide := by
  by_cases hi : i = 0 <;> simp [setSide, hi]

theorem setSide_numOfSides (c : TcpReassemblyData) (i : Nat) (s : TcpOneSideData) :
    (setSide c i s).numOfSides = c.numOfSides := by
  by_cases hi : i = 0 <;> simp [setSide, hi]

theorem connInv_setSide (c : TcpReassemblyData) (i : Nat) (s : TcpOneSideData)
    (hc : connInv c) (hs : sideInv s) : connInv (setSide c i s) := by
  obtain ⟨h0, h1⟩ := hc
  by_cases hi : i = 0
  · exact ⟨by simpa [setSide, hi] using hs, by simpa [setSide, hi] using h1⟩
  · exact ⟨by simpa [setSide, hi] using h0, by simpa [setSide, hi] using hs⟩

/-- Projection of a side-tagged delivery list to one side index. -/
def projSide (l : List (Nat × Delivery)) (i : Nat) : List Delivery :=
  l.filterMap (fun sd => if sd.1 = i then some sd.2 else none)

theorem projSide_append (l1 l2 : List (Nat × Delivery)) (i : Nat) :
    projSide (l1 ++ l2) i = projSide l1 i ++ projSide l2 i := by
  simp [projSide]

theorem projSide_map (ps : Nat) (ds : List Delivery) (i : Nat) :
    projSide (ds.map (fun d => (ps, d))) i = if ps = i then ds else [] := by
  induction ds with
  | nil => simp [projSide]
  | cons d ds ih =>
    simp only [List.map_cons, projSide, List.filterMap_cons] at ih ⊢
    by_cases h : ps = i <;> simp [h] at ih ⊢ <;> exact ih

theorem projSide_nil (i : Nat) : projSide [] i = [] := rfl

/-- Well-formedness of a connection: side invariants, an untouched side 1
while only one side has been seen, and a valid previous-side index. -/
def connWF (c : TcpReassemblyData) : Prop :=
  connInv c ∧ (c.numOfSides ≤ 1 → c.side1 = {}) ∧ (∀ j, c.prevSide = some j → j < 2)

/-- Facts about the side classification: the chosen side is 0 or 1, side 0
is untouched, the chosen side's endpoint is the packet's source, the
sequences and fragment stores of both sides are unchanged, and side 1 is
either untouched or freshly populated. -/
theorem determineSide_spec (c : TcpReassemblyData) (p : Packet) (side : Nat)
    (c1 : TcpReassemblyData) (hdet : determineSide c p = some (side, c1))
    (hc : connWF c) :
    side < 2 ∧ connWF c1 ∧ c1.side0 = c.side0 ∧ c1.connId = c.connId ∧
    c1.prevSide = c.prevSide ∧
    (getSide c1 side).srcIP = p.srcIP ∧ (getSide c1 side).srcPort = p.srcPort ∧
    (∀ i, i < 2 → (getSide c1 i).sequence = (getSide c i).sequence ∧
        (getSide c1 i).tcpFragmentList = (getSide c i).tcpFragmentList ∧
        (getSide c1 i).gotFinOrRst = (getSide c i).gotFinOrRst) ∧
    (c1.side1 = c.side1 ∨ (c.side1 = {} ∧ c1.side1 =
        { srcIP := p.srcIP, srcPort := p.srcPort })) ∧
    (side = 1 → 2 ≤ c1.numOfSides) := by
  obtain ⟨⟨hi0, hi1⟩, hns, hprev⟩ := hc
  unfold determineSide at hdet
  by_cases h0 : c.side0.srcIP = p.srcIP ∧ c.side0.srcPort = p.srcPort
  · rw [if_pos h0] at hdet
    obtain ⟨rfl, rfl⟩ : 0 = side ∧ c = c1 := by constructor <;> cases hdet <;> rfl
    exact ⟨by omega, ⟨⟨hi0, hi1⟩, hns, hprev⟩, rfl, rfl, rfl, h0.1, h0.2,
      fun i _ => ⟨rfl, rfl, rfl⟩, Or.inl rfl, by omega⟩
  · rw [if_neg h0] at hdet
    by_cases h2 : 2 ≤ c.numOfSides
    · rw [if_pos h2] at hdet
      by_cases h1 : c.side1.srcIP = p.srcIP ∧ c.side1.srcPort = p.srcPort
      · rw [if_pos h1] at hdet
        obtain ⟨rfl, rfl⟩ : 1 = side ∧ c = c1 := by constructor <;> cases hdet <;> rfl
        exact ⟨by omega, ⟨⟨hi0, hi1⟩, hns, hprev⟩, rfl, rfl, rfl, by simpa [getSide] using h1.1,
          by simpa [getSide] using h1.2, fun i _ => ⟨rfl, rfl, rfl⟩, Or.inl rfl,
          fun _ => h2⟩
      · rw [if_neg h1] at hdet
        cases hdet
    · rw [if_neg h2] at hdet
      have hside1 : c.side1 = {} := hns (by omega)
      obtain ⟨rfl, rfl⟩ : 1 = side ∧
          ({ c with numOfSides := 2, side1 := { srcIP := p.srcIP, srcPort := p.srcPort } }
            : TcpReassemblyData) = c1 := by
        constructor <;> cases hdet <;> rfl
      refine ⟨by omega, ⟨⟨hi0, ?_⟩, by simp, by simpa using hprev⟩, rfl, rfl, rfl,
        by simp [getSide], by simp [getSide], ?_, Or.inr ⟨hside1, rfl⟩, fun _ => by simp⟩
      · show sideInv { srcIP := p.srcIP, srcPort := p.srcPort }
        unfold sideInv
        simp
      · intro i hilt
        by_cases hi : i = 0
        · simp [getSide, hi]
        · simp only [getSide, hi, if_neg]
          rw [hside1]
          exact ⟨rfl, rfl, rfl⟩

/-- The sequence-initialization step: preserves the side invariant,
fragment store and endpoint identity, and only initializes (never moves)
the expected sequence. -/
theorem initSeqStep_spec (p : Packet) (s0 : TcpOneSideData) (hs : sideInv s0) :
    sideInv (initSeqStep p s0) ∧
    sideProgress s0.sequence (initSeqStep p s0).sequence [] ∧
    (initSeqStep p s0).tcpFragmentList = s0.tcpFragmentList ∧
    (initSeqStep p s0).srcIP = s0.srcIP ∧ (initSeqStep p s0).srcPort = s0.srcPort ∧
    (initSeqStep p s0).gotFinOrRst = s0.gotFinOrRst ∧
    (s0.sequence = none ∨ initSeqStep p s0 = s0) := by
  unfold initSeqStep
  by_cases h1 : p.payload.length = 0 ∧ p.synFlag = true ∧ s0.sequence = none
  · rw [if_pos h1]
    have hemp : s0.tcpFragmentList = [] := by
      unfold sideInv at hs
      rw [h1.2.2] at hs
      exact hs
    refine ⟨?_, ?_, rfl, rfl, rfl, rfl, Or.inl h1.2.2⟩
    · unfold sideInv
      simp only [hemp]
      exact ⟨by simp [SEQ_MOD]; omega, by simp⟩
    · rw [h1.2.2]
      exact ⟨_, rfl, rfl⟩
  · rw [if_neg h1]
    by_cases h2 : 0 < p.payload.length ∧ s0.sequence = none
    · rw [if_pos h2]
      have hemp : s0.tcpFragmentList = [] := by
        unfold sideInv at hs
        rw [h2.2] at hs
        exact hs
      refine ⟨?_, ?_, rfl, rfl, rfl, rfl, Or.inl h2.2⟩
      · unfold sideInv
        simp only [hemp]
        exact ⟨by simp [SEQ_MOD]; omega, by simp⟩
      · rw [h2.2]
        exact ⟨_, rfl, rfl⟩
    · rw [if_neg h2]
      exact ⟨hs, sideProgress_refl _, rfl, rfl, rfl, rfl, Or.inr rfl⟩

theorem checkOOO_default :
    checkOutOfOrderFragments false ({} : TcpOneSideData) = ({}, []) := rfl

/-- The direction-switch flush step: preserves connection well-formedness,
endpoint identities, the present side and all bookkeeping fields; its
deliveries are tagged with the flushed (other) side and advance that
side's expected sequence along the chain; fragments are never added. -/
theorem flushPrevStep_spec (c : TcpReassemblyData) (side : Nat) (hc : connWF c)
    (hside : side < 2) :
    connWF (flushPrevStep c side).1 ∧
    (∀ i, i < 2 → sideProgress (getSide c i).sequence
        (getSide (flushPrevStep c side).1 i).sequence
        (projSide (flushPrevStep c side).2 i)) ∧
    (flushPrevStep c side).1.connId = c.connId ∧
    (flushPrevStep c side).1.prevSide = c.prevSide ∧
    (flushPrevStep c side).1.numOfSides = c.numOfSides ∧
    getSide (flushPrevStep c side).1 side = getSide c side ∧
    (∀ i, i < 2 → (getSide (flushPrevStep c side).1 i).srcIP = (getSide c i).srcIP ∧
        (getSide (flushPrevStep c side).1 i).srcPort = (getSide c i).srcPort ∧
        (getSide (flushPrevStep c side).1 i).gotFinOrRst = (getSide c i).gotFinOrRst) ∧
    (∀ sd ∈ (flushPrevStep c side).2, sd.1 < 2 ∧ sd.1 ≠ side) ∧
    (∀ i, i < 2 → ∀ f ∈ (getSide (flushPrevStep c side).1 i).tcpFragmentList,
        f ∈ (getSide c i).tcpFragmentList) := by
  obtain ⟨hinv, hns, hprev⟩ := hc
  unfold flushPrevStep
  cases hpv : c.prevSide with
  | none =>
    simp only
    exact ⟨⟨hinv, hns, hprev⟩, fun i _ => sideProgress_refl _, by trivial, by rw [hpv],
      by trivial, by trivial, fun i _ => ⟨by trivial, by trivial, by trivial⟩, by simp,
      fun i _ f hf => hf⟩
  | some ps =>
    simp only
    have hps : ps < 2 := hprev ps hpv
    by_cases hne : ps ≠ side
    · rw [if_pos hne]
      obtain ⟨f1, f2, f3, f4, f5, f6, f7, f8⟩ :=
        checkOutOfOrderFragments_spec false (getSide c ps) (connInv_getSide c hinv ps)
      refine ⟨⟨?_, ?_, ?_⟩, ?_, setSide_connId _ _ _, by rw [setSide_prevSide, hpv],
        setSide_numOfSides _ _ _, getSide_setSide_ne c ps side _ hps hside hne, ?_, ?_, ?_⟩
      · exact connInv_setSide c ps _ hinv f1
      · intro hle
        rw [setSide_numOfSides] at hle
        have hs1 : c.side1 = {} := hns hle
        by_cases hps0 : ps = 0
        · subst hps0
          simpa [setSide] using hs1
        · have hps1 : ps = 1 := by omega
          subst hps1
          have : getSide c 1 = ({} : TcpOneSideData) := by simpa [getSide] using hs1
          rw [this, checkOOO_default]
          simp [setSide]
      · intro j hj
        rw [setSide_prevSide, hpv] at hj
        cases hj
        exact hps
      · intro i hi
        by_cases hip : i = ps
        · subst hip
          rw [getSide_setSide_same, projSide_map, if_pos rfl]
          exact f2
        · rw [getSide_setSide_ne c ps i _ hps hi (fun h => hip h.symm),
            projSide_map, if_neg (fun h => hip h.symm)]
          exact sideProgress_refl _
      · intro i hi
        by_cases hip : i = ps
        · subst hip
          rw [getSide_setSide_same]
          exact ⟨f3, f4, f5⟩
        · rw [getSide_setSide_ne c ps i _ hps hi (fun h => hip h.symm)]
          exact ⟨rfl, rfl, rfl⟩
      · intro sd hsd
        obtain ⟨d, _, rfl⟩ := List.mem_map.mp hsd
        exact ⟨hps, hne⟩
      · intro i hi f hf
        by_cases hip : i = ps
        · subst hip
          rw [getSide_setSide_same] at hf
          exact f8 f hf
        · rwa [getSide_setSide_ne c ps i _ hps hi (fun h => hip h.symm)] at hf
    · rw [if_neg hne]
      exact ⟨⟨hinv, hns, hprev⟩, fun i _ => sideProgress_refl _, by trivial, by rw [hpv],
        by trivial, by trivial, fun i _ => ⟨by trivial, by trivial, by trivial⟩, by simp,
        fun i _ f hf => hf⟩

theorem sideInv_gotFin (s : TcpOneSideData) (b : Bool) (hs : sideInv s) :
    sideInv { s with gotFinOrRst := b } := by
  unfold sideInv at hs ⊢
  exact hs

theorem projSide_eq_nil_of_tags (l : List (Nat × Delivery)) (i : Nat)
    (h : ∀ sd ∈ l, sd.1 ≠ i) : projSide l i = [] := by
  induction l with
  | nil => rfl
  | cons sd rest ih =>
    simp only [projSide, List.filterMap_cons, if_neg (h sd (List.mem_cons_self _ _))]
    exact ih (fun x hx => h x (List.mem_cons_of_mem _ hx))

theorem getSide_prevUpdate (c : TcpReassemblyData) (x : Option Nat) (i : Nat) :
    getSide { c with prevSide := x } i = getSide c i := by
  by_cases hi : i = 0 <;> simp [getSide, hi]

/-- Master lemma of per-connection packet processing: preserves connection
well-formedness and the ghost identifier; each side's expected sequence
advances along the chain of that side's deliveries; every delivery is
tagged with side 0 or 1; endpoint identities only change when side 1 is
first populated, to the packet's source. -/
theorem processConnPacket_spec (c : TcpReassemblyData) (p : Packet) (hc : connWF c) :
    connWF (processConnPacket c p).1 ∧
    (∀ i, i < 2 → sideProgress (getSide c i).sequence
        (getSide (processConnPacket c p).1 i).sequence
        (projSide (processConnPacket c p).2.1 i)) ∧
    (processConnPacket c p).1.connId = c.connId ∧
    (∀ sd ∈ (processConnPacket c p).2.1, sd.1 < 2) ∧
    (∀ i, i < 2 →
        ((getSide (processConnPacket c p).1 i).srcIP = (getSide c i).srcIP ∧
         (getSide (processConnPacket c p).1 i).srcPort = (getSide c i).srcPort) ∨
        (i = 1 ∧ c.side1 = {} ∧ (getSide (processConnPacket c p).1 i).srcIP = p.srcIP ∧
         (getSide (processConnPacket c p).1 i).srcPort = p.srcPort)) := by
  unfold processConnPacket
  cases hdet : determineSide c p with
  | none =>
    simp only
    exact ⟨hc, fun i _ => sideProgress_refl _, by trivial, by simp,
      fun i _ => Or.inl ⟨by trivial, by trivial⟩⟩
  | some pr =>
    obtain ⟨side, c1⟩ := pr
    simp only
    obtain ⟨hside, hwf1, hs0eq, hcid1, hpv1, hsrcA, hsrcB, hseqs, hside1or, hnum1⟩ :=
      determineSide_spec c p side c1 hdet hc
    obtain ⟨i1inv, i1prog, i1frag, i1ip, i1port, i1fin, i1or⟩ :=
      initSeqStep_spec p (getSide c1 side) (connInv_getSide c1 hwf1.1 side)
    have wf2 : connWF (setSide c1 side (initSeqStep p (getSide c1 side))) := by
      refine ⟨connInv_setSide c1 side _ hwf1.1 i1inv, ?_, ?_⟩
      · intro hle
        rw [setSide_numOfSides] at hle
        by_cases hz : side = 0
        · subst hz
          have := hwf1.2.1 hle
          simpa [setSide] using this
        · have := hnum1 (by omega)
          omega
      · intro j hj
        rw [setSide_prevSide] at hj
        exact hwf1.2.2 j hj
    obtain ⟨fwf, fprog, fcid, fprev, fnum, fside, fids, ftags, fsub⟩ :=
      flushPrevStep_spec (setSide c1 side (initSeqStep p (getSide c1 side))) side wf2 hside
    obtain ⟨p8inv, p8prog, p8ip, p8port, p8fin, p8marks, p8len, p8sub⟩ :=
      processTcpPayload_spec
        (getSide (flushPrevStep (setSide c1 side (initSeqStep p (getSide c1 side))) side).1 side)
        (p.seqNum % SEQ_MOD) p.payload
        (connInv_getSide _ fwf.1 side)
    set s1 := initSeqStep p (getSide c1 side) with hs1def
    set c2 := setSide c1 side s1 with hc2def
    set fl := flushPrevStep c2 side with hfldef
    set r8 := processTcpPayload (getSide fl.1 side) (p.seqNum % SEQ_MOD) p.payload with hr8def
    set c4 := setSide fl.1 side r8.1 with hc4def
    have wf4 : connWF c4 := by
      refine ⟨connInv_setSide fl.1 side _ fwf.1 p8inv, ?_, ?_⟩
      · intro hle
        rw [hc4def, setSide_numOfSides] at hle
        by_cases hz : side = 0
        · subst hz
          have := fwf.2.1 hle
          rw [hc4def]
          simpa [setSide] using this
        · have h2 : 2 ≤ c1.numOfSides := hnum1 (by omega)
          rw [fnum, hc2def, setSide_numOfSides] at hle
          omega
      · intro j hj
        rw [hc4def, setSide_prevSide] at hj
        exact fwf.2.2 j hj
    set c5 : TcpReassemblyData := { c4 with prevSide := some side } with hc5def
    have wf5 : connWF c5 := by
      refine ⟨wf4.1, wf4.2.1, ?_⟩
      intro j hj
      rw [hc5def] at hj
      simp only at hj
      cases hj
      exact hside
    set s6 : TcpOneSideData := { getSide c5 side with gotFinOrRst := true } with hs6def
    set c6 : TcpReassemblyData :=
      (if (p.finFlag || p.rstFlag) = true then setSide c5 side s6 else c5) with hc6def
    have hgs5 : ∀ i, getSide c5 i = getSide c4 i := fun i => getSide_prevUpdate c4 (some side) i
    have wf6 : connWF c6 := by
      rw [hc6def]
      by_cases hfin : (p.finFlag || p.rstFlag) = true
      · rw [if_pos hfin]
        refine ⟨connInv_setSide c5 side s6 wf5.1 ?_, ?_, ?_⟩
        · rw [hs6def]
          exact sideInv_gotFin _ _ (connInv_getSide c5 wf5.1 side)
        · intro hle
          rw [setSide_numOfSides] at hle
          by_cases hz : side = 0
          · subst hz
            have : c5.side1 = ({} : TcpOneSideData) := wf5.2.1 hle
            simpa [setSide] using this
          · have h2 : 2 ≤ c1.numOfSides := hnum1 (by omega)
            rw [hc5def] at hle
            simp only at hle
            rw [hc4def, setSide_numOfSides, fnum, hc2def, setSide_numOfSides] at hle
            omega
        · intro j hj
          rw [setSide_prevSide] at hj
          exact wf5.2.2 j hj
      · rw [if_neg hfin]
        exact wf5
    have hgs6seq : ∀ i, i < 2 → (getSide c6 i).sequence = (getSide c4 i).sequence := by
      intro i hi
      rw [hc6def]
      by_cases hfin : (p.finFlag || p.rstFlag) = true
      · rw [if_pos hfin]
        by_cases hiside : i = side
        · subst hiside
          rw [getSide_setSide_same, hs6def]
          simp only
          rw [hgs5]
        · rw [getSide_setSide_ne c5 side i s6 hside hi (fun h => hiside h.symm), hgs5]
      · rw [if_neg hfin, hgs5]
    have hgs6ids : ∀ i, i < 2 → (getSide c6 i).srcIP = (getSide c4 i).srcIP ∧
        (getSide c6 i).srcPort = (getSide c4 i).srcPort := by
      intro i hi
      rw [hc6def]
      by_cases hfin : (p.finFlag || p.rstFlag) = true
      · rw [if_pos hfin]
        by_cases hiside : i = side
        · subst hiside
          rw [getSide_setSide_same, hs6def]
          simp only
          rw [hgs5]
          exact ⟨rfl, rfl⟩
        · rw [getSide_setSide_ne c5 side i s6 hside hi (fun h => hiside h.symm), hgs5]
          exact ⟨rfl, rfl⟩
      · rw [if_neg hfin, hgs5]
        exact ⟨rfl, rfl⟩
    refine ⟨wf6, ?_, ?_, ?_, ?_⟩
    · intro i hi
      have h01 : sideProgress (getSide c i).sequence (getSide c1 i).sequence [] := by
        rw [(hseqs i hi).1]
        exact sideProgress_refl _
      have h12 : sideProgress (getSide c1 i).sequence (getSide c2 i).sequence [] := by
        by_cases hiside : i = side
        · subst hiside
          rw [hc2def, getSide_setSide_same]
          exact i1prog
        · rw [hc2def, getSide_setSide_ne c1 side i s1 hside hi (fun h => hiside h.symm)]
          exact sideProgress_refl _
      have h2f : sideProgress (getSide c2 i).sequence (getSide fl.1 i).sequence
          (projSide fl.2 i) := fprog i hi
      have hf4 : sideProgress (getSide fl.1 i).sequence (getSide c4 i).sequence
          (if side = i then r8.2 else []) := by
        by_cases hiside : i = side
        · subst hiside
          rw [if_pos rfl, hc4def, getSide_setSide_same]
          exact p8prog
        · rw [if_neg (fun h => hiside h.symm), hc4def,
            getSide_setSide_ne fl.1 side i r8.1 hside hi (fun h => hiside h.symm)]
          exact sideProgress_refl _
      have hall := sideProgress_trans _ _ _ _ _
        (sideProgress_trans _ _ _ _ _ (sideProgress_trans _ _ _ _ _ h01 h12) h2f) hf4
      rw [hgs6seq i hi]
      have hproj : projSide (fl.2 ++ r8.2.map (fun d => (side, d))) i =
          (([] ++ []) ++ projSide fl.2 i) ++ (if side = i then r8.2 else []) := by
        rw [projSide_append, projSide_map]
        simp
      rw [hproj]
      exact hall
    · show c6.connId = c.connId
      have h6 : c6.connId = c5.connId := by
        rw [hc6def]
        by_cases hfin : (p.finFlag || p.rstFlag) = true
        · rw [if_pos hfin, setSide_connId]
        · rw [if_neg hfin]
      rw [h6, hc5def]
      simp only
      rw [hc4def, setSide_connId, fcid, hc2def, setSide_connId, hcid1]
    · intro sd hsd
      rcases List.mem_append.mp hsd with hsd | hsd
      · exact (ftags sd hsd).1
      · obtain ⟨d, _, rfl⟩ := List.mem_map.mp hsd
        exact hside
    · intro i hi
      have hc4ids : (getSide c4 i).srcIP = (getSide c1 i).srcIP ∧
          (getSide c4 i).srcPort = (getSide c1 i).srcPort := by
        by_cases hiside : i = side
        · subst hiside
          rw [hc4def, getSide_setSide_same]
          refine ⟨?_, ?_⟩
          · rw [p8ip, (fids i hi).1, hc2def, getSide_setSide_same, i1ip]
          · rw [p8port, (fids i hi).2.1, hc2def, getSide_setSide_same, i1port]
        · rw [hc4def, getSide_setSide_ne fl.1 side i r8.1 hside hi (fun h => hiside h.symm)]
          refine ⟨?_, ?_⟩
          · rw [(fids i hi).1, hc2def,
              getSide_setSide_ne c1 side i s1 hside hi (fun h => hiside h.symm)]
          · rw [(fids i hi).2.1, hc2def,
              getSide_setSide_ne c1 side i s1 hside hi (fun h => hiside h.symm)]
      have h6ids := hgs6ids i hi
      by_cases hi0 : i = 0
      · subst hi0
        refine Or.inl ⟨?_, ?_⟩
        · rw [h6ids.1, hc4ids.1]
          show c1.side0.srcIP = c.side0.srcIP
          rw [hs0eq]
        · rw [h6ids.2, hc4ids.2]
          show c1.side0.srcPort = c.side0.srcPort
          rw [hs0eq]
      · have hi1 : i = 1 := by omega
        subst hi1
        rcases hside1or with h | ⟨hempty, hnew⟩
        · refine Or.inl ⟨?_, ?_⟩
          · rw [h6ids.1, hc4ids.1]
            show c1.side1.srcIP = c.side1.srcIP
            rw [h]
          · rw [h6ids.2, hc4ids.2]
            show c1.side1.srcPort = c.side1.srcPort
            rw [h]
        · refine Or.inr ⟨rfl, hempty, ?_, ?_⟩
          · rw [h6ids.1, hc4ids.1]
            show c1.side1.srcIP = p.srcIP
            rw [hnew]
          · rw [h6ids.2, hc4ids.2]
            show c1.side1.srcPort = p.srcPort
            rw [hnew]

theorem connWF_setSide_routed (c1 : TcpReassemblyData) (side : Nat) (s : TcpOneSideData)
    (hwf1 : connWF c1) (hs : sideInv s) (hside : side < 2)
    (hnum1 : side = 1 → 2 ≤ c1.numOfSides) : connWF (setSide c1 side s) := by
  refine ⟨connInv_setSide c1 side s hwf1.1 hs, ?_, ?_⟩
  · intro hle
    rw [setSide_numOfSides] at hle
    by_cases hz : side = 0
    · subst hz
      have := hwf1.2.1 hle
      simpa [setSide] using this
    · have := hnum1 (by omega)
      omega
  · intro j hj
    rw [setSide_prevSide] at hj
    exact hwf1.2.2 j hj

theorem flushPrevStep_agree (Sg : Nat → Nat → Nat → Nat) (c : TcpReassemblyData)
    (side : Nat) (hc : connWF c)
    (hf : ∀ i, i < 2 → ∀ f ∈ (getSide c i).tcpFragmentList,
        bytesAgree (Sg (getSide c i).srcIP (getSide c i).srcPort)
          f.sequence f.data = true) :
    ∀ sd ∈ (flushPrevStep c side).2, sd.2.isMarker = false →
      bytesAgree (Sg (getSide c sd.1).srcIP (getSide c sd.1).srcPort)
        sd.2.startSeq sd.2.bytes = true := by
  unfold flushPrevStep
  cases hpv : c.prevSide with
  | none => simp
  | some ps =>
    simp only
    by_cases hne : ps ≠ side
    · rw [if_pos hne]
      intro sd hsd hm
      obtain ⟨d, hd, rfl⟩ := List.mem_map.mp hsd
      have hps : ps < 2 := hc.2.2 ps hpv
      exact checkOutOfOrderFragments_agree _ false (getSide c ps)
        (connInv_getSide c hc.1 ps) (hf ps hps) d hd hm
    · rw [if_neg hne]
      simp

theorem flushPrevStep_bound (c : TcpReassemblyData) (side : Nat) (hc : connWF c)
    (hfb : ∀ i, i < 2 → ∀ f ∈ (getSide c i).tcpFragmentList,
        f.data.length ≤ SEQ_HALF) :
    ∀ sd ∈ (flushPrevStep c side).2, sd.2.covered ≤ SEQ_HALF := by
  unfold flushPrevStep
  cases hpv : c.prevSide with
  | none => simp
  | some ps =>
    simp only
    by_cases hne : ps ≠ side
    · rw [if_pos hne]
      intro sd hsd
      obtain ⟨d, hd, rfl⟩ := List.mem_map.mp hsd
      have hps : ps < 2 := hc.2.2 ps hpv
      exact (checkOutOfOrderFragments_bound false (getSide c ps)
        (connInv_getSide c hc.1 ps) (hfb ps hps)).1 d hd
    · rw [if_neg hne]
      simp

/-- Per-connection packet processing delivers (markers aside) only bytes of
the per-endpoint sender streams `Sg`, and keeps only agreeing fragments,
provided the packet and the buffered fragments agree with their senders'
streams; each delivery agrees with the stream of the endpoint its side
records after the call. -/
theorem processConnPacket_agree (Sg : Nat → Nat → Nat → Nat) (c : TcpReassemblyData)
    (p : Packet) (hc : connWF c)
    (hp : bytesAgree (Sg p.srcIP p.srcPort) (p.seqNum % SEQ_MOD) p.payload = true)
    (hf : ∀ i, i < 2 → ∀ f ∈ (getSide c i).tcpFragmentList,
        bytesAgree (Sg (getSide c i).srcIP (getSide c i).srcPort)
          f.sequence f.data = true) :
    (∀ sd ∈ (processConnPacket c p).2.1, sd.2.isMarker = false →
        bytesAgree (Sg (getSide (processConnPacket c p).1 sd.1).srcIP
          (getSide (processConnPacket c p).1 sd.1).srcPort)
          sd.2.startSeq sd.2.bytes = true) ∧
    (∀ i, i < 2 → ∀ f ∈ (getSide (processConnPacket c p).1 i).tcpFragmentList,
        bytesAgree (Sg (getSide (processConnPacket c p).1 i).srcIP
          (getSide (processConnPacket c p).1 i).srcPort)
          f.sequence f.data = true) := by
  unfold processConnPacket
  cases hdet : determineSide c p with
  | none =>
    simp only
    exact ⟨by simp, hf⟩
  | some pr =>
    obtain ⟨side, c1⟩ := pr
    simp only
    obtain ⟨hside, hwf1, hs0eq, hcid1, hpv1, hsrcA, hsrcB, hseqs, hside1or, hnum1⟩ :=
      determineSide_spec c p side c1 hdet hc
    obtain ⟨i1inv, i1prog, i1frag, i1ip, i1port, i1fin, i1or⟩ :=
      initSeqStep_spec p (getSide c1 side) (connInv_getSide c1 hwf1.1 side)
    have hf1 : ∀ i, i < 2 → ∀ f ∈ (getSide c1 i).tcpFragmentList,
        bytesAgree (Sg (getSide c1 i).srcIP (getSide c1 i).srcPort)
          f.sequence f.data = true := by
      intro i hi f hfm
      rw [(hseqs i hi).2.1] at hfm
      by_cases hi0 : i = 0
      · subst hi0
        show bytesAgree (Sg (getSide c1 0).srcIP (getSide c1 0).srcPort) _ _ = true
        have hg : getSide c1 0 = getSide c 0 := by simp [getSide, hs0eq]
        rw [hg]
        exact hf 0 (by omega) f hfm
      · have hi1 : i = 1 := by omega
        subst hi1
        rcases hside1or with h | ⟨hempty, _⟩
        · have hg : getSide c1 1 = getSide c 1 := by simp [getSide, h]
          rw [hg]
          exact hf 1 (by omega) f hfm
        · exfalso
          have hz : (getSide c 1).tcpFragmentList = [] := by simp [getSide, hempty]
          rw [hz] at hfm
          simp at hfm
    set s1 := initSeqStep p (getSide c1 side) with hs1def
    have wf2 : connWF (setSide c1 side s1) :=
      connWF_setSide_routed c1 side s1 hwf1 i1inv hside hnum1
    set c2 := setSide c1 side s1 with hc2def
    have hids2 : ∀ i, i < 2 → (getSide c2 i).srcIP = (getSide c1 i).srcIP ∧
        (getSide c2 i).srcPort = (getSide c1 i).srcPort ∧
        (getSide c2 i).tcpFragmentList = (getSide c1 i).tcpFragmentList := by
      intro i hi
      by_cases hiside : i = side
      · subst hiside
        rw [hc2def, getSide_setSide_same]
        exact ⟨i1ip, i1port, i1frag⟩
      · rw [hc2def, getSide_setSide_ne c1 side i s1 hside hi (fun h => hiside h.symm)]
        exact ⟨rfl, rfl, rfl⟩
    have hf2 : ∀ i, i < 2 → ∀ f ∈ (getSide c2 i).tcpFragmentList,
        bytesAgree (Sg (getSide c2 i).srcIP (getSide c2 i).srcPort)
          f.sequence f.data = true := by
      intro i hi f hfm
      obtain ⟨e1, e2, e3⟩ := hids2 i hi
      rw [e1, e2]
      rw [e3] at hfm
      exact hf1 i hi f hfm
    have hflagree := flushPrevStep_agree Sg c2 side wf2 hf2
    obtain ⟨fwf, fprog, fcid, fprev, fnum, fside, fids, ftags, fsub⟩ :=
      flushPrevStep_spec c2 side wf2 hside
    set fl := flushPrevStep c2 side with hfldef
    have hsrc2A : (getSide c2 side).srcIP = p.srcIP := by
      rw [(hids2 side hside).1, hsrcA]
    have hsrc2B : (getSide c2 side).srcPort = p.srcPort := by
      rw [(hids2 side hside).2.1, hsrcB]
    have hfl_frags : ∀ f ∈ (getSide fl.1 side).tcpFragmentList,
        bytesAgree (Sg p.srcIP p.srcPort) f.sequence f.data = true := by
      intro f hfm
      rw [fside] at hfm
      have := hf2 side hside f hfm
      rwa [hsrc2A, hsrc2B] at this
    obtain ⟨p8ag1, p8ag2⟩ :=
      processTcpPayload_agree (Sg p.srcIP p.srcPort) (getSide fl.1 side)
        (p.seqNum % SEQ_MOD) p.payload (connInv_getSide fl.1 fwf.1 side)
        (by rw [Nat.mod_mod_of_dvd p.seqNum dvd_rfl]; exact hp) hfl_frags
    obtain ⟨p8inv, p8prog, p8ip, p8port, p8fin, p8marks, p8len, p8sub⟩ :=
      processTcpPayload_spec (getSide fl.1 side) (p.seqNum % SEQ_MOD) p.payload
        (connInv_getSide fl.1 fwf.1 side)
    set r8 := processTcpPayload (getSide fl.1 side) (p.seqNum % SEQ_MOD) p.payload with hr8def
    set c4 := setSide fl.1 side r8.1 with hc4def
    set c5 : TcpReassemblyData := { c4 with prevSide := some side } with hc5def
    set s6 : TcpOneSideData := { getSide c5 side with gotFinOrRst := true } with hs6def
    set c6 : TcpReassemblyData :=
      (if (p.finFlag || p.rstFlag) = true then setSide c5 side s6 else c5) with hc6def
    have hgs5 : ∀ i, getSide c5 i = getSide c4 i := fun i => getSide_prevUpdate c4 (some side) i
    have hgs6 : ∀ i, i < 2 →
        (getSide c6 i).srcIP = (getSide c4 i).srcIP ∧
        (getSide c6 i).srcPort = (getSide c4 i).srcPort ∧
        (getSide c6 i).tcpFragmentList = (getSide c4 i).tcpFragmentList := by
      intro i hi
      rw [hc6def]
      by_cases hfin : (p.finFlag || p.rstFlag) = true
      · rw [if_pos hfin]
        by_cases hiside : i = side
        · subst hiside
          rw [getSide_setSide_same, hs6def]
          simp only
          rw [hgs5]
          exact ⟨rfl, rfl, rfl⟩
        · rw [getSide_setSide_ne c5 side i s6 hside hi (fun h => hiside h.symm), hgs5]
          exact ⟨rfl, rfl, rfl⟩
      · rw [if_neg hfin, hgs5]
        exact ⟨rfl, rfl, rfl⟩
    have hids4 : ∀ i, i < 2 → (getSide c4 i).srcIP = (getSide c2 i).srcIP ∧
        (getSide c4 i).srcPort = (getSide c2 i).srcPort := by
      intro i hi
      by_cases hiside : i = side
      · rw [hiside, hc4def, getSide_setSide_same]
        exact ⟨by rw [p8ip, (fids side hside).1], by rw [p8port, (fids side hside).2.1]⟩
      · rw [hc4def, getSide_setSide_ne fl.1 side i r8.1 hside hi (fun h => hiside h.symm)]
        exact ⟨(fids i hi).1, (fids i hi).2.1⟩
    have houtside : (getSide c6 side).srcIP = p.srcIP ∧
        (getSide c6 side).srcPort = p.srcPort := by
      refine ⟨?_, ?_⟩
      · rw [(hgs6 side hside).1, (hids4 side hside).1, hsrc2A]
      · rw [(hgs6 side hside).2.1, (hids4 side hside).2, hsrc2B]
    constructor
    · intro sd hsd hm
      rcases List.mem_append.mp hsd with hsd | hsd
      · obtain ⟨ht2, htne⟩ := ftags sd hsd
        rw [(hgs6 sd.1 ht2).1, (hgs6 sd.1 ht2).2.1, (hids4 sd.1 ht2).1, (hids4 sd.1 ht2).2]
        exact hflagree sd hsd hm
      · obtain ⟨d, hd, rfl⟩ := List.mem_map.mp hsd
        show bytesAgree (Sg (getSide c6 side).srcIP (getSide c6 side).srcPort)
          d.startSeq d.bytes = true
        rw [houtside.1, houtside.2]
        exact p8ag1 d hd
    · intro i hi f hfm
      rw [(hgs6 i hi).2.2] at hfm
      by_cases hiside : i = side
      · subst hiside
        rw [hc4def, getSide_setSide_same] at hfm
        rw [houtside.1, houtside.2]
        exact p8ag2 f hfm
      · rw [hc4def, getSide_setSide_ne fl.1 side i r8.1 hside hi (fun h => hiside h.symm)]
          at hfm
        rw [(hgs6 i hi).1, (hgs6 i hi).2.1, (hids4 i hi).1, (hids4 i hi).2]
        exact hf2 i hi f (fsub i hi f hfm)

/-- With payloads of at most `2^31` bytes, per-connection packet processing
delivers only payloads covering at most `2^31` sequence positions and
keeps only fragments of at most `2^31` bytes. -/
theorem processConnPacket_bound (c : TcpReassemblyData) (p : Packet) (hc : connWF c)
    (hb : p.payload.length ≤ SEQ_HALF)
    (hfb : ∀ i, i < 2 → ∀ f ∈ (getSide c i).tcpFragmentList,
        f.data.length ≤ SEQ_HALF) :
    (∀ sd ∈ (processConnPacket c p).2.1, sd.2.covered ≤ SEQ_HALF) ∧
    (∀ i, i < 2 → ∀ f ∈ (getSide (processConnPacket c p).1 i).tcpFragmentList,
        f.data.length ≤ SEQ_HALF) := by
  unfold processConnPacket
  cases hdet : determineSide c p with
  | none =>
    simp only
    exact ⟨by simp, hfb⟩
  | some pr =>
    obtain ⟨side, c1⟩ := pr
    simp only
    obtain ⟨hside, hwf1, hs0eq, hcid1, hpv1, hsrcA, hsrcB, hseqs, hside1or, hnum1⟩ :=
      determineSide_spec c p side c1 hdet hc
    obtain ⟨i1inv, i1prog, i1frag, i1ip, i1port, i1fin, i1or⟩ :=
      initSeqStep_spec p (getSide c1 side) (connInv_getSide c1 hwf1.1 side)
    have hfb1 : ∀ i, i < 2 → ∀ f ∈ (getSide c1 i).tcpFragmentList,
        f.data.length ≤ SEQ_HALF := by
      intro i hi f hfm
      rw [(hseqs i hi).2.1] at hfm
      exact hfb i hi f hfm
    set s1 := initSeqStep p (getSide c1 side) with hs1def
    have wf2 : connWF (setSide c1 side s1) :=
      connWF_setSide_routed c1 side s1 hwf1 i1inv hside hnum1
    set c2 := setSide c1 side s1 with hc2def
    have hfb2 : ∀ i, i < 2 → ∀ f ∈ (getSide c2 i).tcpFragmentList,
        f.data.length ≤ SEQ_HALF := by
      intro i hi f hfm
      by_cases hiside : i = side
      · rw [hiside, hc2def, getSide_setSide_same, i1frag] at hfm
        exact hfb1 side hside f hfm
      · rw [hc2def, getSide_setSide_ne c1 side i s1 hside hi (fun h => hiside h.symm)] at hfm
        exact hfb1 i hi f hfm
    have hflb := flushPrevStep_bound c2 side wf2 hfb2
    obtain ⟨fwf, fprog, fcid, fprev, fnum, fside, fids, ftags, fsub⟩ :=
      flushPrevStep_spec c2 side wf2 hside
    set fl := flushPrevStep c2 side with hfldef
    obtain ⟨p8b1, p8b2⟩ :=
      processTcpPayload_bound (getSide fl.1 side) (p.seqNum % SEQ_MOD) p.payload
        (connInv_getSide fl.1 fwf.1 side) hb
        (by rw [fside]; exact hfb2 side hside)
    set r8 := processTcpPayload (getSide fl.1 side) (p.seqNum % SEQ_MOD) p.payload with hr8def
    set c4 := setSide fl.1 side r8.1 with hc4def
    set c5 : TcpReassemblyData := { c4 with prevSide := some side } with hc5def
    set s6 : TcpOneSideData := { getSide c5 side with gotFinOrRst := true } with hs6def
    set c6 : TcpReassemblyData :=
      (if (p.finFlag || p.rstFlag) = true then setSide c5 side s6 else c5) with hc6def
    have hgs5 : ∀ i, getSide c5 i = getSide c4 i := fun i => getSide_prevUpdate c4 (some side) i
    have hgs6 : ∀ i, i < 2 →
        (getSide c6 i).tcpFragmentList = (getSide c4 i).tcpFragmentList := by
      intro i hi
      rw [hc6def]
      by_cases hfin : (p.finFlag || p.rstFlag) = true
      · rw [if_pos hfin]
        by_cases hiside : i = side
        · rw [hiside, getSide_setSide_same, hs6def]
          simp only
          rw [hgs5]
        · rw [getSide_setSide_ne c5 side i s6 hside hi (fun h => hiside h.symm), hgs5]
      · rw [if_neg hfin, hgs5]
    constructor
    · intro sd hsd
      rcases List.mem_append.mp hsd with hsd | hsd
      · exact hflb sd hsd
      · obtain ⟨d, hd, rfl⟩ := List.mem_map.mp hsd
        exact p8b1 d hd
    · intro i hi f hfm
      rw [hgs6 i hi] at hfm
      by_cases hiside : i = side
      · rw [hiside, hc4def, getSide_setSide_same] at hfm
        exact p8b2 f hfm
      · rw [hc4def, getSide_setSide_ne fl.1 side i r8.1 hside hi (fun h => hiside h.symm)]
          at hfm
        exact hfb2 i hi f (fsub i hi f hfm)

/-! ## Helper lemmas about the engine's tables -/

theorem lookupConn_none (l : List (Nat × TcpReassemblyData)) (k : Nat) :
    lookupConn l k = none ↔ ∀ kc ∈ l, kc.1 ≠ k := by
  unfold lookupConn
  cases hf : l.find? (fun kc => kc.1 = k) with
  | none =>
    simp only [true_iff]
    intro kc hkc
    have := List.find?_eq_none.mp hf kc hkc
    simpa using this
  | some kc =>
    simp only [reduceCtorEq, false_iff, not_forall]
    refine ⟨kc, List.mem_of_find?_eq_some hf, ?_⟩
    have := List.find?_some hf
    simpa using this

theorem lookupConn_some_mem (l : List (Nat × TcpReassemblyData)) (k : Nat)
    (c : TcpReassemblyData) (h : lookupConn l k = some c) : (k, c) ∈ l := by
  unfold lookupConn at h
  cases hf : l.find? (fun kc => kc.1 = k) with
  | none => rw [hf] at h; cases h
  | some kc =>
    rw [hf] at h
    have hm := List.mem_of_find?_eq_some hf
    have hp := List.find?_some hf
    simp only [decide_eq_true_eq] at hp
    obtain rfl : kc = (k, c) := by
      cases h
      exact Prod.ext hp rfl
    exact hm

theorem mem_eraseConn (l : List (Nat × TcpReassemblyData)) (k : Nat)
    (kc : Nat × TcpReassemblyData) :
    kc ∈ eraseConn l k ↔ kc ∈ l ∧ kc.1 ≠ k := by
  unfold eraseConn
  rw [List.mem_filter]
  simp

theorem lookupConn_eraseConn_self (l : List (Nat × TcpReassemblyData)) (k : Nat) :
    lookupConn (eraseConn l k) k = none := by
  rw [lookupConn_none]
  intro kc hkc
  exact ((mem_eraseConn l k kc).mp hkc).2

theorem lookupConn_eraseConn_none (l : List (Nat × TcpReassemblyData)) (k k' : Nat)
    (h : lookupConn l k' = none) : lookupConn (eraseConn l k) k' = none := by
  rw [lookupConn_none] at h ⊢
  intro kc hkc
  exact h kc ((mem_eraseConn l k kc).mp hkc).1

theorem eraseConn_map_sublist (l : List (Nat × TcpReassemblyData)) (k : Nat)
    (f : Nat × TcpReassemblyData → Nat) :
    ((eraseConn l k).map f).Sublist (l.map f) :=
  (List.filter_sublist l).map f

theorem mem_updateConn (l : List (Nat × TcpReassemblyData)) (k : Nat)
    (c : TcpReassemblyData) (kc : Nat × TcpReassemblyData)
    (h : kc ∈ updateConn l k c) : kc = (k, c) ∨ (kc ∈ l ∧ kc.1 ≠ k) := by
  unfold updateConn at h
  obtain ⟨kc0, hkc0, heq⟩ := List.mem_map.mp h
  by_cases hk : kc0.1 = k
  · rw [if_pos hk] at heq
    exact Or.inl heq.symm
  · rw [if_neg hk] at heq
    subst heq
    exact Or.inr ⟨hkc0, hk⟩

theorem updateConn_keys (l : List (Nat × TcpReassemblyData)) (k : Nat)
    (c : TcpReassemblyData) :
    (updateConn l k c).map Prod.fst = l.map Prod.fst := by
  unfold updateConn
  rw [List.map_map]
  apply List.map_congr_left
  intro kc _
  by_cases hk : kc.1 = k
  · simp [hk]
  · simp [hk]

theorem updateConn_cids (l : List (Nat × TcpReassemblyData)) (k : Nat)
    (c c0 : TcpReassemblyData) (hcid : c.connId = c0.connId)
    (hl : ∀ kc ∈ l, kc.1 = k → kc.2 = c0) :
    (updateConn l k c).map (fun kc => kc.2.connId) = l.map (fun kc => kc.2.connId) := by
  unfold updateConn
  rw [List.map_map]
  apply List.map_congr_left
  intro kc hkc
  by_cases hk : kc.1 = k
  · simp only [hk, if_pos rfl, Function.comp, if_true]
    show c.connId = kc.2.connId
    rw [hcid, hl kc hkc hk]
  · simp [hk]

theorem lookupConn_updateConn_self (l : List (Nat × TcpReassemblyData)) (k : Nat)
    (c : TcpReassemblyData) (hk : ∃ c0, lookupConn l k = some c0) :
    lookupConn (updateConn l k c) k = some c := by
  obtain ⟨c0, hc0⟩ := hk
  unfold lookupConn updateConn at *
  induction l with
  | nil => simp at hc0
  | cons kc rest ih =>
    by_cases hkc : kc.1 = k
    · simp only [List.map_cons, if_pos hkc]
      rw [List.find?_cons_of_pos _ (by simp)]
    · simp only [List.map_cons, if_neg hkc]
      rw [List.find?_cons_of_neg _ (by simpa using hkc)]
      rw [List.find?_cons_of_neg _ (by simpa using hkc)] at hc0
      exact ih hc0

theorem lookupConn_updateConn_ne (l : List (Nat × TcpReassemblyData)) (k k' : Nat)
    (c : TcpReassemblyData) (hk : k' ≠ k) :
    lookupConn (updateConn l k c) k' = lookupConn l k' := by
  unfold lookupConn updateConn
  induction l with
  | nil => simp
  | cons kc rest ih =>
    by_cases hkc : kc.1 = k
    · simp only [List.map_cons, if_pos hkc]
      rw [List.find?_cons_of_neg _ (by simp [Ne.symm hk]),
        List.find?_cons_of_neg _ (by simp [hkc, Ne.symm hk])]
      exact ih
    · simp only [List.map_cons, if_neg hkc]
      by_cases hkc' : kc.1 = k'
      · rw [List.find?_cons_of_pos _ (by simpa using hkc'),
          List.find?_cons_of_pos _ (by simpa using hkc')]
      · rw [List.find?_cons_of_neg _ (by simpa using hkc'),
          List.find?_cons_of_neg _ (by simpa using hkc')]
        exact ih

theorem lookupConn_append_self (l : List (Nat × TcpReassemblyData)) (k : Nat)
    (c : TcpReassemblyData) (h : lookupConn l k = none) :
    lookupConn (l ++ [(k, c)]) k = some c := by
  unfold lookupConn at *
  rw [List.find?_append]
  cases hf : l.find? (fun kc => kc.1 = k) with
  | none => simp
  | some kc => rw [hf] at h; cases h

theorem lookupConn_append_ne (l : List (Nat × TcpReassemblyData)) (k k' : Nat)
    (c : TcpReassemblyData) (h : k' ≠ k) :
    lookupConn (l ++ [(k, c)]) k' = lookupConn l k' := by
  unfold lookupConn
  rw [List.find?_append]
  cases hf : l.find? (fun kc => kc.1 = k') with
  | none => simp [Ne.symm h]
  | some kc => simp

/-- All keys held in the cleanup queue, in queue order. -/
def cleanupKeys : List (Nat × List Nat) → List Nat
  | [] => []
  | tb :: rest => tb.2 ++ cleanupKeys rest

theorem insertCleanup_perm (l : List (Nat × List Nat)) (t k : Nat) :
    (cleanupKeys (insertCleanup l t k)).Perm (k :: cleanupKeys l) := by
  induction l with
  | nil => simp [insertCleanup, cleanupKeys]
  | cons tb rest ih =>
    obtain ⟨t', ks⟩ := tb
    unfold insertCleanup
    by_cases h1 : t < t'
    · rw [if_pos h1]
      simp [cleanupKeys]
    · rw [if_neg h1]
      by_cases h2 : t = t'
      · rw [if_pos h2]
        simp only [cleanupKeys]
        rw [List.append_assoc]
        exact List.perm_middle
      · rw [if_neg h2]
        simp only [cleanupKeys]
        exact (List.Perm.append_left ks ih).trans List.perm_middle

theorem insertCleanup_sorted (l : List (Nat × List Nat)) (t k : Nat)
    (h : l.Pairwise (fun a b => a.1 < b.1)) :
    (insertCleanup l t k).Pairwise (fun a b => a.1 < b.1) := by
  induction l with
  | nil => simp [insertCleanup]
  | cons tb rest ih =>
    obtain ⟨t', ks⟩ := tb
    obtain ⟨hhead, htail⟩ := List.pairwise_cons.mp h
    unfold insertCleanup
    by_cases h1 : t < t'
    · rw [if_pos h1]
      refine List.pairwise_cons.mpr ⟨?_, h⟩
      intro tb2 htb2
      rcases List.mem_cons.mp htb2 with rfl | htb2
      · exact h1
      · exact lt_trans h1 (hhead tb2 htb2)
    · rw [if_neg h1]
      by_cases h2 : t = t'
      · rw [if_pos h2]
        exact List.pairwise_cons.mpr ⟨hhead, htail⟩
      · rw [if_neg h2]
        refine List.pairwise_cons.mpr ⟨?_, ih htail⟩
        intro tb2 htb2
        have hmm : tb2 ∈ insertCleanup rest t k := htb2
        have hins : ∀ tb3 ∈ insertCleanup rest t k, tb3.1 = t ∨ tb3 ∈ rest := by
          clear hmm htb2 ih htail hhead h
          induction rest with
          | nil => intro tb3 h3; simp [insertCleanup] at h3; simp [h3]
          | cons tb4 rest2 ih2 =>
            intro tb3 h3
            obtain ⟨t4, ks4⟩ := tb4
            unfold insertCleanup at h3
            by_cases g1 : t < t4
            · rw [if_pos g1] at h3
              rcases List.mem_cons.mp h3 with rfl | h3
              · exact Or.inl rfl
              · exact Or.inr h3
            · rw [if_neg g1] at h3
              by_cases g2 : t = t4
              · rw [if_pos g2] at h3
                rcases List.mem_cons.mp h3 with rfl | h3
                · exact Or.inl g2.symm
                · exact Or.inr (List.mem_cons_of_mem _ h3)
              · rw [if_neg g2] at h3
                rcases List.mem_cons.mp h3 with rfl | h3
                · exact Or.inr (List.mem_cons_self _ _)
                · rcases ih2 tb3 h3 with h4 | h4
                  · exact Or.inl h4
                  · exact Or.inr (List.mem_cons_of_mem _ h4)
        rcases hins tb2 hmm with h4 | h4
        · omega
        · exact hhead tb2 h4

theorem purgeWalk_keys (now : Nat) : ∀ (cap : Nat) (l : List (Nat × List Nat)),
    (purgeWalk now cap l).1 ++ cleanupKeys (purgeWalk now cap l).2 = cleanupKeys l := by
  intro cap l
  induction l generalizing cap with
  | nil => simp [purgeWalk, cleanupKeys]
  | cons tb rest ih =>
    obtain ⟨t, ks⟩ := tb
    unfold purgeWalk
    by_cases h0 : cap = 0
    · rw [if_pos h0]
      simp
    · rw [if_neg h0]
      by_cases h1 : t ≤ now
      · rw [if_pos h1]
        by_cases h2 : ks.length ≤ cap
        · rw [if_pos h2]
          simp only [cleanupKeys, List.append_assoc]
          rw [ih (cap - ks.length)]
        · rw [if_neg h2]
          simp only [cleanupKeys]
          rw [← List.append_assoc, List.take_append_drop]
      · rw [if_neg h1]
        simp

theorem purgeWalk_count (now : Nat) : ∀ (cap : Nat) (l : List (Nat × List Nat)),
    (purgeWalk now cap l).1.length ≤ cap := by
  intro cap l
  induction l generalizing cap with
  | nil => simp [purgeWalk]
  | cons tb rest ih =>
    obtain ⟨t, ks⟩ := tb
    unfold purgeWalk
    by_cases h0 : cap = 0
    · rw [if_pos h0]; simp
    · rw [if_neg h0]
      by_cases h1 : t ≤ now
      · rw [if_pos h1]
        by_cases h2 : ks.length ≤ cap
        · rw [if_pos h2]
          simp only [List.length_append]
          have := ih (cap - ks.length)
          omega
        · rw [if_neg h2]
          simp only [List.length_take]
          omega
      · rw [if_neg h1]; simp

theorem purgeWalk_sorted (now : Nat) : ∀ (cap : Nat) (l : List (Nat × List Nat)),
    l.Pairwise (fun a b => a.1 < b.1) →
    (purgeWalk now cap l).2.Pairwise (fun a b => a.1 < b.1) := by
  intro cap l
  induction l generalizing cap with
  | nil => intro _; simp [purgeWalk]
  | cons tb rest ih =>
    intro h
    obtain ⟨t, ks⟩ := tb
    obtain ⟨hhead, htail⟩ := List.pairwise_cons.mp h
    unfold purgeWalk
    by_cases h0 : cap = 0
    · rw [if_pos h0]; exact h
    · rw [if_neg h0]
      by_cases h1 : t ≤ now
      · rw [if_pos h1]
        by_cases h2 : ks.length ≤ cap
        · rw [if_pos h2]
          exact ih (cap - ks.length) htail
        · rw [if_neg h2]
          exact List.pairwise_cons.mpr ⟨hhead, htail⟩
      · rw [if_neg h1]
        exact h

theorem purgeWalk_eligible (now : Nat) : ∀ (cap : Nat) (l : List (Nat × List Nat)),
    ∀ k ∈ (purgeWalk now cap l).1, ∃ tb ∈ l, tb.1 ≤ now ∧ k ∈ tb.2 := by
  intro cap l
  induction l generalizing cap with
  | nil => simp [purgeWalk]
  | cons tb rest ih =>
    obtain ⟨t, ks⟩ := tb
    intro k hk
    unfold purgeWalk at hk
    by_cases h0 : cap = 0
    · rw [if_pos h0] at hk; simp at hk
    · rw [if_neg h0] at hk
      by_cases h1 : t ≤ now
      · rw [if_pos h1] at hk
        by_cases h2 : ks.length ≤ cap
        · rw [if_pos h2] at hk
          rcases List.mem_append.mp hk with hk | hk
          · exact ⟨(t, ks), List.mem_cons_self _ _, h1, hk⟩
          · obtain ⟨tb2, htb2, h3, h4⟩ := ih (cap - ks.length) k hk
            exact ⟨tb2, List.mem_cons_of_mem _ htb2, h3, h4⟩
        · rw [if_neg h2] at hk
          exact ⟨(t, ks), List.mem_cons_self _ _, h1, List.mem_of_mem_take hk⟩
      · rw [if_neg h1] at hk
        simp at hk

theorem purgeWalk_zero (now : Nat) : ∀ (cap : Nat) (l : List (Nat × List Nat)),
    (∀ tb ∈ l, tb.1 ≤ now → tb.2 = []) → (purgeWalk now cap l).1 = [] := by
  intro cap l
  induction l generalizing cap with
  | nil => intro _; simp [purgeWalk]
  | cons tb rest ih =>
    intro h
    obtain ⟨t, ks⟩ := tb
    unfold purgeWalk
    by_cases h0 : cap = 0
    · rw [if_pos h0]
    · rw [if_neg h0]
      by_cases h1 : t ≤ now
      · rw [if_pos h1]
        have hks : ks = [] := h (t, ks) (List.mem_cons_self _ _) h1
        subst hks
        rw [if_pos (by simp)]
        simp only [List.nil_append]
        exact ih cap (fun tb2 htb2 => h tb2 (List.mem_cons_of_mem _ htb2))
      · rw [if_neg h1]

/-! ## Trace projection lemmas -/

theorem sideDeliveries_append (t1 t2 : List TraceEvent) (cid i : Nat) :
    sideDeliveries (t1 ++ t2) cid i = sideDeliveries t1 cid i ++ sideDeliveries t2 cid i := by
  simp [sideDeliveries]

theorem cidEvents_append (t1 t2 : List TraceEvent) (cid : Nat) :
    cidEvents (t1 ++ t2) cid = cidEvents t1 cid ++ cidEvents t2 cid := by
  simp [cidEvents]

theorem sideDeliveries_of_other (evs : List TraceEvent) (cid i : Nat)
    (h : ∀ ev ∈ evs, eventCid ev ≠ cid) : sideDeliveries evs cid i = [] := by
  unfold sideDeliveries
  rw [List.filterMap_eq_nil]
  intro ev hev
  cases ev with
  | connStart k c => rfl
  | connEnd k c m => rfl
  | msgReady k c s d =>
    have hc := h _ hev
    simp only [eventCid] at hc
    simp [hc]

theorem cidEvents_of_other (evs : List TraceEvent) (cid : Nat)
    (h : ∀ ev ∈ evs, eventCid ev ≠ cid) : cidEvents evs cid = [] := by
  unfold cidEvents
  rw [List.filter_eq_nil_iff]
  intro ev hev
  simp [h ev hev]

theorem sideDeliveries_msgs (l : List (Nat × Delivery)) (k cid i : Nat) :
    sideDeliveries (l.map (fun sd => TraceEvent.msgReady k cid sd.1 sd.2)) cid i =
      projSide l i := by
  induction l with
  | nil => rfl
  | cons sd rest ih =>
    simp only [List.map_cons, sideDeliveries, List.filterMap_cons, projSide] at ih ⊢
    by_cases h : sd.1 = i
    · rw [if_pos (by simp [h]), if_pos h, ih]
    · rw [if_neg (by simp [h]), if_neg h, ih]

theorem cidEvents_msgs_self (l : List (Nat × Delivery)) (k cid : Nat) :
    cidEvents (l.map (fun sd => TraceEvent.msgReady k cid sd.1 sd.2)) cid =
      l.map (fun sd => TraceEvent.msgReady k cid sd.1 sd.2) := by
  unfold cidEvents
  rw [List.filter_eq_self]
  intro ev hev
  obtain ⟨sd, _, rfl⟩ := List.mem_map.mp hev
  simp [eventCid]

theorem msgs_all_isMsg (l : List (Nat × Delivery)) (k cid : Nat) :
    (l.map (fun sd => TraceEvent.msgReady k cid sd.1 sd.2)).all isMsgEv = true := by
  rw [List.all_eq_true]
  intro ev hev
  obtain ⟨sd, _, rfl⟩ := List.mem_map.mp hev
  rfl

theorem sideDeliveries_of_cid_nil (tr : List TraceEvent) (cid i : Nat)
    (h : cidEvents tr cid = []) : sideDeliveries tr cid i = [] := by
  apply sideDeliveries_of_other
  intro ev hev
  intro hc
  have : ev ∈ cidEvents tr cid := by
    unfold cidEvents
    rw [List.mem_filter]
    exact ⟨hev, by simp [hc]⟩
  rw [h] at this
  simp at this

/-! ## Episode shape lemmas -/

theorem tailShape_of_allMsg (l : List TraceEvent) (h : l.all isMsgEv = true) :
    tailShape l = true := by
  induction l with
  | nil => rfl
  | cons e rest ih =>
    rw [List.all_cons, Bool.and_eq_true] at h
    cases rest with
    | nil => simp [tailShape, h.1]
    | cons f rest2 =>
      simp only [tailShape, h.1, Bool.true_and]
      exact ih h.2

theorem tailShape_allMsg_append (l1 l2 : List TraceEvent) (h1 : l1.all isMsgEv = true)
    (h2 : tailShape l2 = true) : tailShape (l1 ++ l2) = true := by
  induction l1 with
  | nil => simpa
  | cons e rest ih =>
    rw [List.all_cons, Bool.and_eq_true] at h1
    have hih := ih h1.2
    rw [List.cons_append]
    cases hr : rest ++ l2 with
    | nil => simp [tailShape, h1.1]
    | cons f rest2 =>
      simp only [tailShape, h1.1, Bool.true_and]
      rw [← hr]
      exact hih

theorem openEpisode_append_msgs (l ms : List TraceEvent) (h : openEpisode l = true)
    (hm : ms.all isMsgEv = true) : openEpisode (l ++ ms) = true := by
  cases l with
  | nil => simp [openEpisode] at h
  | cons e rest =>
    simp only [openEpisode, Bool.and_eq_true] at h
    simp only [List.cons_append, openEpisode, Bool.and_eq_true, h.1, true_and,
      List.all_append]
    exact ⟨h.2, hm⟩

theorem episodeShape_of_open (l : List TraceEvent) (h : openEpisode l = true) :
    episodeShape l = true := by
  cases l with
  | nil => simp [openEpisode] at h
  | cons e rest =>
    simp only [openEpisode, Bool.and_eq_true] at h
    simp only [episodeShape, Bool.and_eq_true, h.1, true_and]
    exact tailShape_of_allMsg rest h.2

theorem tailShape_msgs_end (l : List TraceEvent) (e : TraceEvent)
    (h : l.all isMsgEv = true) (he : isEndEv e = true) :
    tailShape (l ++ [e]) = true := by
  apply tailShape_allMsg_append l [e] h
  simp [tailShape, he]

theorem episodeShape_close (l ms : List TraceEvent) (e : TraceEvent)
    (h : openEpisode l = true) (hm : ms.all isMsgEv = true) (he : isEndEv e = true) :
    episodeShape (l ++ (ms ++ [e])) = true := by
  have h2 : openEpisode (l ++ ms) = true := openEpisode_append_msgs l ms h hm
  cases hlm : l ++ ms with
  | nil =>
    cases l with
    | nil => simp [openEpisode] at h
    | cons x xs => simp at hlm
  | cons x xs =>
    rw [← List.append_assoc, hlm]
    rw [hlm] at h2
    simp only [openEpisode, Bool.and_eq_true] at h2
    simp only [List.cons_append, episodeShape, Bool.and_eq_true, h2.1, true_and]
    exact tailShape_msgs_end xs e h2.2 he

/-! ## Half-window arithmetic -/

/-- A position within the forward half-window of `a` is at or after `a`. -/
theorem seq_le_of_window (a b : Nat) (ha : a < SEQ_MOD) (hb : b < SEQ_MOD)
    (h : seq_diff b a ≤ SEQ_HALF) : seq_le a b = true := by
  simp only [seq_le, seq_lt, seq_diff, SEQ_MOD, SEQ_HALF, Bool.or_eq_true,
    decide_eq_true_eq] at h ⊢
  omega

/-- If `b` lies between `a` and `c` in the half-window after `a`, then `c`
is within the half-window after `b`. -/
theorem seq_diff_between (a b c : Nat) (ha : a < SEQ_MOD) (hb : b < SEQ_MOD)
    (hc : c < SEQ_MOD) (h1 : seq_diff b a ≤ seq_diff c a)
    (h2 : seq_diff c a ≤ SEQ_HALF) : seq_diff c b ≤ SEQ_HALF := by
  simp only [seq_diff, SEQ_MOD, SEQ_HALF] at h1 h2 ⊢
  omega

/-- A segment that passes the already-seen check ends strictly within the
half-window after the expected sequence. -/
theorem not_seen_window (e endSeq : Nat) (he : e < SEQ_MOD) (hend : endSeq < SEQ_MOD)
    (h1 : seq_lt endSeq e = false) (h2 : endSeq ≠ e) :
    0 < seq_diff endSeq e ∧ seq_diff endSeq e < SEQ_HALF := by
  simp only [seq_lt, seq_diff, SEQ_MOD, SEQ_HALF, decide_eq_false_iff_not, not_le]
    at he hend h1 ⊢
  omega

/-- A position at or within the half-window after `a` makes `a` already
seen: `seq_lt a b` or `a = b` holds. -/
theorem seen_of_window (a b : Nat) (ha : a < SEQ_MOD) (hb : b < SEQ_MOD)
    (h : seq_diff b a ≤ SEQ_HALF) : (seq_lt a b || decide (a = b)) = true := by
  simp only [seq_lt, seq_diff, SEQ_MOD, SEQ_HALF, Bool.or_eq_true, decide_eq_true_eq]
    at ha hb h ⊢
  omega

/-- The drain's exit sequence stays in the half-window after a base
position when the entry and every buffered fragment end do, and it never
falls behind the entry. -/
theorem drainGo_window (fuel : Nat) : ∀ (base e : Nat) (fs : List TcpFragment),
    seq_diff e base ≤ SEQ_HALF →
    (∀ f ∈ fs, 0 < seq_diff (fragEnd f) base ∧ seq_diff (fragEnd f) base ≤ SEQ_HALF) →
    seq_diff e base ≤ seq_diff (drainGo fuel e fs).1 base ∧
    seq_diff (drainGo fuel e fs).1 base ≤ SEQ_HALF := by
  induction fuel with
  | zero => intro base e fs he _; exact ⟨le_refl _, he⟩
  | succ fuel ih =>
    intro base e fs he hf
    simp only [drainGo]
    cases hfind : findDeliverable e (fs.filter (fun f => !isStale e f)) with
    | none => exact ⟨le_refl _, he⟩
    | some pr =>
      obtain ⟨f, rest⟩ := pr
      simp only [hfind]
      obtain ⟨hdel, hmem, _, hrsub⟩ := findDeliverable_some e _ f rest hfind
      have hfmem : f ∈ fs := (List.mem_filter.mp hmem).1
      have hstep : seq_diff e base ≤ seq_diff (fragEnd f) base := by
        have hend := hf f hfmem
        simp only [isDeliverable, Bool.and_eq_true, seq_lt, decide_eq_true_eq] at hdel
        obtain ⟨-, hlt⟩ := hdel
        simp only [seq_diff, SEQ_MOD, SEQ_HALF] at he hend hlt ⊢
        omega
      have hrest : ∀ g ∈ rest, 0 < seq_diff (fragEnd g) base ∧
          seq_diff (fragEnd g) base ≤ SEQ_HALF := by
        intro g hg
        exact hf g ((List.mem_filter.mp (hrsub g hg)).1)
      have hd1 : (deliverFragment e f).1 = fragEnd f := rfl
      obtain ⟨ha, hb⟩ := ih base (deliverFragment e f).1 rest
        (by rw [hd1]; exact (hf f hfmem).2) hrest
      exact ⟨le_trans hstep (by rwa [hd1] at ha), hb⟩

/-- The out-of-order flush exits at the entry sequence or at some input
fragment's end. -/
theorem coofGo_exit (fuel : Nat) : ∀ (cw : Bool) (e : Nat) (fs : List TcpFragment),
    (∀ f ∈ fs, fragBase f) →
    ((coofGo fuel cw e fs).1 = e ∨ ∃ f ∈ fs, (coofGo fuel cw e fs).1 = fragEnd f) := by
  induction fuel with
  | zero => intro cw e fs _; exact Or.inl rfl
  | succ fuel ih =>
    intro cw e fs hbase
    simp only [coofGo]
    cases hcl : findClosest e fs with
    | none => exact Or.inl rfl
    | some pr =>
      obtain ⟨f, rest⟩ := pr
      simp only [hcl]
      obtain ⟨hfmem, hrsub, _, _⟩ := findClosest_some e fs f rest hcl
      have hfe : (deliverFragment f.sequence f).1 = fragEnd f := rfl
      have hfeM : fragEnd f < SEQ_MOD := by
        simp only [fragEnd, SEQ_MOD]; omega
      obtain ⟨-, -, -, hsub, -, -, -, -, hq⟩ :=
        drainGo_spec (rest.length + 1) (deliverFragment f.sequence f).1 rest (by omega)
          (by rw [hfe]; exact hfeM) (fun g hg => hbase g (hrsub g hg))
      have hqall : (drainFragments (deliverFragment f.sequence f).1 rest).1 = fragEnd f ∨
          ∃ g ∈ fs, (drainFragments (deliverFragment f.sequence f).1 rest).1 = fragEnd g := by
        simp only [drainFragments]
        rcases hq with h | ⟨g, hg1, hg2⟩
        · rw [hfe] at h; exact Or.inl h
        · exact Or.inr ⟨g, hrsub g hg1, hg2⟩
      cases cw with
      | false =>
        simp only [Bool.false_eq_true, if_false]
        rcases hqall with h | ⟨g, hg1, hg2⟩
        · exact Or.inr ⟨f, hfmem, h⟩
        · exact Or.inr ⟨g, hg1, hg2⟩
      | true =>
        simp only [if_true]
        set q := drainFragments (deliverFragment f.sequence f).1 rest with hqdef
        have hqsub : ∀ g ∈ q.2.1, g ∈ fs := by
          intro g hg
          rw [hqdef] at hg
          simp only [drainFragments] at hg
          exact hrsub g (hsub g hg)
        rcases ih true q.1 q.2.1 (fun g hg => hbase g (hqsub g hg)) with h | ⟨g, hg1, hg2⟩
        · rw [h]
          rcases hqall with h2 | ⟨g, hg1, hg2⟩
          · exact Or.inr ⟨f, hfmem, h2⟩
          · exact Or.inr ⟨g, hg1, hg2⟩
        · exact Or.inr ⟨g, hqsub g hg1, hg2⟩

/-! ## Branch equations and single-side replay facts -/

theorem processTcpPayload_empty (s : TcpOneSideData) (seq : Nat) (payload : List Nat)
    (h : payload.isEmpty = true) : processTcpPayload s seq payload = (s, []) := by
  unfold processTcpPayload
  rw [if_pos h]

theorem processTcpPayload_noseq (s : TcpOneSideData) (seq : Nat) (payload : List Nat)
    (h1 : payload.isEmpty = false) (h2 : s.sequence = none) :
    processTcpPayload s seq payload = (s, []) := by
  unfold processTcpPayload
  rw [if_neg (by simp [h1]), h2]

theorem processTcpPayload_seen (s : TcpOneSideData) (seq : Nat) (payload : List Nat)
    (e : Nat) (h1 : payload.isEmpty = false) (h2 : s.sequence = some e)
    (h3 : (seq_lt ((seq % SEQ_MOD + payload.length) % SEQ_MOD) e ||
      decide ((seq % SEQ_MOD + payload.length) % SEQ_MOD = e)) = true) :
    processTcpPayload s seq payload = (s, []) := by
  unfold processTcpPayload
  rw [if_neg (by simp [h1]), h2]
  simp only [h3, if_true]

theorem processTcpPayload_trim (s : TcpOneSideData) (seq : Nat) (payload : List Nat)
    (e : Nat) (h1 : payload.isEmpty = false) (h2 : s.sequence = some e)
    (h3 : (seq_lt ((seq % SEQ_MOD + payload.length) % SEQ_MOD) e ||
      decide ((seq % SEQ_MOD + payload.length) % SEQ_MOD = e)) = false)
    (h4 : seq_lt (seq % SEQ_MOD) e = true) :
    processTcpPayload s seq payload =
      ({ s with
          sequence := some (drainFragments
            ((e + (payload.drop (seq_diff e (seq % SEQ_MOD))).length) % SEQ_MOD)
            s.tcpFragmentList).1,
          tcpFragmentList := (drainFragments
            ((e + (payload.drop (seq_diff e (seq % SEQ_MOD))).length) % SEQ_MOD)
            s.tcpFragmentList).2.1 },
        ⟨e, payload.drop (seq_diff e (seq % SEQ_MOD)), false, 0⟩ ::
          (drainFragments
            ((e + (payload.drop (seq_diff e (seq % SEQ_MOD))).length) % SEQ_MOD)
            s.tcpFragmentList).2.2) := by
  unfold processTcpPayload
  rw [if_neg (by simp [h1]), h2]
  simp only [h3, Bool.false_eq_true, if_false, h4, if_true]

theorem processTcpPayload_exact (s : TcpOneSideData) (seq : Nat) (payload : List Nat)
    (e : Nat) (h1 : payload.isEmpty = false) (h2 : s.sequence = some e)
    (h3 : (seq_lt ((seq % SEQ_MOD + payload.length) % SEQ_MOD) e ||
      decide ((seq % SEQ_MOD + payload.length) % SEQ_MOD = e)) = false)
    (h4 : seq_lt (seq % SEQ_MOD) e = false) (h5 : seq % SEQ_MOD = e) :
    processTcpPayload s seq payload =
      ({ s with
          sequence := some (drainFragments ((e + payload.length) % SEQ_MOD)
            s.tcpFragmentList).1,
          tcpFragmentList := (drainFragments ((e + payload.length) % SEQ_MOD)
            s.tcpFragmentList).2.1 },
        ⟨e, payload, false, 0⟩ ::
          (drainFragments ((e + payload.length) % SEQ_MOD) s.tcpFragmentList).2.2) := by
  unfold processTcpPayload
  rw [if_neg (by simp [h1]), h2]
  simp only [h3, Bool.false_eq_true, if_false]
  simp only [h4, Bool.false_eq_true, if_false]
  simp only [if_pos h5]

theorem processTcpPayload_future (s : TcpOneSideData) (seq : Nat) (payload : List Nat)
    (e : Nat) (h1 : payload.isEmpty = false) (h2 : s.sequence = some e)
    (h3 : (seq_lt ((seq % SEQ_MOD + payload.length) % SEQ_MOD) e ||
      decide ((seq % SEQ_MOD + payload.length) % SEQ_MOD = e)) = false)
    (h4 : seq_lt (seq % SEQ_MOD) e = false) (h5 : ¬ seq % SEQ_MOD = e)
    (h6 : seq_lt e (seq % SEQ_MOD) = true) :
    processTcpPayload s seq payload =
      ({ s with tcpFragmentList :=
          s.tcpFragmentList ++ [⟨seq % SEQ_MOD, payload⟩] }, []) := by
  unfold processTcpPayload
  rw [if_neg (by simp [h1]), h2]
  simp only [h3, Bool.false_eq_true, if_false, h4, if_neg h5, h6, if_true]

theorem processTcpPayload_other (s : TcpOneSideData) (seq : Nat) (payload : List Nat)
    (e : Nat) (h1 : payload.isEmpty = false) (h2 : s.sequence = some e)
    (h3 : (seq_lt ((seq % SEQ_MOD + payload.length) % SEQ_MOD) e ||
      decide ((seq % SEQ_MOD + payload.length) % SEQ_MOD = e)) = false)
    (h4 : seq_lt (seq % SEQ_MOD) e = false) (h5 : ¬ seq % SEQ_MOD = e)
    (h6 : seq_lt e (seq % SEQ_MOD) = false) :
    processTcpPayload s seq payload = (s, []) := by
  unfold processTcpPayload
  rw [if_neg (by simp [h1]), h2]
  simp only [h3, Bool.false_eq_true, if_false, h4, if_neg h5, h6, if_true]

/-- A position strictly ahead in `seq_lt` order lies in the half-window. -/
theorem window_of_seq_lt (e x : Nat) (he : e < SEQ_MOD) (hx : x < SEQ_MOD)
    (h : seq_lt e x = true) : 0 < seq_diff x e ∧ seq_diff x e ≤ SEQ_HALF := by
  simp only [seq_lt, seq_diff, SEQ_MOD, SEQ_HALF, decide_eq_true_eq] at h ⊢
  omega

/-- Ordering on optional expected sequences: an uninitialized value
precedes everything, initialized ones compare by `seq_le`, and
initialization is never undone. -/
def seqLeOpt : Option Nat → Option Nat → Prop
  | none, _ => True
  | some e, some e2 => seq_le e e2 = true
  | some _, none => False

theorem seqLeOpt_refl (o : Option Nat) : seqLeOpt o o := by
  cases o with
  | none => trivial
  | some e => simp [seqLeOpt, seq_le]

/-- The drain after an accepted in-order delivery: the exit sequence is
reduced, at or after the pre-delivery expected sequence, and within the
half-window after the drain's entry position. -/
theorem drain_exit_window (e a0 : Nat) (fs : List TcpFragment) (he : e < SEQ_MOD)
    (hfs : ∀ f ∈ fs, fragBase f ∧ fragInv e f)
    (ha0M : a0 < SEQ_MOD) (hhi : seq_diff a0 e ≤ SEQ_HALF) :
    (drainFragments a0 fs).1 < SEQ_MOD ∧
    seq_le e (drainFragments a0 fs).1 = true ∧
    seq_diff (drainFragments a0 fs).1 a0 ≤ SEQ_HALF := by
  have hwin := drainGo_window (fs.length + 1) e a0 fs hhi
    (fun f hf => window_of_seq_lt e (fragEnd f) he
      (by simp only [fragEnd, SEQ_MOD]; omega) (hfs f hf).2.2.2)
  obtain ⟨-, -, hM, -, -, -, -, -, -⟩ :=
    drainGo_spec (fs.length + 1) a0 fs (by omega) ha0M (fun f hf => (hfs f hf).1)
  simp only [drainFragments] at *
  refine ⟨hM, seq_le_of_window e _ he hM hwin.2, ?_⟩
  exact seq_diff_between e a0 _ he ha0M hM hwin.1 hwin.2

/-- In the left-trim branch, the delivery position one past the trimmed
payload equals the segment's end sequence. -/
theorem trim_end_eq (e seq len : Nat) (he : e < SEQ_MOD)
    (h4 : seq_lt (seq % SEQ_MOD) e = true)
    (hA : seq_lt ((seq % SEQ_MOD + len) % SEQ_MOD) e = false)
    (hB : (seq % SEQ_MOD + len) % SEQ_MOD ≠ e) :
    (e + (len - seq_diff e (seq % SEQ_MOD))) % SEQ_MOD = (seq % SEQ_MOD + len) % SEQ_MOD := by
  simp only [seq_lt, seq_diff, SEQ_MOD, SEQ_HALF, decide_eq_true_eq,
    decide_eq_false_iff_not, not_le] at h4 hA ⊢
  omega

/-- The segment classification reads only the expected sequence and the
fragment store; its deliveries and their updates agree across states that
agree on those two fields. -/
theorem processTcpPayload_congr (s s2 : TcpOneSideData) (seq : Nat) (payload : List Nat)
    (hseq : s2.sequence = s.sequence) (hfr : s2.tcpFragmentList = s.tcpFragmentList) :
    (processTcpPayload s2 seq payload).2 = (processTcpPayload s seq payload).2 ∧
    (processTcpPayload s2 seq payload).1.sequence =
      (processTcpPayload s seq payload).1.sequence ∧
    (processTcpPayload s2 seq payload).1.tcpFragmentList =
      (processTcpPayload s seq payload).1.tcpFragmentList := by
  by_cases h1 : payload.isEmpty = true
  · rw [processTcpPayload_empty s seq payload h1, processTcpPayload_empty s2 seq payload h1]
    exact ⟨rfl, hseq, hfr⟩
  · have h1' : payload.isEmpty = false := by
      simp only [Bool.not_eq_true] at h1
      exact h1
    cases hq : s.sequence with
    | none =>
      rw [processTcpPayload_noseq s seq payload h1' hq,
        processTcpPayload_noseq s2 seq payload h1' (hseq.trans hq)]
      exact ⟨rfl, hseq, hfr⟩
    | some e =>
      by_cases h3 : (seq_lt ((seq % SEQ_MOD + payload.length) % SEQ_MOD) e ||
          decide ((seq % SEQ_MOD + payload.length) % SEQ_MOD = e)) = true
      · rw [processTcpPayload_seen s seq payload e h1' hq h3,
          processTcpPayload_seen s2 seq payload e h1' (hseq.trans hq) h3]
        exact ⟨rfl, hseq, hfr⟩
      · have h3' : (seq_lt ((seq % SEQ_MOD + payload.length) % SEQ_MOD) e ||
            decide ((seq % SEQ_MOD + payload.length) % SEQ_MOD = e)) = false := by
          simp only [Bool.not_eq_true] at h3
          exact h3
        by_cases h4 : seq_lt (seq % SEQ_MOD) e = true
        · rw [processTcpPayload_trim s seq payload e h1' hq h3' h4,
            processTcpPayload_trim s2 seq payload e h1' (hseq.trans hq) h3' h4, hfr]
          exact ⟨rfl, rfl, rfl⟩
        · have h4' : seq_lt (seq % SEQ_MOD) e = false := by
            simp only [Bool.not_eq_true] at h4
            exact h4
          by_cases h5 : seq % SEQ_MOD = e
          · rw [processTcpPayload_exact s seq payload e h1' hq h3' h4' h5,
              processTcpPayload_exact s2 seq payload e h1' (hseq.trans hq) h3' h4' h5, hfr]
            exact ⟨rfl, rfl, rfl⟩
          · by_cases h6 : seq_lt e (seq % SEQ_MOD) = true
            · rw [processTcpPayload_future s seq payload e h1' hq h3' h4' h5 h6,
                processTcpPayload_future s2 seq payload e h1' (hseq.trans hq) h3' h4' h5 h6,
                hfr]
              exact ⟨rfl, hseq, rfl⟩
            · have h6' : seq_lt e (seq % SEQ_MOD) = false := by
                simp only [Bool.not_eq_true] at h6
                exact h6
              rw [processTcpPayload_other s seq payload e h1' hq h3' h4' h5 h6',
                processTcpPayload_other s2 seq payload e h1' (hseq.trans hq) h3' h4' h5 h6']
              exact ⟨rfl, hseq, hfr⟩

/-- The segment classification never moves the expected sequence backwards. -/
theorem processTcpPayload_mono (s : TcpOneSideData) (seq : Nat) (payload : List Nat)
    (hs : sideInv s) : seqLeOpt s.sequence (processTcpPayload s seq payload).1.sequence := by
  by_cases h1 : payload.isEmpty = true
  · rw [processTcpPayload_empty s seq payload h1]
    exact seqLeOpt_refl _
  · have h1' : payload.isEmpty = false := by
      simp only [Bool.not_eq_true] at h1
      exact h1
    cases hq : s.sequence with
    | none =>
      rw [processTcpPayload_noseq s seq payload h1' hq]
      trivial
    | some e =>
      have he : e < SEQ_MOD := by
        unfold sideInv at hs
        rw [hq] at hs
        exact hs.1
      have hfs : ∀ f ∈ s.tcpFragmentList, fragBase f ∧ fragInv e f := by
        unfold sideInv at hs
        rw [hq] at hs
        exact hs.2
      by_cases h3 : (seq_lt ((seq % SEQ_MOD + payload.length) % SEQ_MOD) e ||
          decide ((seq % SEQ_MOD + payload.length) % SEQ_MOD = e)) = true
      · rw [processTcpPayload_seen s seq payload e h1' hq h3]
        show seqLeOpt (some e) s.sequence
        rw [hq]
        simp [seqLeOpt, seq_le]
      · have h3' : (seq_lt ((seq % SEQ_MOD + payload.length) % SEQ_MOD) e ||
            decide ((seq % SEQ_MOD + payload.length) % SEQ_MOD = e)) = false := by
          simp only [Bool.not_eq_true] at h3
          exact h3
        have hA : seq_lt ((seq % SEQ_MOD + payload.length) % SEQ_MOD) e = false :=
          (Bool.or_eq_false_iff.mp h3').1
        have hB : (seq % SEQ_MOD + payload.length) % SEQ_MOD ≠ e := by
          have := (Bool.or_eq_false_iff.mp h3').2
          simpa using this
        have hendM : (seq % SEQ_MOD + payload.length) % SEQ_MOD < SEQ_MOD := by
          simp only [SEQ_MOD]; omega
        obtain ⟨hw1, hw2⟩ := not_seen_window e _ he hendM hA hB
        by_cases h4 : seq_lt (seq % SEQ_MOD) e = true
        · rw [processTcpPayload_trim s seq payload e h1' hq h3' h4]
          show seq_le e (drainFragments
            ((e + (payload.drop (seq_diff e (seq % SEQ_MOD))).length) % SEQ_MOD)
            s.tcpFragmentList).1 = true
          have ha0 : (e + (payload.drop (seq_diff e (seq % SEQ_MOD))).length) % SEQ_MOD =
              (seq % SEQ_MOD + payload.length) % SEQ_MOD := by
            rw [List.length_drop]
            exact trim_end_eq e seq payload.length he h4 hA hB
          rw [ha0]
          exact (drain_exit_window e ((seq % SEQ_MOD + payload.length) % SEQ_MOD)
            s.tcpFragmentList he hfs hendM (by omega)).2.1
        · have h4' : seq_lt (seq % SEQ_MOD) e = false := by
            simp only [Bool.not_eq_true] at h4
            exact h4
          by_cases h5 : seq % SEQ_MOD = e
          · rw [processTcpPayload_exact s seq payload e h1' hq h3' h4' h5]
            show seq_le e (drainFragments ((e + payload.length) % SEQ_MOD)
              s.tcpFragmentList).1 = true
            have ha0 : (e + payload.length) % SEQ_MOD =
                (seq % SEQ_MOD + payload.length) % SEQ_MOD := by
              rw [h5]
            rw [ha0]
            exact (drain_exit_window e ((seq % SEQ_MOD + payload.length) % SEQ_MOD)
              s.tcpFragmentList he hfs hendM (by omega)).2.1
          · by_cases h6 : seq_lt e (seq % SEQ_MOD) = true
            · rw [processTcpPayload_future s seq payload e h1' hq h3' h4' h5 h6]
              show seqLeOpt (some e) s.sequence
              rw [hq]
              simp [seqLeOpt, seq_le]
            · have h6' : seq_lt e (seq % SEQ_MOD) = false := by
                simp only [Bool.not_eq_true] at h6
                exact h6
              rw [processTcpPayload_other s seq payload e h1' hq h3' h4' h5 h6']
              show seqLeOpt (some e) s.sequence
              rw [hq]
              simp [seqLeOpt, seq_le]

/-- Replaying a segment against the side state it already produced yields
no delivery: the advanced expected sequence classifies the replay as
already seen, and an out-of-order replay is buffered again silently. -/
theorem processTcpPayload_refeed (s : TcpOneSideData) (seq : Nat) (payload : List Nat)
    (hs : sideInv s) :
    (processTcpPayload (processTcpPayload s seq payload).1 seq payload).2 = [] := by
  by_cases h1 : payload.isEmpty = true
  · rw [processTcpPayload_empty s seq payload h1]
    show (processTcpPayload s seq payload).2 = []
    rw [processTcpPayload_empty s seq payload h1]
  · have h1' : payload.isEmpty = false := by
      simp only [Bool.not_eq_true] at h1
      exact h1
    cases hq : s.sequence with
    | none =>
      rw [processTcpPayload_noseq s seq payload h1' hq]
      show (processTcpPayload s seq payload).2 = []
      rw [processTcpPayload_noseq s seq payload h1' hq]
    | some e =>
      have he : e < SEQ_MOD := by
        unfold sideInv at hs
        rw [hq] at hs
        exact hs.1
      have hfs : ∀ f ∈ s.tcpFragmentList, fragBase f ∧ fragInv e f := by
        unfold sideInv at hs
        rw [hq] at hs
        exact hs.2
      by_cases h3 : (seq_lt ((seq % SEQ_MOD + payload.length) % SEQ_MOD) e ||
          decide ((seq % SEQ_MOD + payload.length) % SEQ_MOD = e)) = true
      · rw [processTcpPayload_seen s seq payload e h1' hq h3]
        show (processTcpPayload s seq payload).2 = []
        rw [processTcpPayload_seen s seq payload e h1' hq h3]
      · have h3' : (seq_lt ((seq % SEQ_MOD + payload.length) % SEQ_MOD) e ||
            decide ((seq % SEQ_MOD + payload.length) % SEQ_MOD = e)) = false := by
          simp only [Bool.not_eq_true] at h3
          exact h3
        have hA : seq_lt ((seq % SEQ_MOD + payload.length) % SEQ_MOD) e = false :=
          (Bool.or_eq_false_iff.mp h3').1
        have hB : (seq % SEQ_MOD + payload.length) % SEQ_MOD ≠ e := by
          have := (Bool.or_eq_false_iff.mp h3').2
          simpa using this
        have hendM : (seq % SEQ_MOD + payload.length) % SEQ_MOD < SEQ_MOD := by
          simp only [SEQ_MOD]; omega
        obtain ⟨hw1, hw2⟩ := not_seen_window e _ he hendM hA hB
        by_cases h4 : seq_lt (seq % SEQ_MOD) e = true
        · rw [processTcpPayload_trim s seq payload e h1' hq h3' h4]
          show (processTcpPayload { s with
              sequence := some (drainFragments
                ((e + (payload.drop (seq_diff e (seq % SEQ_MOD))).length) % SEQ_MOD)
                s.tcpFragmentList).1,
              tcpFragmentList := (drainFragments
                ((e + (payload.drop (seq_diff e (seq % SEQ_MOD))).length) % SEQ_MOD)
                s.tcpFragmentList).2.1 } seq payload).2 = []
          have ha0 : (e + (payload.drop (seq_diff e (seq % SEQ_MOD))).length) % SEQ_MOD =
              (seq % SEQ_MOD + payload.length) % SEQ_MOD := by
            rw [List.length_drop]
            exact trim_end_eq e seq payload.length he h4 hA hB
          rw [ha0]
          have hw := drain_exit_window e ((seq % SEQ_MOD + payload.length) % SEQ_MOD)
            s.tcpFragmentList he hfs hendM (by omega)
          have hseen : (seq_lt ((seq % SEQ_MOD + payload.length) % SEQ_MOD)
              (drainFragments ((seq % SEQ_MOD + payload.length) % SEQ_MOD)
                s.tcpFragmentList).1 ||
              decide ((seq % SEQ_MOD + payload.length) % SEQ_MOD =
                (drainFragments ((seq % SEQ_MOD + payload.length) % SEQ_MOD)
                  s.tcpFragmentList).1)) = true :=
            seen_of_window _ _ hendM hw.1 hw.2.2
          rw [processTcpPayload_seen _ seq payload _ h1' rfl hseen]
        · have h4' : seq_lt (seq % SEQ_MOD) e = false := by
            simp only [Bool.not_eq_true] at h4
            exact h4
          by_cases h5 : seq % SEQ_MOD = e
          · rw [processTcpPayload_exact s seq payload e h1' hq h3' h4' h5]
            show (processTcpPayload { s with
                sequence := some (drainFragments ((e + payload.length) % SEQ_MOD)
                  s.tcpFragmentList).1,
                tcpFragmentList := (drainFragments ((e + payload.length) % SEQ_MOD)
                  s.tcpFragmentList).2.1 } seq payload).2 = []
            have ha0 : (e + payload.length) % SEQ_MOD =
                (seq % SEQ_MOD + payload.length) % SEQ_MOD := by
              rw [h5]
            rw [ha0]
            have hw := drain_exit_window e ((seq % SEQ_MOD + payload.length) % SEQ_MOD)
              s.tcpFragmentList he hfs hendM (by omega)
            have hseen : (seq_lt ((seq % SEQ_MOD + payload.length) % SEQ_MOD)
                (drainFragments ((seq % SEQ_MOD + payload.length) % SEQ_MOD)
                  s.tcpFragmentList).1 ||
                decide ((seq % SEQ_MOD + payload.length) % SEQ_MOD =
                  (drainFragments ((seq % SEQ_MOD + payload.length) % SEQ_MOD)
                    s.tcpFragmentList).1)) = true :=
              seen_of_window _ _ hendM hw.1 hw.2.2
            rw [processTcpPayload_seen _ seq payload _ h1' rfl hseen]
          · by_cases h6 : seq_lt e (seq % SEQ_MOD) = true
            · rw [processTcpPayload_future s seq payload e h1' hq h3' h4' h5 h6]
              show (processTcpPayload { s with tcpFragmentList :=
                  s.tcpFragmentList ++ [⟨seq % SEQ_MOD, payload⟩] } seq payload).2 = []
              rw [processTcpPayload_future { s with tcpFragmentList :=
                s.tcpFragmentList ++ [⟨seq % SEQ_MOD, payload⟩] } seq payload e h1' hq
                h3' h4' h5 h6]
            · have h6' : seq_lt e (seq % SEQ_MOD) = false := by
                simp only [Bool.not_eq_true] at h6
                exact h6
              rw [processTcpPayload_other s seq payload e h1' hq h3' h4' h5 h6']
              show (processTcpPayload s seq payload).2 = []
              rw [processTcpPayload_other s seq payload e h1' hq h3' h4' h5 h6']

/-- The out-of-order flush never moves the expected sequence backwards. -/
theorem checkOutOfOrderFragments_mono (cw : Bool) (s : TcpOneSideData) (hs : sideInv s) :
    seqLeOpt s.sequence (checkOutOfOrderFragments cw s).1.sequence := by
  unfold checkOutOfOrderFragments
  cases hq : s.sequence with
  | none =>
    simp only
    trivial
  | some e =>
    simp only
    have he : e < SEQ_MOD := by
      unfold sideInv at hs
      rw [hq] at hs
      exact hs.1
    have hfs : ∀ f ∈ s.tcpFragmentList, fragBase f ∧ fragInv e f := by
      unfold sideInv at hs
      rw [hq] at hs
      exact hs.2
    show seq_le e (coofGo (s.tcpFragmentList.length + 1) cw e s.tcpFragmentList).1 = true
    rcases coofGo_exit (s.tcpFragmentList.length + 1) cw e s.tcpFragmentList
        (fun f hf => (hfs f hf).1) with h | ⟨f, hf, h⟩
    · rw [h]
      simp [seq_le]
    · rw [h]
      have hfM : fragEnd f < SEQ_MOD := by
        simp only [fragEnd, SEQ_MOD]; omega
      exact seq_le_of_window e (fragEnd f) he hfM
        (window_of_seq_lt e (fragEnd f) he hfM (hfs f hf).2.2.2).2

/-- The direction-switch flush never moves an expected sequence backwards. -/
theorem flushPrevStep_mono (c : TcpReassemblyData) (side : Nat) (hc : connWF c)
    (hside : side < 2) : ∀ i, i < 2 →
    seqLeOpt (getSide c i).sequence (getSide (flushPrevStep c side).1 i).sequence := by
  intro i hi
  unfold flushPrevStep
  cases hpv : c.prevSide with
  | none =>
    simp only
    exact seqLeOpt_refl _
  | some ps =>
    simp only
    have hps : ps < 2 := hc.2.2 ps hpv
    by_cases hne : ps ≠ side
    · rw [if_pos hne]
      by_cases hip : i = ps
      · subst hip
        rw [getSide_setSide_same]
        exact checkOutOfOrderFragments_mono false (getSide c i) (connInv_getSide c hc.1 i)
      · rw [getSide_setSide_ne c ps i _ hps hi (fun h => hip h.symm)]
        exact seqLeOpt_refl _
    · rw [if_neg hne]
      exact seqLeOpt_refl _

/-- Per-connection packet processing never moves an expected sequence
backwards. -/
theorem processConnPacket_mono (c : TcpReassemblyData) (p : Packet) (hc : connWF c) :
    ∀ i, i < 2 →
    seqLeOpt (getSide c i).sequence (getSide (processConnPacket c p).1 i).sequence := by
  intro i hi
  unfold processConnPacket
  cases hdet : determineSide c p with
  | none =>
    simp only
    exact seqLeOpt_refl _
  | some pr =>
    obtain ⟨side, c1⟩ := pr
    simp only
    obtain ⟨hside, hwf1, hs0eq, hcid1, hpv1, hsrcA, hsrcB, hseqs, hside1or, hnum1⟩ :=
      determineSide_spec c p side c1 hdet hc
    obtain ⟨i1inv, i1prog, i1frag, i1ip, i1port, i1fin, i1or⟩ :=
      initSeqStep_spec p (getSide c1 side) (connInv_getSide c1 hwf1.1 side)
    set s1 := initSeqStep p (getSide c1 side) with hs1def
    have wf2 : connWF (setSide c1 side s1) :=
      connWF_setSide_routed c1 side s1 hwf1 i1inv hside hnum1
    set c2 := setSide c1 side s1 with hc2def
    obtain ⟨fwf, fprog, fcid, fprev, fnum, fside, fids, ftags, fsub⟩ :=
      flushPrevStep_spec c2 side wf2 hside
    set fl := flushPrevStep c2 side with hfldef
    set r8 := processTcpPayload (getSide fl.1 side) (p.seqNum % SEQ_MOD) p.payload with hr8def
    set c4 := setSide fl.1 side r8.1 with hc4def
    set c5 : TcpReassemblyData := { c4 with prevSide := some side } with hc5def
    set s6 : TcpOneSideData := { getSide c5 side with gotFinOrRst := true } with hs6def
    set c6 : TcpReassemblyData :=
      (if (p.finFlag || p.rstFlag) = true then setSide c5 side s6 else c5) with hc6def
    have hgs5 : ∀ j, getSide c5 j = getSide c4 j := fun j => getSide_prevUpdate c4 (some side) j
    have hgs6 : ∀ j, j < 2 → (getSide c6 j).sequence = (getSide c4 j).sequence := by
      intro j hj
      rw [hc6def]
      by_cases hfin : (p.finFlag || p.rstFlag) = true
      · rw [if_pos hfin]
        by_cases hjside : j = side
        · rw [hjside, getSide_setSide_same, hs6def]
          simp only
          rw [hgs5]
        · rw [getSide_setSide_ne c5 side j s6 hside hj (fun h => hjside h.symm), hgs5]
      · rw [if_neg hfin, hgs5]
    rw [hgs6 i hi]
    by_cases hiside : i = side
    · subst hiside
      rw [hc4def, getSide_setSide_same]
      cases hcase : (getSide c1 i).sequence with
      | none =>
        rw [← (hseqs i hi).1, hcase]
        trivial
      | some e =>
        rcases i1or with h | h
        · rw [hcase] at h; cases h
        · have hfl : getSide fl.1 i = getSide c1 i := by
            rw [hfldef, fside, hc2def, getSide_setSide_same, h]
          have hmono := processTcpPayload_mono (getSide fl.1 i) (p.seqNum % SEQ_MOD)
            p.payload (connInv_getSide fl.1 fwf.1 i)
          rw [← (hseqs i hi).1, ← hfl]
          exact hmono
    · have hc4i : getSide c4 i = getSide fl.1 i :=
        getSide_setSide_ne fl.1 side i r8.1 hside hi (fun h => hiside h.symm)
      have hc2i : getSide c2 i = getSide c1 i :=
        getSide_setSide_ne c1 side i s1 hside hi (fun h => hiside h.symm)
      have hmono := flushPrevStep_mono c2 side wf2 hside i hi
      rw [hc2i] at hmono
      rw [hc4i, ← (hseqs i hi).1]
      exact hmono

theorem processConnPacket_none (c : TcpReassemblyData) (p : Packet)
    (h : determineSide c p = none) : processConnPacket c p = (c, [], false) := by
  unfold processConnPacket
  rw [h]

theorem processConnPacket_deliv (c : TcpReassemblyData) (p : Packet) (side : Nat)
    (c1 : TcpReassemblyData) (h : determineSide c p = some (side, c1)) :
    (processConnPacket c p).2.1 =
      (flushPrevStep (setSide c1 side (initSeqStep p (getSide c1 side))) side).2 ++
        (processTcpPayload (getSide (flushPrevStep (setSide c1 side
            (initSeqStep p (getSide c1 side))) side).1 side)
          (p.seqNum % SEQ_MOD) p.payload).2.map (fun d => (side, d)) := by
  unfold processConnPacket
  rw [h]

theorem processConnPacket_close (c : TcpReassemblyData) (p : Packet) (side : Nat)
    (c1 : TcpReassemblyData) (h : determineSide c p = some (side, c1)) :
    (processConnPacket c p).2.2 = ((p.finFlag || p.rstFlag) &&
      (processConnPacket c p).1.side0.gotFinOrRst &&
      (processConnPacket c p).1.side1.gotFinOrRst) := by
  unfold processConnPacket
  rw [h]

theorem flushPrevStep_noop (c : TcpReassemblyData) (side : Nat)
    (h : c.prevSide = some side) : flushPrevStep c side = (c, []) := by
  unfold flushPrevStep
  rw [h]
  simp

/-- Fields of the connection after one packet, as needed to analyze an
immediate replay of the same packet: the present side is recorded as the
previous one and keeps the packet's endpoint, the other side keeps its
identity fields, bookkeeping counters are unchanged, and replaying the
same segment against the routed side's advanced state delivers nothing. -/
theorem processConnPacket_post (c : TcpReassemblyData) (p : Packet) (side : Nat)
    (c1 : TcpReassemblyData) (hdet : determineSide c p = some (side, c1))
    (hc : connWF c) :
    (processConnPacket c p).1.prevSide = some side ∧
    (getSide (processConnPacket c p).1 side).srcIP = p.srcIP ∧
    (getSide (processConnPacket c p).1 side).srcPort = p.srcPort ∧
    (∀ i, i < 2 → i ≠ side →
      (getSide (processConnPacket c p).1 i).srcIP = (getSide c1 i).srcIP ∧
      (getSide (processConnPacket c p).1 i).srcPort = (getSide c1 i).srcPort ∧
      (getSide (processConnPacket c p).1 i).gotFinOrRst = (getSide c1 i).gotFinOrRst) ∧
    (processConnPacket c p).1.numOfSides = c1.numOfSides ∧
    ((p.finFlag || p.rstFlag) = true →
      (getSide (processConnPacket c p).1 side).gotFinOrRst = true) ∧
    (p.payload.isEmpty = false →
      ∃ x, (getSide (processConnPacket c p).1 side).sequence = some x) ∧
    (processTcpPayload (getSide (processConnPacket c p).1 side)
      (p.seqNum % SEQ_MOD) p.payload).2 = [] := by
  obtain ⟨hside, hwf1, hs0eq, hcid1, hpv1, hsrcA, hsrcB, hseqs, hside1or, hnum1⟩ :=
    determineSide_spec c p side c1 hdet hc
  obtain ⟨i1inv, i1prog, i1frag, i1ip, i1port, i1fin, i1or⟩ :=
    initSeqStep_spec p (getSide c1 side) (connInv_getSide c1 hwf1.1 side)
  unfold processConnPacket
  rw [hdet]
  simp only
  set s1 := initSeqStep p (getSide c1 side) with hs1def
  have wf2 : connWF (setSide c1 side s1) :=
    connWF_setSide_routed c1 side s1 hwf1 i1inv hside hnum1
  set c2 := setSide c1 side s1 with hc2def
  obtain ⟨fwf, fprog, fcid, fprev, fnum, fside, fids, ftags, fsub⟩ :=
    flushPrevStep_spec c2 side wf2 hside
  set fl := flushPrevStep c2 side with hfldef
  obtain ⟨p8inv, p8prog, p8ip, p8port, p8fin, p8marks, p8len, p8sub⟩ :=
    processTcpPayload_spec (getSide fl.1 side) (p.seqNum % SEQ_MOD) p.payload
      (connInv_getSide fl.1 fwf.1 side)
  set r8 := processTcpPayload (getSide fl.1 side) (p.seqNum % SEQ_MOD) p.payload with hr8def
  set c4 := setSide fl.1 side r8.1 with hc4def
  set c5 : TcpReassemblyData := { c4 with prevSide := some side } with hc5def
  set s6 : TcpOneSideData := { getSide c5 side with gotFinOrRst := true } with hs6def
  set c6 : TcpReassemblyData :=
    (if (p.finFlag || p.rstFlag) = true then setSide c5 side s6 else c5) with hc6def
  have hgs5 : ∀ j, getSide c5 j = getSide c4 j := by
    intro j
    rw [hc5def]
    exact getSide_prevUpdate c4 (some side) j
  have h4side : getSide c4 side = r8.1 := by
    rw [hc4def]
    exact getSide_setSide_same fl.1 side r8.1
  have hcomp : (getSide c6 side).sequence = r8.1.sequence ∧
      (getSide c6 side).tcpFragmentList = r8.1.tcpFragmentList ∧
      (getSide c6 side).srcIP = r8.1.srcIP ∧
      (getSide c6 side).srcPort = r8.1.srcPort := by
    rw [hc6def]
    by_cases hfin : (p.finFlag || p.rstFlag) = true
    · rw [if_pos hfin, getSide_setSide_same, hs6def]
      simp only
      rw [hgs5 side, h4side]
      exact ⟨rfl, rfl, rfl, rfl⟩
    · rw [if_neg hfin, hgs5 side, h4side]
      exact ⟨rfl, rfl, rfl, rfl⟩
  have hflside : getSide fl.1 side = s1 := by
    rw [fside, hc2def]
    exact getSide_setSide_same c1 side s1
  have hprev : c6.prevSide = some side := by
    rw [hc6def]
    by_cases hfin : (p.finFlag || p.rstFlag) = true
    · rw [if_pos hfin, setSide_prevSide, hc5def]
    · rw [if_neg hfin, hc5def]
  have hip : (getSide c6 side).srcIP = p.srcIP := by
    rw [hcomp.2.2.1, p8ip, hflside, i1ip]
    exact hsrcA
  have hport : (getSide c6 side).srcPort = p.srcPort := by
    rw [hcomp.2.2.2, p8port, hflside, i1port]
    exact hsrcB
  have hother : ∀ i, i < 2 → i ≠ side →
      (getSide c6 i).srcIP = (getSide c1 i).srcIP ∧
      (getSide c6 i).srcPort = (getSide c1 i).srcPort ∧
      (getSide c6 i).gotFinOrRst = (getSide c1 i).gotFinOrRst := by
    intro i hi hiside
    have h6i : getSide c6 i = getSide c4 i := by
      rw [hc6def]
      by_cases hfin : (p.finFlag || p.rstFlag) = true
      · rw [if_pos hfin, getSide_setSide_ne c5 side i s6 hside hi (fun h => hiside h.symm),
          hgs5 i]
      · rw [if_neg hfin, hgs5 i]
    have h4i : getSide c4 i = getSide fl.1 i := by
      rw [hc4def]
      exact getSide_setSide_ne fl.1 side i r8.1 hside hi (fun h => hiside h.symm)
    have h2i : getSide c2 i = getSide c1 i := by
      rw [hc2def]
      exact getSide_setSide_ne c1 side i s1 hside hi (fun h => hiside h.symm)
    obtain ⟨f1, f2, f3⟩ := fids i hi
    rw [h6i, h4i, f1, f2, f3, h2i]
    exact ⟨rfl, rfl, rfl⟩
  have hnum : c6.numOfSides = c1.numOfSides := by
    have h5n : c5.numOfSides = c4.numOfSides := by rw [hc5def]
    rw [hc6def]
    by_cases hfin : (p.finFlag || p.rstFlag) = true
    · rw [if_pos hfin, setSide_numOfSides, h5n, hc4def, setSide_numOfSides, fnum,
        hc2def, setSide_numOfSides]
    · rw [if_neg hfin, h5n, hc4def, setSide_numOfSides, fnum, hc2def, setSide_numOfSides]
  have hgot : (p.finFlag || p.rstFlag) = true → (getSide c6 side).gotFinOrRst = true := by
    intro hfin
    rw [hc6def, if_pos hfin, getSide_setSide_same, hs6def]
  have hsome : p.payload.isEmpty = false →
      ∃ x, (getSide c6 side).sequence = some x := by
    intro hpe
    have hpne : p.payload ≠ [] := by
      intro h
      rw [h] at hpe
      simp at hpe
    have hs1some : ∃ y, s1.sequence = some y := by
      cases hcs : (getSide c1 side).sequence with
      | some y =>
        rcases i1or with h | h
        · rw [hcs] at h; cases h
        · exact ⟨y, by rw [h, hcs]⟩
      | none =>
        rw [hs1def]
        unfold initSeqStep
        have hlen : ¬(p.payload.length = 0 ∧ p.synFlag = true ∧
            (getSide c1 side).sequence = none) := by
          intro hx
          rw [List.length_eq_zero] at hx
          exact hpne hx.1
        rw [if_neg hlen, if_pos ⟨List.length_pos.mpr hpne, hcs⟩]
        exact ⟨_, rfl⟩
    obtain ⟨y, hy⟩ := hs1some
    have hfly : (getSide fl.1 side).sequence = some y := by
      rw [hflside, hy]
    cases hr8s : r8.1.sequence with
    | none =>
      rw [hfly, hr8s] at p8prog
      exact absurd p8prog (by simp [sideProgress])
    | some x =>
      exact ⟨x, by rw [hcomp.1, hr8s]⟩
  have hdrop : (processTcpPayload (getSide c6 side)
      (p.seqNum % SEQ_MOD) p.payload).2 = [] := by
    have hre := processTcpPayload_refeed (getSide fl.1 side) (p.seqNum % SEQ_MOD)
      p.payload (connInv_getSide fl.1 fwf.1 side)
    obtain ⟨hcg, -, -⟩ := processTcpPayload_congr r8.1 (getSide c6 side)
      (p.seqNum % SEQ_MOD) p.payload hcomp.1 hcomp.2.1
    rw [hcg]
    exact hre
  exact ⟨hprev, hip, hport, hother, hnum, hgot, hsome, hdrop⟩

/-- Replaying a packet against the connection state it already produced
delivers nothing and does not trigger a close. -/
theorem processConnPacket_refeed (c : TcpReassemblyData) (p : Packet) (hc : connWF c)
    (hnc : (processConnPacket c p).2.2 = false) :
    (processConnPacket (processConnPacket c p).1 p).2.1 = [] ∧
    (processConnPacket (processConnPacket c p).1 p).2.2 = false := by
  cases hdet : determineSide c p with
  | none =>
    rw [processConnPacket_none c p hdet]
    show (processConnPacket c p).2.1 = [] ∧ (processConnPacket c p).2.2 = false
    rw [processConnPacket_none c p hdet]
    exact ⟨rfl, rfl⟩
  | some pr =>
    obtain ⟨side, c1⟩ := pr
    obtain ⟨hside, hwf1, hs0eq, hcid1, hpv1, hsrcA, hsrcB, hseqs, hside1or, hnum1⟩ :=
      determineSide_spec c p side c1 hdet hc
    obtain ⟨hprev, hip, hport, hother, hnum, hgot, hsome, hdrop⟩ :=
      processConnPacket_post c p side c1 hdet hc
    have hwf' : connWF (processConnPacket c p).1 := (processConnPacket_spec c p hc).1
    have hdet2 : determineSide (processConnPacket c p).1 p =
        some (side, (processConnPacket c p).1) := by
      rcases (by omega : side = 0 ∨ side = 1) with h01 | h01
      · subst h01
        have h00 : (processConnPacket c p).1.side0.srcIP = p.srcIP ∧
            (processConnPacket c p).1.side0.srcPort = p.srcPort := by
          constructor
          · simpa [getSide] using hip
          · simpa [getSide] using hport
        unfold determineSide
        rw [if_pos h00]
      · subst h01
        have h0no : ¬(c.side0.srcIP = p.srcIP ∧ c.side0.srcPort = p.srcPort) := by
          intro hx
          unfold determineSide at hdet
          rw [if_pos hx] at hdet
          simp at hdet
        have h0no' : ¬((processConnPacket c p).1.side0.srcIP = p.srcIP ∧
            (processConnPacket c p).1.side0.srcPort = p.srcPort) := by
          obtain ⟨f1, f2, -⟩ := hother 0 (by omega) (by omega)
          intro hx
          apply h0no
          have g1 : (processConnPacket c p).1.side0.srcIP = c1.side0.srcIP := by
            simpa [getSide] using f1
          have g2 : (processConnPacket c p).1.side0.srcPort = c1.side0.srcPort := by
            simpa [getSide] using f2
          rw [g1, hs0eq] at hx
          rw [g2, hs0eq] at hx
          exact hx
        have h2n : 2 ≤ (processConnPacket c p).1.numOfSides := by
          rw [hnum]
          exact hnum1 rfl
        have h1m : (processConnPacket c p).1.side1.srcIP = p.srcIP ∧
            (processConnPacket c p).1.side1.srcPort = p.srcPort := by
          constructor
          · simpa [getSide] using hip
          · simpa [getSide] using hport
        unfold determineSide
        rw [if_neg h0no', if_pos h2n, if_pos h1m]
    constructor
    · rw [processConnPacket_deliv (processConnPacket c p).1 p side
        (processConnPacket c p).1 hdet2]
      have hfl2 : flushPrevStep (setSide (processConnPacket c p).1 side
          (initSeqStep p (getSide (processConnPacket c p).1 side))) side =
          (setSide (processConnPacket c p).1 side
            (initSeqStep p (getSide (processConnPacket c p).1 side)), []) := by
        apply flushPrevStep_noop
        rw [setSide_prevSide]
        exact hprev
      rw [hfl2]
      show ([] : List (Nat × Delivery)) ++
        (processTcpPayload (getSide (setSide (processConnPacket c p).1 side
            (initSeqStep p (getSide (processConnPacket c p).1 side))) side)
          (p.seqNum % SEQ_MOD) p.payload).2.map (fun d => (side, d)) = []
      rw [List.nil_append, getSide_setSide_same]
      by_cases hpe : p.payload.isEmpty = true
      · rw [processTcpPayload_empty _ _ _ hpe]
        rfl
      · have hpe' : p.payload.isEmpty = false := by
          simp only [Bool.not_eq_true] at hpe
          exact hpe
        obtain ⟨x, hx⟩ := hsome hpe'
        obtain ⟨-, -, -, -, -, -, i2or⟩ := initSeqStep_spec p
          (getSide (processConnPacket c p).1 side)
          (connInv_getSide (processConnPacket c p).1 hwf'.1 side)
        rcases i2or with h | h
        · rw [hx] at h
          cases h
        · rw [h, hdrop]
          rfl
    · rw [processConnPacket_close (processConnPacket c p).1 p side
        (processConnPacket c p).1 hdet2]
      by_cases hfin : (p.finFlag || p.rstFlag) = true
      · have hclose1 := processConnPacket_close c p side c1 hdet
        have hff : ((p.finFlag || p.rstFlag) && (processConnPacket c p).1.side0.gotFinOrRst
            && (processConnPacket c p).1.side1.gotFinOrRst) = false := by
          rw [← hclose1]
          exact hnc
        rw [hfin] at hff
        simp only [Bool.true_and] at hff
        have hgots := hgot hfin
        obtain ⟨-, -, -, hother2, -, hgot2, -, -⟩ :=
          processConnPacket_post (processConnPacket c p).1 p side
            (processConnPacket c p).1 hdet2 hwf'
        rcases (by omega : side = 0 ∨ side = 1) with h01 | h01
        · subst h01
          have h0t : (processConnPacket c p).1.side0.gotFinOrRst = true := by
            simpa [getSide] using hgots
          rw [h0t] at hff
          simp only [Bool.true_and] at hff
          have hoth := (hother2 1 (by omega) (by omega)).2.2
          have h1f : (processConnPacket (processConnPacket c p).1 p).1.side1.gotFinOrRst
              = false := by
            have g1 : (processConnPacket (processConnPacket c p).1 p).1.side1.gotFinOrRst
                = (processConnPacket c p).1.side1.gotFinOrRst := by
              simpa [getSide] using hoth
            rw [g1]
            exact hff
          rw [h1f]
          simp
        · subst h01
          have h1t : (processConnPacket c p).1.side1.gotFinOrRst = true := by
            simpa [getSide] using hgots
          rw [h1t] at hff
          simp only [Bool.and_true] at hff
          have hoth := (hother2 0 (by omega) (by omega)).2.2
          have h0f : (processConnPacket (processConnPacket c p).1 p).1.side0.gotFinOrRst
              = false := by
            have g1 : (processConnPacket (processConnPacket c p).1 p).1.side0.gotFinOrRst
                = (processConnPacket c p).1.side0.gotFinOrRst := by
              simpa [getSide] using hoth
            rw [g1]
            exact hff
          rw [h0f]
          simp
      · have hfin' : (p.finFlag || p.rstFlag) = false := by
          simp only [Bool.not_eq_true] at hfin
          exact hfin
        rw [hfin']
        simp

/-! ## Engine-level invariants -/

/-- The ghost connection-instance identifiers of the open connections. -/
def tableCids (st : TcpReassembly) : List Nat :=
  st.m_ConnectionList.map (fun kc => kc.2.connId)

/-- Structural well-formedness of the engine state: distinct table keys,
well-formed connections, the info table covering open and cleanup keys,
a sorted duplicate-free cleanup queue disjoint from the open table, and
fresh, distinct ghost identifiers. -/
structure EngInv (st : TcpReassembly) : Prop where
  keysNodup : (st.m_ConnectionList.map Prod.fst).Nodup
  connsWF : ∀ kc ∈ st.m_ConnectionList, connWF kc.2
  tableInfo : ∀ kc ∈ st.m_ConnectionList, kc.1 ∈ st.m_ConnectionInfo
  cleanupInfo : ∀ k ∈ cleanupKeys st.m_CleanupList, k ∈ st.m_ConnectionInfo
  cleanupNodup : (cleanupKeys st.m_CleanupList).Nodup
  tableCleanup : ∀ kc ∈ st.m_ConnectionList, kc.1 ∉ cleanupKeys st.m_CleanupList
  cleanupSorted : st.m_CleanupList.Pairwise (fun a b => a.1 < b.1)
  cidBound : ∀ kc ∈ st.m_ConnectionList, kc.2.connId < st.nextConnId
  cidsNodup : (st.m_ConnectionList.map (fun kc => kc.2.connId)).Nodup
  infoNodup : st.m_ConnectionInfo.Nodup

/-- The trace invariant tying the callback history to the engine state:
open connections show one start followed by messages whose per-side
deliveries chain up to the side's expected sequence; all other
identifiers show complete episodes with chained deliveries; identifiers
not yet handed out have no events. -/
structure TrInv (st : TcpReassembly) (tr : List TraceEvent) : Prop where
  openEp : ∀ kc ∈ st.m_ConnectionList, openEpisode (cidEvents tr kc.2.connId) = true
  openProg : ∀ kc ∈ st.m_ConnectionList, ∀ i, i < 2 →
    sideProgress none (getSide kc.2 i).sequence (sideDeliveries tr kc.2.connId i)
  closedEp : ∀ cid, cid ∉ tableCids st → episodeShape (cidEvents tr cid) = true
  closedChain : ∀ cid, cid ∉ tableCids st → ∀ i, i < 2 →
    ∃ b, chainOK b (sideDeliveries tr cid i) = true
  fresh : ∀ cid, st.nextConnId ≤ cid → cidEvents tr cid = []

/-- The agreement invariant for claim C1: relative to per-endpoint sender
streams `Sg`, the buffered fragments and the delivered non-marker
payloads of every side agree with that side's sender stream. -/
structure TrAgree (Sg : Nat → Nat → Nat → Nat) (st : TcpReassembly)
    (tr : List TraceEvent) : Prop where
  frags : ∀ kc ∈ st.m_ConnectionList, ∀ i, i < 2 →
    ∀ f ∈ (getSide kc.2 i).tcpFragmentList,
      bytesAgree (Sg (getSide kc.2 i).srcIP (getSide kc.2 i).srcPort)
        f.sequence f.data = true
  openDeliv : ∀ kc ∈ st.m_ConnectionList, ∀ i, i < 2 →
    ∀ d ∈ sideDeliveries tr kc.2.connId i, d.isMarker = false →
      bytesAgree (Sg (getSide kc.2 i).srcIP (getSide kc.2 i).srcPort)
        d.startSeq d.bytes = true
  closedDeliv : ∀ cid, cid ∉ tableCids st → ∀ i, i < 2 →
    ∃ ip port, ∀ d ∈ sideDeliveries tr cid i, d.isMarker = false →
      bytesAgree (Sg ip port) d.startSeq d.bytes = true

theorem EngInv_congr (st st' : TcpReassembly) (h : EngInv st)
    (h1 : st'.m_ConnectionList = st.m_ConnectionList)
    (h2 : st'.m_ConnectionInfo = st.m_ConnectionInfo)
    (h3 : st'.m_CleanupList = st.m_CleanupList)
    (h4 : st'.nextConnId = st.nextConnId) : EngInv st' := by
  refine ⟨?_, ?_, ?_, ?_, ?_, ?_, ?_, ?_, ?_, ?_⟩
  · rw [h1]; exact h.keysNodup
  · rw [h1]; exact h.connsWF
  · rw [h1, h2]; exact h.tableInfo
  · rw [h3, h2]; exact h.cleanupInfo
  · rw [h3]; exact h.cleanupNodup
  · rw [h1, h3]; exact h.tableCleanup
  · rw [h3]; exact h.cleanupSorted
  · rw [h1, h4]; exact h.cidBound
  · rw [h1]; exact h.cidsNodup
  · rw [h2]; exact h.infoNodup

theorem TrInv_congr (st st' : TcpReassembly) (tr : List TraceEvent) (h : TrInv st tr)
    (h1 : st'.m_ConnectionList = st.m_ConnectionList)
    (h2 : st'.nextConnId = st.nextConnId) : TrInv st' tr := by
  have hc : tableCids st' = tableCids st := by
    unfold tableCids
    rw [h1]
  refine ⟨?_, ?_, ?_, ?_, ?_⟩
  · rw [h1]; exact h.openEp
  · rw [h1]; exact h.openProg
  · rw [hc]; exact h.closedEp
  · rw [hc]; exact h.closedChain
  · rw [h2]; exact h.fresh

theorem TrAgree_congr (Sg : Nat → Nat → Nat → Nat) (st st' : TcpReassembly)
    (tr : List TraceEvent) (h : TrAgree Sg st tr)
    (h1 : st'.m_ConnectionList = st.m_ConnectionList) : TrAgree Sg st' tr := by
  have hc : tableCids st' = tableCids st := by
    unfold tableCids
    rw [h1]
  refine ⟨?_, ?_, ?_⟩
  · rw [h1]; exact h.frags
  · rw [h1]; exact h.openDeliv
  · rw [hc]; exact h.closedDeliv

theorem engInv_mk (cfg : TcpReassemblyConfiguration) (t0 : Nat) :
    EngInv (mkTcpReassembly cfg t0) := by
  refine ⟨?_, ?_, ?_, ?_, ?_, ?_, ?_, ?_, ?_, ?_⟩ <;>
    simp [mkTcpReassembly, cleanupKeys]

theorem trInv_mk (cfg : TcpReassemblyConfiguration) (t0 : Nat) :
    TrInv (mkTcpReassembly cfg t0) [] := by
  refine ⟨?_, ?_, ?_, ?_, ?_⟩
  · intro kc hkc
    simp [mkTcpReassembly] at hkc
  · intro kc hkc
    simp [mkTcpReassembly] at hkc
  · intro cid _
    rfl
  · intro cid _ i _
    exact ⟨0, rfl⟩
  · intro cid _
    rfl

theorem trAgree_mk (Sg : Nat → Nat → Nat → Nat) (cfg : TcpReassemblyConfiguration)
    (t0 : Nat) : TrAgree Sg (mkTcpReassembly cfg t0) [] := by
  refine ⟨?_, ?_, ?_⟩
  · intro kc hkc
    simp [mkTcpReassembly] at hkc
  · intro kc hkc
    simp [mkTcpReassembly] at hkc
  · intro cid _ i _
    exact ⟨0, 0, by intro d hd; simp [sideDeliveries] at hd⟩

theorem cleanupKeys_of_bucket (l : List (Nat × List Nat)) (tb : Nat × List Nat)
    (htb : tb ∈ l) (k : Nat) (hk : k ∈ tb.2) : k ∈ cleanupKeys l := by
  induction l with
  | nil => simp at htb
  | cons tb0 rest ih =>
    simp only [cleanupKeys, List.mem_append]
    rcases List.mem_cons.mp htb with rfl | htb
    · exact Or.inl hk
    · exact Or.inr (ih htb)

theorem mem_cleanupKeys (l : List (Nat × List Nat)) (k : Nat)
    (h : k ∈ cleanupKeys l) : ∃ tb ∈ l, k ∈ tb.2 := by
  induction l with
  | nil => simp [cleanupKeys] at h
  | cons tb0 rest ih =>
    simp only [cleanupKeys, List.mem_append] at h
    rcases h with h | h
    · exact ⟨tb0, List.mem_cons_self _ _, h⟩
    · obtain ⟨tb, htb, hk⟩ := ih h
      exact ⟨tb, List.mem_cons_of_mem _ htb, hk⟩

theorem insertCleanup_bucket (l : List (Nat × List Nat)) (t k : Nat)
    (tb : Nat × List Nat) (htb : tb ∈ insertCleanup l t k) (k' : Nat)
    (hk' : k' ∈ tb.2) : (k' = k ∧ tb.1 = t) ∨ ∃ tb0 ∈ l, tb0.1 = tb.1 ∧ k' ∈ tb0.2 := by
  induction l with
  | nil =>
    simp only [insertCleanup, List.mem_singleton] at htb
    subst htb
    simp only [List.mem_singleton] at hk'
    exact Or.inl ⟨hk', rfl⟩
  | cons tb0 rest ih =>
    obtain ⟨t0, ks0⟩ := tb0
    unfold insertCleanup at htb
    by_cases h1 : t < t0
    · rw [if_pos h1] at htb
      rcases List.mem_cons.mp htb with rfl | htb
      · simp only [List.mem_singleton] at hk'
        exact Or.inl ⟨hk', rfl⟩
      · obtain ⟨tb1, htb1, h⟩ : ∃ tb1 ∈ (t0, ks0) :: rest, tb1 = tb := ⟨tb, htb, rfl⟩
        exact Or.inr ⟨tb, htb, rfl, hk'⟩
    · rw [if_neg h1] at htb
      by_cases h2 : t = t0
      · rw [if_pos h2] at htb
        rcases List.mem_cons.mp htb with rfl | htb
        · simp only at hk'
          rcases List.mem_append.mp hk' with h | h
          · exact Or.inr ⟨(t0, ks0), List.mem_cons_self _ _, rfl, h⟩
          · simp only [List.mem_singleton] at h
            exact Or.inl ⟨h, h2.symm⟩
        · exact Or.inr ⟨tb, List.mem_cons_of_mem _ htb, rfl, hk'⟩
      · rw [if_neg h2] at htb
        rcases List.mem_cons.mp htb with rfl | htb
        · exact Or.inr ⟨(t0, ks0), List.mem_cons_self _ _, rfl, hk'⟩
        · rcases ih htb with h | ⟨tb1, htb1, heq, hmem⟩
          · exact Or.inl h
          · exact Or.inr ⟨tb1, List.mem_cons_of_mem _ htb1, heq, hmem⟩

/-- Purging preserves the engine invariant and leaves the connection table
and ghost counter untouched. -/
theorem purge_preserve (st : TcpReassembly) (now lim : Nat) (hE : EngInv st) :
    EngInv (purgeClosedConnections st now lim).1 ∧
    (purgeClosedConnections st now lim).1.m_ConnectionList = st.m_ConnectionList ∧
    (purgeClosedConnections st now lim).1.nextConnId = st.nextConnId := by
  unfold purgeClosedConnections
  simp only
  set cap := if lim ≠ 0 then lim else effectiveMaxClean st with hcap
  set r := purgeWalk now cap st.m_CleanupList with hr
  have hkeys : r.1 ++ cleanupKeys r.2 = cleanupKeys st.m_CleanupList := by
    rw [hr]
    exact purgeWalk_keys now cap st.m_CleanupList
  have hnodup : (r.1 ++ cleanupKeys r.2).Nodup := by
    rw [hkeys]
    exact hE.cleanupNodup
  have hdisj : ∀ k ∈ cleanupKeys r.2, k ∉ r.1 := by
    intro k hk hkr
    exact (List.disjoint_of_nodup_append hnodup) hkr hk
  have hsub1 : ∀ k ∈ r.1, k ∈ cleanupKeys st.m_CleanupList := by
    intro k hk
    rw [← hkeys]
    exact List.mem_append.mpr (Or.inl hk)
  have hsub2 : ∀ k ∈ cleanupKeys r.2, k ∈ cleanupKeys st.m_CleanupList := by
    intro k hk
    rw [← hkeys]
    exact List.mem_append.mpr (Or.inr hk)
  refine ⟨⟨?_, ?_, ?_, ?_, ?_, ?_, ?_, ?_, ?_, ?_⟩, by trivial, by trivial⟩
  · exact hE.keysNodup
  · exact hE.connsWF
  · intro kc hkc
    rw [List.mem_filter]
    refine ⟨hE.tableInfo kc hkc, ?_⟩
    simp only [decide_eq_true_eq]
    intro hmem
    exact hE.tableCleanup kc hkc (hsub1 kc.1 hmem)
  · intro k hk
    rw [List.mem_filter]
    refine ⟨hE.cleanupInfo k (hsub2 k hk), ?_⟩
    simp only [decide_eq_true_eq]
    exact hdisj k hk
  · exact List.Nodup.of_append_right hnodup
  · intro kc hkc hmem
    exact hE.tableCleanup kc hkc (hsub2 kc.1 hmem)
  · rw [hr]
    exact purgeWalk_sorted now cap st.m_CleanupList hE.cleanupSorted
  · exact hE.cidBound
  · exact hE.cidsNodup
  · exact List.Nodup.filter _ hE.infoNodup

/-- The automatic purge leaves the connection table and ghost counter
untouched and preserves the engine invariant. -/
theorem autoPurge_preserve (st : TcpReassembly) (now : Nat) (hE : EngInv st) :
    EngInv (autoPurge st now) ∧
    (autoPurge st now).m_ConnectionList = st.m_ConnectionList ∧
    (autoPurge st now).nextConnId = st.nextConnId := by
  unfold autoPurge
  by_cases h : (st.m_RemoveConnInfo && decide (1 ≤ now - st.m_PurgeTimepoint)) = true
  · rw [if_pos h]
    obtain ⟨hE2, h1, h2⟩ := purge_preserve st now 0 hE
    refine ⟨EngInv_congr _ _ hE2 rfl rfl rfl rfl, ?_, ?_⟩
    · show (purgeClosedConnections st now 0).1.m_ConnectionList = st.m_ConnectionList
      exact h1
    · show (purgeClosedConnections st now 0).1.nextConnId = st.nextConnId
      exact h2
  · rw [if_neg h]
    exact ⟨hE, rfl, rfl⟩

/-- A key held only in cleanup buckets that are not yet due survives the
automatic purge's info-table pruning. -/
theorem autoPurge_info (st : TcpReassembly) (now k : Nat)
    (hk : k ∈ st.m_ConnectionInfo)
    (hnc : ∀ tb ∈ st.m_CleanupList, tb.1 ≤ now → k ∉ tb.2) :
    k ∈ (autoPurge st now).m_ConnectionInfo := by
  unfold autoPurge
  by_cases h : (st.m_RemoveConnInfo && decide (1 ≤ now - st.m_PurgeTimepoint)) = true
  · rw [if_pos h]
    show k ∈ (purgeClosedConnections st now 0).1.m_ConnectionInfo
    unfold purgeClosedConnections
    simp only
    rw [List.mem_filter]
    refine ⟨hk, ?_⟩
    simp only [decide_eq_true_eq]
    intro hmem
    obtain ⟨tb, htb, ht, hkt⟩ := purgeWalk_eligible now _ st.m_CleanupList k hmem
    exact hnc tb htb ht hkt
  · rw [if_neg h]
    exact hk

theorem cidEvents_self (evs : List TraceEvent) (cid : Nat)
    (h : ∀ ev ∈ evs, eventCid ev = cid) : cidEvents evs cid = evs := by
  unfold cidEvents
  rw [List.filter_eq_self]
  intro ev hev
  simp [h ev hev]

theorem sideDeliveries_plain (k cid j : Nat) (ds : List Delivery) (i : Nat) :
    sideDeliveries (ds.map (fun d => TraceEvent.msgReady k cid j d)) cid i =
      if j = i then ds else [] := by
  have h1 : ds.map (fun d => TraceEvent.msgReady k cid j d) =
      (ds.map (fun d => (j, d))).map (fun sd => TraceEvent.msgReady k cid sd.1 sd.2) := by
    rw [List.map_map]
    rfl
  rw [h1, sideDeliveries_msgs, projSide_map]

theorem plain_all_isMsg (k cid j : Nat) (ds : List Delivery) :
    (ds.map (fun d => TraceEvent.msgReady k cid j d)).all isMsgEv = true := by
  rw [List.all_eq_true]
  intro ev hev
  obtain ⟨d, -, rfl⟩ := List.mem_map.mp hev
  rfl

theorem sideProgress_chain (o : Option Nat) (ds : List Delivery)
    (h : sideProgress none o ds) : ∃ b, chainOK b ds = true := by
  cases o with
  | some e =>
    obtain ⟨b, h1, -⟩ := h
    exact ⟨b, h1⟩
  | none =>
    have hnil : ds = [] := h
    subst hnil
    exact ⟨0, rfl⟩

/-- Entries of a duplicate-free table are determined by their key. -/
theorem entry_unique (l : List (Nat × TcpReassemblyData))
    (hN : (l.map Prod.fst).Nodup) (kc kc' : Nat × TcpReassemblyData)
    (h1 : kc ∈ l) (h2 : kc' ∈ l) (hk : kc.1 = kc'.1) : kc = kc' :=
  List.inj_on_of_nodup_map hN h1 h2 hk

/-- Entries of a table with duplicate-free ghost identifiers are
determined by their identifier. -/
theorem entry_unique_cid (l : List (Nat × TcpReassemblyData))
    (hN : (l.map (fun kc => kc.2.connId)).Nodup) (kc kc' : Nat × TcpReassemblyData)
    (h1 : kc ∈ l) (h2 : kc' ∈ l) (hk : kc.2.connId = kc'.2.connId) : kc = kc' :=
  List.inj_on_of_nodup_map hN h1 h2 hk

theorem lookupConn_eraseConn_ne (l : List (Nat × TcpReassemblyData)) (k k' : Nat)
    (h : k' ≠ k) : lookupConn (eraseConn l k) k' = lookupConn l k' := by
  unfold lookupConn eraseConn
  induction l with
  | nil => simp
  | cons kc rest ih =>
    by_cases hkc : kc.1 = k
    · rw [List.filter_cons_of_neg (by simpa using hkc)]
      rw [List.find?_cons_of_neg _ (by simp [hkc, Ne.symm h])]
      exact ih
    · rw [List.filter_cons_of_pos (by simpa using hkc)]
      by_cases hk' : kc.1 = k'
      · rw [List.find?_cons_of_pos _ (by simpa using hk'),
          List.find?_cons_of_pos _ (by simpa using hk')]
      · rw [List.find?_cons_of_neg _ (by simpa using hk'),
          List.find?_cons_of_neg _ (by simpa using hk')]
        exact ih

theorem closeInternal_noconn (st : TcpReassembly) (key : Nat) (manual : Bool) (now : Nat)
    (h : lookupConn st.m_ConnectionList key = none) :
    closeConnectionInternal st key manual now = (st, []) := by
  unfold closeConnectionInternal
  rw [h]

/-- Master lemma of connection termination: closing preserves the engine
and trace invariants (the closed connection's episode is completed by the
final flush messages and the end event), preserves agreement, does not
touch the ghost counter or the info table, and removes the key from the
connection table. -/
theorem closeInternal_master (Sg : Nat → Nat → Nat → Nat) (st : TcpReassembly)
    (key : Nat) (manual : Bool) (now : Nat) (tr : List TraceEvent)
    (hE : EngInv st) (hT : TrInv st tr) :
    EngInv (closeConnectionInternal st key manual now).1 ∧
    TrInv (closeConnectionInternal st key manual now).1
      (tr ++ (closeConnectionInternal st key manual now).2) ∧
    (TrAgree Sg st tr → TrAgree Sg (closeConnectionInternal st key manual now).1
      (tr ++ (closeConnectionInternal st key manual now).2)) ∧
    (closeConnectionInternal st key manual now).1.nextConnId = st.nextConnId ∧
    (closeConnectionInternal st key manual now).1.m_ConnectionInfo = st.m_ConnectionInfo ∧
    lookupConn (closeConnectionInternal st key manual now).1.m_ConnectionList key = none ∧
    (∀ k', k' ≠ key → lookupConn (closeConnectionInternal st key manual now).1.m_ConnectionList k' =
      lookupConn st.m_ConnectionList k') := by
  cases hlook : lookupConn st.m_ConnectionList key with
  | none =>
    rw [closeInternal_noconn st key manual now hlook]
    refine ⟨hE, ?_, ?_, rfl, rfl, hlook, fun k' _ => rfl⟩
    · show TrInv st (tr ++ [])
      rw [List.append_nil]
      exact hT
    · intro hA
      show TrAgree Sg st (tr ++ [])
      rw [List.append_nil]
      exact hA
  | some c =>
    have hmem : (key, c) ∈ st.m_ConnectionList := lookupConn_some_mem _ _ _ hlook
    have hcwf : connWF c := hE.connsWF (key, c) hmem
    have hg0 : getSide c 0 = c.side0 := by simp [getSide]
    have hg1 : getSide c 1 = c.side1 := by simp [getSide]
    obtain ⟨f01, f02, f03, f04, f05, f06, f07, f08⟩ :=
      checkOutOfOrderFragments_spec true c.side0 hcwf.1.1
    obtain ⟨f11, f12, f13, f14, f15, f16, f17, f18⟩ :=
      checkOutOfOrderFragments_spec true c.side1 hcwf.1.2
    unfold closeConnectionInternal
    rw [hlook]
    simp only
    set r0 := checkOutOfOrderFragments true c.side0 with hr0
    set r1 := checkOutOfOrderFragments true c.side1 with hr1
    set m0 := r0.2.map (fun d => TraceEvent.msgReady key c.connId 0 d) with hm0
    set m1 := r1.2.map (fun d => TraceEvent.msgReady key c.connId 1 d) with hm1
    set evs := m0 ++ m1 ++ [TraceEvent.connEnd key c.connId manual] with hevs
    set cl1 := (if st.m_RemoveConnInfo = true
      then insertCleanup st.m_CleanupList (now + effectiveDelay st) key
      else st.m_CleanupList) with hcl1
    set st1 : TcpReassembly := { st with
      m_ConnectionList := eraseConn st.m_ConnectionList key,
      m_CleanupList := cl1 } with hst1
    have hecids : ∀ ev ∈ evs, eventCid ev = c.connId := by
      intro ev hev
      rw [hevs] at hev
      rcases List.mem_append.mp hev with h | h
      · rcases List.mem_append.mp h with h | h
        · obtain ⟨d, -, rfl⟩ := List.mem_map.mp h
          rfl
        · obtain ⟨d, -, rfl⟩ := List.mem_map.mp h
          rfl
      · rw [List.mem_singleton] at h
        subst h
        rfl
    have hclkeys : ∀ k ∈ cleanupKeys cl1, k = key ∨ k ∈ cleanupKeys st.m_CleanupList := by
      intro k hk
      rw [hcl1] at hk
      by_cases hrm : st.m_RemoveConnInfo = true
      · rw [if_pos hrm] at hk
        have := (insertCleanup_perm st.m_CleanupList (now + effectiveDelay st) key).mem_iff.mp hk
        rcases List.mem_cons.mp this with h | h
        · exact Or.inl h
        · exact Or.inr h
      · rw [if_neg hrm] at hk
        exact Or.inr hk
    have hcidlt : c.connId < st.nextConnId := hE.cidBound (key, c) hmem
    have hOtherEv : ∀ cid, cid ≠ c.connId → cidEvents evs cid = [] := by
      intro cid hne
      exact cidEvents_of_other evs cid (fun ev hev => by rw [hecids ev hev]; exact fun hh => hne hh.symm)
    have hOtherSd : ∀ cid, cid ≠ c.connId → ∀ i, sideDeliveries evs cid i = [] := by
      intro cid hne i
      exact sideDeliveries_of_other evs cid i
        (fun ev hev => by rw [hecids ev hev]; exact fun hh => hne hh.symm)
    have hSelfEv : cidEvents evs c.connId = evs := cidEvents_self evs c.connId hecids
    have hSelfSd : ∀ i, i < 2 → sideDeliveries evs c.connId i =
        (if i = 0 then r0.2 else r1.2) := by
      intro i hi
      rw [hevs, sideDeliveries_append, sideDeliveries_append, hm0, hm1,
        sideDeliveries_plain, sideDeliveries_plain]
      have hend : sideDeliveries [TraceEvent.connEnd key c.connId manual] c.connId i = [] := rfl
      rw [hend]
      by_cases h0 : i = 0
      · subst h0
        simp
      · have h1 : i = 1 := by omega
        subst h1
        simp
    have hcidne : ∀ kc ∈ st1.m_ConnectionList, kc.2.connId ≠ c.connId := by
      intro kc hkc hne
      have hkc2 := (mem_eraseConn st.m_ConnectionList key kc).mp hkc
      have := entry_unique_cid st.m_ConnectionList hE.cidsNodup kc (key, c) hkc2.1 hmem hne
      rw [this] at hkc2
      exact hkc2.2 rfl
    have htab1 : ∀ kc ∈ st1.m_ConnectionList, kc ∈ st.m_ConnectionList ∧ kc.1 ≠ key := by
      intro kc hkc
      exact (mem_eraseConn st.m_ConnectionList key kc).mp hkc
    have hcidsplit : ∀ cid, cid ∉ tableCids st1 → cid ≠ c.connId → cid ∉ tableCids st := by
      intro cid h1 h2 hmem2
      obtain ⟨kc, hkc, hkcid⟩ := List.mem_map.mp hmem2
      by_cases hkey : kc.1 = key
      · have := entry_unique st.m_ConnectionList hE.keysNodup kc (key, c) hkc hmem hkey
        rw [this] at hkcid
        exact h2 hkcid.symm
      · apply h1
        exact List.mem_map.mpr ⟨kc, (mem_eraseConn _ _ _).mpr ⟨hkc, hkey⟩, hkcid⟩
    have hEng1 : EngInv st1 := by
      refine ⟨?_, ?_, ?_, ?_, ?_, ?_, ?_, ?_, ?_, ?_⟩
      · exact hE.keysNodup.sublist (eraseConn_map_sublist st.m_ConnectionList key Prod.fst)
      · intro kc hkc
        exact hE.connsWF kc (htab1 kc hkc).1
      · intro kc hkc
        exact hE.tableInfo kc (htab1 kc hkc).1
      · intro k hk
        rcases hclkeys k hk with h | h
        · rw [h]
          exact hE.tableInfo (key, c) hmem
        · exact hE.cleanupInfo k h
      · show (cleanupKeys cl1).Nodup
        rw [hcl1]
        by_cases hrm : st.m_RemoveConnInfo = true
        · rw [if_pos hrm]
          refine ((insertCleanup_perm st.m_CleanupList (now + effectiveDelay st)
            key).nodup_iff).mpr ?_
          exact List.nodup_cons.mpr ⟨hE.tableCleanup (key, c) hmem, hE.cleanupNodup⟩
        · rw [if_neg hrm]
          exact hE.cleanupNodup
      · intro kc hkc hmem2
        rcases hclkeys kc.1 hmem2 with h | h
        · exact (htab1 kc hkc).2 h
        · exact hE.tableCleanup kc (htab1 kc hkc).1 h
      · show cl1.Pairwise (fun a b => a.1 < b.1)
        rw [hcl1]
        by_cases hrm : st.m_RemoveConnInfo = true
        · rw [if_pos hrm]
          exact insertCleanup_sorted st.m_CleanupList _ key hE.cleanupSorted
        · rw [if_neg hrm]
          exact hE.cleanupSorted
      · intro kc hkc
        exact hE.cidBound kc (htab1 kc hkc).1
      · exact hE.cidsNodup.sublist
          (eraseConn_map_sublist st.m_ConnectionList key (fun kc => kc.2.connId))
      · exact hE.infoNodup
    have hTr1 : TrInv st1 (tr ++ evs) := by
      refine ⟨?_, ?_, ?_, ?_, ?_⟩
      · intro kc hkc
        rw [cidEvents_append, hOtherEv kc.2.connId (hcidne kc hkc), List.append_nil]
        exact hT.openEp kc (htab1 kc hkc).1
      · intro kc hkc i hi
        rw [sideDeliveries_append, hOtherSd kc.2.connId (hcidne kc hkc) i, List.append_nil]
        exact hT.openProg kc (htab1 kc hkc).1 i hi
      · intro cid hcid
        by_cases hcc : cid = c.connId
        · subst hcc
          rw [cidEvents_append, hSelfEv, hevs]
          exact episodeShape_close (cidEvents tr c.connId) (m0 ++ m1) _
            (hT.openEp (key, c) hmem)
            (by rw [List.all_append, hm0, hm1, plain_all_isMsg, plain_all_isMsg]; rfl)
            rfl
        · rw [cidEvents_append, hOtherEv cid hcc, List.append_nil]
          exact hT.closedEp cid (hcidsplit cid hcid hcc)
      · intro cid hcid i hi
        by_cases hcc : cid = c.connId
        · subst hcc
          rw [sideDeliveries_append, hSelfSd i hi]
          have hbase := hT.openProg (key, c) hmem i hi
          by_cases h0 : i = 0
          · subst h0
            rw [if_pos rfl]
            refine sideProgress_chain r0.1.sequence _ ?_
            refine sideProgress_trans none _ _ _ _ hbase ?_
            rw [hg0]
            exact f02
          · have h1 : i = 1 := by omega
            subst h1
            rw [if_neg (by omega)]
            refine sideProgress_chain r1.1.sequence _ ?_
            refine sideProgress_trans none _ _ _ _ hbase ?_
            rw [hg1]
            exact f12
        · rw [sideDeliveries_append, hOtherSd cid hcc i, List.append_nil]
          exact hT.closedChain cid (hcidsplit cid hcid hcc) i hi
      · intro cid hcid
        have h1 : st1.nextConnId = st.nextConnId := by rw [hst1]
        rw [h1] at hcid
        rw [cidEvents_append, hT.fresh cid hcid, hOtherEv cid (by omega), List.nil_append]
    have hAgr1 : TrAgree Sg st tr → TrAgree Sg st1 (tr ++ evs) := by
      intro hA
      refine ⟨?_, ?_, ?_⟩
      · intro kc hkc i hi f hf
        exact hA.frags kc (htab1 kc hkc).1 i hi f hf
      · intro kc hkc i hi d hd hm
        rw [sideDeliveries_append, hOtherSd kc.2.connId (hcidne kc hkc) i,
          List.append_nil] at hd
        exact hA.openDeliv kc (htab1 kc hkc).1 i hi d hd hm
      · intro cid hcid i hi
        by_cases hcc : cid = c.connId
        · subst hcc
          refine ⟨(getSide c i).srcIP, (getSide c i).srcPort, ?_⟩
          intro d hd hm
          rw [sideDeliveries_append, hSelfSd i hi] at hd
          rcases List.mem_append.mp hd with hd | hd
          · exact hA.openDeliv (key, c) hmem i hi d hd hm
          · by_cases h0 : i = 0
            · subst h0
              rw [if_pos rfl] at hd
              refine checkOutOfOrderFragments_agree
                (Sg (getSide c 0).srcIP (getSide c 0).srcPort) true c.side0 hcwf.1.1
                ?_ d hd hm
              intro f hf
              have := hA.frags (key, c) hmem 0 (by omega) f (by rw [hg0]; exact hf)
              rwa [hg0] at this ⊢
            · have h1 : i = 1 := by omega
              subst h1
              rw [if_neg (by omega)] at hd
              refine checkOutOfOrderFragments_agree
                (Sg (getSide c 1).srcIP (getSide c 1).srcPort) true c.side1 hcwf.1.2
                ?_ d hd hm
              intro f hf
              have := hA.frags (key, c) hmem 1 (by omega) f (by rw [hg1]; exact hf)
              rwa [hg1] at this ⊢
        · obtain ⟨ip, port, hall⟩ := hA.closedDeliv cid (hcidsplit cid hcid hcc) i hi
          refine ⟨ip, port, ?_⟩
          intro d hd hm
          rw [sideDeliveries_append, hOtherSd cid hcc i, List.append_nil] at hd
          exact hall d hd hm
    refine ⟨hEng1, hTr1, hAgr1, by first | trivial | rfl, by first | trivial | rfl, ?_, ?_⟩
    · show lookupConn (eraseConn st.m_ConnectionList key) key = none
      exact lookupConn_eraseConn_self st.m_ConnectionList key
    · intro k' hk'
      show lookupConn (eraseConn st.m_ConnectionList key) k' =
        lookupConn st.m_ConnectionList k'
      exact lookupConn_eraseConn_ne st.m_ConnectionList key k' hk'

/-- After closing an open connection at time `now`, its key sits only in
cleanup buckets strictly later than `now` (the close delay is at least one
second). -/
theorem closeInternal_cleanup_fresh (st : TcpReassembly) (key : Nat) (manual : Bool)
    (now : Nat) (hE : EngInv st) (c : TcpReassemblyData)
    (hlook : lookupConn st.m_ConnectionList key = some c) :
    ∀ tb ∈ (closeConnectionInternal st key manual now).1.m_CleanupList,
      tb.1 ≤ now → key ∉ tb.2 := by
  have hmem := lookupConn_some_mem _ _ _ hlook
  unfold closeConnectionInternal
  rw [hlook]
  intro tb htb hle hkmem
  have htb' : tb ∈ (if st.m_RemoveConnInfo = true
      then insertCleanup st.m_CleanupList (now + effectiveDelay st) key
      else st.m_CleanupList) := htb
  by_cases hrm : st.m_RemoveConnInfo = true
  · rw [if_pos hrm] at htb'
    rcases insertCleanup_bucket st.m_CleanupList (now + effectiveDelay st) key tb htb'
        key hkmem with ⟨-, ht⟩ | ⟨tb0, htb0, -, hk0⟩
    · have hd : 1 ≤ effectiveDelay st := by
        unfold effectiveDelay
        by_cases h : st.m_ClosedConnectionDelay = 0
        · rw [if_pos h]
          omega
        · rw [if_neg h]
          omega
      omega
    · exact hE.tableCleanup (key, c) hmem
        (cleanupKeys_of_bucket st.m_CleanupList tb0 htb0 key hk0)
  · rw [if_neg hrm] at htb'
    exact hE.tableCleanup (key, c) hmem
      (cleanupKeys_of_bucket st.m_CleanupList tb htb' key hkmem)

theorem mem_projSide (l : List (Nat × Delivery)) (i : Nat) (d : Delivery)
    (h : d ∈ projSide l i) : (i, d) ∈ l := by
  induction l with
  | nil => simp [projSide] at h
  | cons sd rest ih =>
    simp only [projSide, List.filterMap_cons] at h
    by_cases hs : sd.1 = i
    · rw [if_pos hs] at h
      rcases List.mem_cons.mp h with heq | h
      · subst heq
        rw [← hs]
        exact List.mem_cons_self _ _
      · exact List.mem_cons_of_mem _ (ih h)
    · rw [if_neg hs] at h
      exact List.mem_cons_of_mem _ (ih h)

theorem msgs_eventCid (key cid : Nat) (l : List (Nat × Delivery)) :
    ∀ ev ∈ l.map (fun sd => TraceEvent.msgReady key cid sd.1 sd.2), eventCid ev = cid := by
  intro ev hev
  obtain ⟨sd, -, rfl⟩ := List.mem_map.mp hev
  rfl

/-- Master lemma of the in-table packet-processing step: updating the
packet's connection with the processed state and appending the
`onMessageReady` events preserves the engine, trace and agreement
invariants. -/
theorem update_master (Sg : Nat → Nat → Nat → Nat) (st : TcpReassembly) (key : Nat)
    (c : TcpReassemblyData) (p : Packet) (tr : List TraceEvent) (hE : EngInv st)
    (hT : TrInv st tr) (hlook : lookupConn st.m_ConnectionList key = some c) :
    EngInv { st with
      m_ConnectionList := updateConn st.m_ConnectionList key (processConnPacket c p).1 } ∧
    TrInv { st with
      m_ConnectionList := updateConn st.m_ConnectionList key (processConnPacket c p).1 }
      (tr ++ (processConnPacket c p).2.1.map
        (fun sd => TraceEvent.msgReady key c.connId sd.1 sd.2)) ∧
    (bytesAgree (Sg p.srcIP p.srcPort) (p.seqNum % SEQ_MOD) p.payload = true →
      TrAgree Sg st tr →
      TrAgree Sg { st with
        m_ConnectionList := updateConn st.m_ConnectionList key (processConnPacket c p).1 }
        (tr ++ (processConnPacket c p).2.1.map
          (fun sd => TraceEvent.msgReady key c.connId sd.1 sd.2))) ∧
    lookupConn (updateConn st.m_ConnectionList key (processConnPacket c p).1) key =
      some (processConnPacket c p).1 ∧
    (∀ k', k' ≠ key →
      lookupConn (updateConn st.m_ConnectionList key (processConnPacket c p).1) k' =
        lookupConn st.m_ConnectionList k') := by
  have hmem : (key, c) ∈ st.m_ConnectionList := lookupConn_some_mem _ _ _ hlook
  have hcwf : connWF c := hE.connsWF (key, c) hmem
  obtain ⟨pwf, pprog, pcid, ptags, pids⟩ := processConnPacket_spec c p hcwf
  set r := processConnPacket c p with hrdef
  set msgs := r.2.1.map (fun sd => TraceEvent.msgReady key c.connId sd.1 sd.2) with hmdef
  have hentry : ∀ kc ∈ st.m_ConnectionList, kc.1 = key → kc.2 = c := by
    intro kc hkc hk
    have := entry_unique st.m_ConnectionList hE.keysNodup kc (key, c) hkc hmem hk
    rw [this]
  have hcids : (updateConn st.m_ConnectionList key r.1).map (fun kc => kc.2.connId) =
      st.m_ConnectionList.map (fun kc => kc.2.connId) :=
    updateConn_cids st.m_ConnectionList key r.1 c pcid hentry
  have hkeys : (updateConn st.m_ConnectionList key r.1).map Prod.fst =
      st.m_ConnectionList.map Prod.fst := updateConn_keys st.m_ConnectionList key r.1
  have hmemsplit : ∀ kc, kc ∈ updateConn st.m_ConnectionList key r.1 →
      kc = (key, r.1) ∨ (kc ∈ st.m_ConnectionList ∧ kc.1 ≠ key) :=
    fun kc hkc => mem_updateConn st.m_ConnectionList key r.1 kc hkc
  have hcidne : ∀ kc ∈ st.m_ConnectionList, kc.1 ≠ key → kc.2.connId ≠ c.connId := by
    intro kc hkc hk hne
    have := entry_unique_cid st.m_ConnectionList hE.cidsNodup kc (key, c) hkc hmem hne
    rw [this] at hk
    exact hk rfl
  have hccid : c.connId ∈ tableCids st :=
    List.mem_map.mpr ⟨(key, c), hmem, rfl⟩
  have hOtherEv : ∀ cid, cid ≠ c.connId → cidEvents msgs cid = [] := by
    intro cid hne
    exact cidEvents_of_other msgs cid
      (fun ev hev => by rw [msgs_eventCid key c.connId r.2.1 ev hev]; exact fun hh => hne hh.symm)
  have hOtherSd : ∀ cid, cid ≠ c.connId → ∀ i, sideDeliveries msgs cid i = [] := by
    intro cid hne i
    exact sideDeliveries_of_other msgs cid i
      (fun ev hev => by rw [msgs_eventCid key c.connId r.2.1 ev hev]; exact fun hh => hne hh.symm)
  have hEng1 : EngInv { st with
      m_ConnectionList := updateConn st.m_ConnectionList key r.1 } := by
    refine ⟨?_, ?_, ?_, ?_, ?_, ?_, ?_, ?_, ?_, ?_⟩
    · show (updateConn st.m_ConnectionList key r.1).map Prod.fst |>.Nodup
      rw [hkeys]
      exact hE.keysNodup
    · intro kc hkc
      rcases hmemsplit kc hkc with rfl | ⟨h1, -⟩
      · exact pwf
      · exact hE.connsWF kc h1
    · intro kc hkc
      rcases hmemsplit kc hkc with rfl | ⟨h1, -⟩
      · exact hE.tableInfo (key, c) hmem
      · exact hE.tableInfo kc h1
    · exact hE.cleanupInfo
    · exact hE.cleanupNodup
    · intro kc hkc
      rcases hmemsplit kc hkc with rfl | ⟨h1, -⟩
      · exact hE.tableCleanup (key, c) hmem
      · exact hE.tableCleanup kc h1
    · exact hE.cleanupSorted
    · intro kc hkc
      rcases hmemsplit kc hkc with rfl | ⟨h1, -⟩
      · show r.1.connId < st.nextConnId
        rw [pcid]
        exact hE.cidBound (key, c) hmem
      · exact hE.cidBound kc h1
    · show (updateConn st.m_ConnectionList key r.1).map (fun kc => kc.2.connId) |>.Nodup
      rw [hcids]
      exact hE.cidsNodup
    · exact hE.infoNodup
  have hTr1 : TrInv { st with
      m_ConnectionList := updateConn st.m_ConnectionList key r.1 } (tr ++ msgs) := by
    refine ⟨?_, ?_, ?_, ?_, ?_⟩
    · intro kc hkc
      rcases hmemsplit kc hkc with rfl | ⟨h1, h2⟩
      · show openEpisode (cidEvents (tr ++ msgs) r.1.connId) = true
        rw [pcid, cidEvents_append, hmdef, cidEvents_msgs_self]
        exact openEpisode_append_msgs _ _ (hT.openEp (key, c) hmem)
          (msgs_all_isMsg r.2.1 key c.connId)
      · rw [cidEvents_append, hOtherEv kc.2.connId (hcidne kc h1 h2), List.append_nil]
        exact hT.openEp kc h1
    · intro kc hkc i hi
      rcases hmemsplit kc hkc with rfl | ⟨h1, h2⟩
      · show sideProgress none (getSide r.1 i).sequence
          (sideDeliveries (tr ++ msgs) r.1.connId i)
        rw [pcid, sideDeliveries_append, hmdef, sideDeliveries_msgs]
        exact sideProgress_trans none _ _ _ _ (hT.openProg (key, c) hmem i hi)
          (pprog i hi)
      · rw [sideDeliveries_append, hOtherSd kc.2.connId (hcidne kc h1 h2) i,
          List.append_nil]
        exact hT.openProg kc h1 i hi
    · intro cid hcid
      have hcid' : cid ∉ tableCids st := by
        intro h
        apply hcid
        show cid ∈ (updateConn st.m_ConnectionList key r.1).map (fun kc => kc.2.connId)
        rw [hcids]
        exact h
      rw [cidEvents_append, hOtherEv cid (fun h => hcid' (h ▸ hccid)), List.append_nil]
      exact hT.closedEp cid hcid'
    · intro cid hcid i hi
      have hcid' : cid ∉ tableCids st := by
        intro h
        apply hcid
        show cid ∈ (updateConn st.m_ConnectionList key r.1).map (fun kc => kc.2.connId)
        rw [hcids]
        exact h
      rw [sideDeliveries_append, hOtherSd cid (fun h => hcid' (h ▸ hccid)) i,
        List.append_nil]
      exact hT.closedChain cid hcid' i hi
    · intro cid hcid
      have hcid2 : st.nextConnId ≤ cid := hcid
      have hlt : c.connId < st.nextConnId := hE.cidBound (key, c) hmem
      rw [cidEvents_append, hT.fresh cid hcid2, hOtherEv cid (by omega), List.nil_append]
  have hAgr1 : bytesAgree (Sg p.srcIP p.srcPort) (p.seqNum % SEQ_MOD) p.payload = true →
      TrAgree Sg st tr →
      TrAgree Sg { st with
        m_ConnectionList := updateConn st.m_ConnectionList key r.1 } (tr ++ msgs) := by
    intro hpk hA
    obtain ⟨pagD, pagF⟩ := processConnPacket_agree Sg c p hcwf hpk
      (fun i hi => hA.frags (key, c) hmem i hi)
    refine ⟨?_, ?_, ?_⟩
    · intro kc hkc i hi f hf
      rcases hmemsplit kc hkc with rfl | ⟨h1, -⟩
      · exact pagF i hi f hf
      · exact hA.frags kc h1 i hi f hf
    · intro kc hkc i hi d hd hm
      rcases hmemsplit kc hkc with rfl | ⟨h1, h2⟩
      · show bytesAgree (Sg (getSide r.1 i).srcIP (getSide r.1 i).srcPort)
          d.startSeq d.bytes = true
        have hd' : d ∈ sideDeliveries (tr ++ msgs) r.1.connId i := hd
        rw [pcid, sideDeliveries_append, hmdef, sideDeliveries_msgs] at hd'
        rcases List.mem_append.mp hd' with hdo | hdn
        · rcases pids i hi with ⟨hq1, hq2⟩ | ⟨hi1, hempty, hq1, hq2⟩
          · rw [hq1, hq2]
            exact hA.openDeliv (key, c) hmem i hi d hdo hm
          · subst hi1
            have hprog1 := hT.openProg (key, c) hmem 1 (by omega)
            have hseq1 : (getSide c 1).sequence = none := by
              have : getSide c 1 = c.side1 := by simp [getSide]
              rw [this, hempty]
            rw [hseq1] at hprog1
            have : sideDeliveries tr c.connId 1 = [] := hprog1
            rw [this] at hdo
            simp at hdo
        · exact pagD (i, d) (mem_projSide r.2.1 i d hdn) hm
      · rw [sideDeliveries_append, hOtherSd kc.2.connId (hcidne kc h1 h2) i,
          List.append_nil] at hd
        exact hA.openDeliv kc h1 i hi d hd hm
    · intro cid hcid i hi
      have hcid' : cid ∉ tableCids st := by
        intro h
        apply hcid
        show cid ∈ (updateConn st.m_ConnectionList key r.1).map (fun kc => kc.2.connId)
        rw [hcids]
        exact h
      obtain ⟨ip, port, hall⟩ := hA.closedDeliv cid hcid' i hi
      refine ⟨ip, port, ?_⟩
      intro d hd hm
      rw [sideDeliveries_append, hOtherSd cid (fun h => hcid' (h ▸ hccid)) i,
        List.append_nil] at hd
      exact hall d hd hm
  exact ⟨hEng1, hTr1, hAgr1,
    lookupConn_updateConn_self st.m_ConnectionList key r.1 ⟨c, hlook⟩,
    fun k' hk' => lookupConn_updateConn_ne st.m_ConnectionList key k' r.1 hk'⟩

/-- Master lemma of connection creation: appending a fresh connection and
its `onConnectionStart` event preserves the engine, trace and agreement
invariants. -/
theorem create_master (Sg : Nat → Nat → Nat → Nat) (st : TcpReassembly) (key : Nat)
    (p : Packet) (tr : List TraceEvent) (hE : EngInv st) (hT : TrInv st tr)
    (hlook : lookupConn st.m_ConnectionList key = none)
    (hinfo : key ∉ st.m_ConnectionInfo) :
    EngInv { st with
      m_ConnectionList := st.m_ConnectionList ++ [(key,
        { numOfSides := 1, side0 := { srcIP := p.srcIP, srcPort := p.srcPort },
          connId := st.nextConnId })],
      m_ConnectionInfo := st.m_ConnectionInfo ++ [key],
      nextConnId := st.nextConnId + 1 } ∧
    TrInv { st with
      m_ConnectionList := st.m_ConnectionList ++ [(key,
        { numOfSides := 1, side0 := { srcIP := p.srcIP, srcPort := p.srcPort },
          connId := st.nextConnId })],
      m_ConnectionInfo := st.m_ConnectionInfo ++ [key],
      nextConnId := st.nextConnId + 1 }
      (tr ++ [TraceEvent.connStart key st.nextConnId]) ∧
    (TrAgree Sg st tr → TrAgree Sg { st with
      m_ConnectionList := st.m_ConnectionList ++ [(key,
        { numOfSides := 1, side0 := { srcIP := p.srcIP, srcPort := p.srcPort },
          connId := st.nextConnId })],
      m_ConnectionInfo := st.m_ConnectionInfo ++ [key],
      nextConnId := st.nextConnId + 1 }
      (tr ++ [TraceEvent.connStart key st.nextConnId])) := by
  set c0 : TcpReassemblyData :=
    { numOfSides := 1, side0 := { srcIP := p.srcIP, srcPort := p.srcPort },
      connId := st.nextConnId } with hc0
  have hkne : ∀ kc ∈ st.m_ConnectionList, kc.1 ≠ key := (lookupConn_none _ _).mp hlook
  have hc0wf : connWF c0 := by
    refine ⟨⟨?_, ?_⟩, fun _ => rfl, fun j h => by cases h⟩
    · show sideInv { srcIP := p.srcIP, srcPort := p.srcPort }
      unfold sideInv
      simp
    · show sideInv {}
      unfold sideInv
      simp
  have hstartCid : ∀ ev ∈ [TraceEvent.connStart key st.nextConnId],
      eventCid ev = st.nextConnId := by
    intro ev hev
    rw [List.mem_singleton] at hev
    subst hev
    rfl
  have hOtherEv : ∀ cid, cid ≠ st.nextConnId →
      cidEvents [TraceEvent.connStart key st.nextConnId] cid = [] := by
    intro cid hne
    exact cidEvents_of_other _ cid
      (fun ev hev => by rw [hstartCid ev hev]; exact fun hh => hne hh.symm)
  have hOtherSd : ∀ cid i, sideDeliveries [TraceEvent.connStart key st.nextConnId] cid i
      = [] := by
    intro cid i
    rfl
  have hfreshEv : cidEvents tr st.nextConnId = [] := hT.fresh st.nextConnId (le_refl _)
  have hcidmem : ∀ cid, cid ∈ tableCids st → cid < st.nextConnId := by
    intro cid hcid
    obtain ⟨kc, hkc, rfl⟩ := List.mem_map.mp hcid
    exact hE.cidBound kc hkc
  refine ⟨?_, ?_, ?_⟩
  · refine ⟨?_, ?_, ?_, ?_, ?_, ?_, ?_, ?_, ?_, ?_⟩
    · show ((st.m_ConnectionList ++ [(key, c0)]).map Prod.fst).Nodup
      rw [List.map_append]
      rw [List.nodup_append]
      refine ⟨hE.keysNodup, by simp, ?_⟩
      intro a ha
      obtain ⟨kc, hkc, rfl⟩ := List.mem_map.mp ha
      simp only [List.map_cons, List.map_nil, List.mem_singleton]
      exact hkne kc hkc
    · intro kc hkc
      rcases List.mem_append.mp hkc with h | h
      · exact hE.connsWF kc h
      · rw [List.mem_singleton] at h
        subst h
        exact hc0wf
    · intro kc hkc
      rcases List.mem_append.mp hkc with h | h
      · exact List.mem_append.mpr (Or.inl (hE.tableInfo kc h))
      · rw [List.mem_singleton] at h
        subst h
        exact List.mem_append.mpr (Or.inr (by simp))
    · intro k hk
      exact List.mem_append.mpr (Or.inl (hE.cleanupInfo k hk))
    · exact hE.cleanupNodup
    · intro kc hkc
      rcases List.mem_append.mp hkc with h | h
      · exact hE.tableCleanup kc h
      · rw [List.mem_singleton] at h
        subst h
        intro hmem
        exact hinfo (hE.cleanupInfo key hmem)
    · exact hE.cleanupSorted
    · intro kc hkc
      rcases List.mem_append.mp hkc with h | h
      · have := hE.cidBound kc h
        show kc.2.connId < st.nextConnId + 1
        omega
      · rw [List.mem_singleton] at h
        subst h
        show st.nextConnId < st.nextConnId + 1
        omega
    · show ((st.m_ConnectionList ++ [(key, c0)]).map (fun kc => kc.2.connId)).Nodup
      rw [List.map_append, List.nodup_append]
      refine ⟨hE.cidsNodup, by simp, ?_⟩
      intro a ha
      obtain ⟨kc, hkc, rfl⟩ := List.mem_map.mp ha
      simp only [List.map_cons, List.map_nil, List.mem_singleton]
      have := hE.cidBound kc hkc
      show kc.2.connId ≠ st.nextConnId
      omega
    · rw [List.nodup_append]
      refine ⟨hE.infoNodup, by simp, ?_⟩
      intro a ha
      simp only [List.mem_singleton]
      intro h
      subst h
      exact hinfo ha
  · refine ⟨?_, ?_, ?_, ?_, ?_⟩
    · intro kc hkc
      rcases List.mem_append.mp hkc with h | h
      · have hne : kc.2.connId ≠ st.nextConnId := by
          have := hE.cidBound kc h
          omega
        rw [cidEvents_append, hOtherEv kc.2.connId hne, List.append_nil]
        exact hT.openEp kc h
      · rw [List.mem_singleton] at h
        subst h
        show openEpisode (cidEvents (tr ++ [TraceEvent.connStart key st.nextConnId])
          c0.connId) = true
        have hcc : c0.connId = st.nextConnId := by rw [hc0]
        rw [hcc, cidEvents_append, hfreshEv, List.nil_append,
          cidEvents_self _ _ hstartCid]
        rfl
    · intro kc hkc i hi
      rcases List.mem_append.mp hkc with h | h
      · have hne : kc.2.connId ≠ st.nextConnId := by
          have := hE.cidBound kc h
          omega
        rw [sideDeliveries_append,
          sideDeliveries_of_other [TraceEvent.connStart key st.nextConnId] kc.2.connId i
            (fun ev hev => by rw [hstartCid ev hev]; exact fun hh => hne hh.symm),
          List.append_nil]
        exact hT.openProg kc h i hi
      · rw [List.mem_singleton] at h
        subst h
        have hseq : (getSide c0 i).sequence = none := by
          rw [hc0]
          by_cases h0 : i = 0
          · subst h0
            rfl
          · unfold getSide
            rw [if_neg h0]
        rw [hseq]
        show sideDeliveries (tr ++ [TraceEvent.connStart key st.nextConnId])
          c0.connId i = []
        have hcc : c0.connId = st.nextConnId := by rw [hc0]
        rw [hcc, sideDeliveries_append, sideDeliveries_of_cid_nil tr _ i hfreshEv,
          hOtherSd st.nextConnId i]
        rfl
    · intro cid hcid
      have hsplit : cid ∉ tableCids st ∧ cid ≠ st.nextConnId := by
        constructor
        · intro h
          apply hcid
          show cid ∈ (st.m_ConnectionList ++ [(key, c0)]).map (fun kc => kc.2.connId)
          rw [List.map_append]
          exact List.mem_append.mpr (Or.inl h)
        · intro h
          apply hcid
          show cid ∈ (st.m_ConnectionList ++ [(key, c0)]).map (fun kc => kc.2.connId)
          rw [List.map_append]
          refine List.mem_append.mpr (Or.inr ?_)
          rw [h, hc0]
          simp
      rw [cidEvents_append, hOtherEv cid hsplit.2, List.append_nil]
      exact hT.closedEp cid hsplit.1
    · intro cid hcid i hi
      have hsplit : cid ∉ tableCids st ∧ cid ≠ st.nextConnId := by
        constructor
        · intro h
          apply hcid
          show cid ∈ (st.m_ConnectionList ++ [(key, c0)]).map (fun kc => kc.2.connId)
          rw [List.map_append]
          exact List.mem_append.mpr (Or.inl h)
        · intro h
          apply hcid
          show cid ∈ (st.m_ConnectionList ++ [(key, c0)]).map (fun kc => kc.2.connId)
          rw [List.map_append]
          refine List.mem_append.mpr (Or.inr ?_)
          rw [h, hc0]
          simp
      rw [sideDeliveries_append, hOtherSd cid i, List.append_nil]
      exact hT.closedChain cid hsplit.1 i hi
    · intro cid hcid
      have hcid2 : st.nextConnId + 1 ≤ cid := hcid
      rw [cidEvents_append, hT.fresh cid (by omega), hOtherEv cid (by omega),
        List.nil_append]
  · intro hA
    refine ⟨?_, ?_, ?_⟩
    · intro kc hkc i hi f hf
      rcases List.mem_append.mp hkc with h | h
      · exact hA.frags kc h i hi f hf
      · rw [List.mem_singleton] at h
        subst h
        have hfr : (getSide c0 i).tcpFragmentList = [] := by
          rw [hc0]
          by_cases h0 : i = 0
          · subst h0
            rfl
          · unfold getSide
            rw [if_neg h0]
        rw [hfr] at hf
        simp at hf
    · intro kc hkc i hi d hd hm
      rcases List.mem_append.mp hkc with h | h
      · have hne : kc.2.connId ≠ st.nextConnId := by
          have := hE.cidBound kc h
          omega
        rw [sideDeliveries_append,
          sideDeliveries_of_other [TraceEvent.connStart key st.nextConnId] kc.2.connId i
            (fun ev hev => by rw [hstartCid ev hev]; exact fun hh => hne hh.symm),
          List.append_nil] at hd
        exact hA.openDeliv kc h i hi d hd hm
      · rw [List.mem_singleton] at h
        subst h
        have hcc : c0.connId = st.nextConnId := by rw [hc0]
        rw [hcc, sideDeliveries_append, sideDeliveries_of_cid_nil tr _ i hfreshEv,
          hOtherSd st.nextConnId i] at hd
        simp at hd
    · intro cid hcid i hi
      have hsplit : cid ∉ tableCids st := by
        intro h
        apply hcid
        show cid ∈ (st.m_ConnectionList ++ [(key, c0)]).map (fun kc => kc.2.connId)
        rw [List.map_append]
        exact List.mem_append.mpr (Or.inl h)
      obtain ⟨ip, port, hall⟩ := hA.closedDeliv cid hsplit i hi
      refine ⟨ip, port, ?_⟩
      intro d hd hm
      rw [sideDeliveries_append, hOtherSd cid i, List.append_nil] at hd
      exact hall d hd hm

/-- Master lemma of `processFound`: processing a packet on its connection,
emitting the message events and possibly terminating the connection
preserves the engine, trace and agreement invariants. -/
theorem processFound_master (Sg : Nat → Nat → Nat → Nat) (st : TcpReassembly)
    (key : Nat) (c : TcpReassemblyData) (p : Packet) (pre tr : List TraceEvent)
    (hE : EngInv st) (hT : TrInv st (tr ++ pre))
    (hlook : lookupConn st.m_ConnectionList key = some c) :
    EngInv (processFound st key c p pre).1 ∧
    TrInv (processFound st key c p pre).1 (tr ++ (processFound st key c p pre).2) ∧
    (bytesAgree (Sg p.srcIP p.srcPort) (p.seqNum % SEQ_MOD) p.payload = true →
      TrAgree Sg st (tr ++ pre) →
      TrAgree Sg (processFound st key c p pre).1
        (tr ++ (processFound st key c p pre).2)) := by
  unfold processFound
  simp only
  set r := processConnPacket c p with hr
  set st1 : TcpReassembly :=
    { st with m_ConnectionList := updateConn st.m_ConnectionList key r.1 } with hst1
  set msgs := r.2.1.map (fun sd => TraceEvent.msgReady key c.connId sd.1 sd.2) with hmsgs
  obtain ⟨uE, uT, uA, ulook, -⟩ := update_master Sg st key c p (tr ++ pre) hE hT hlook
  by_cases hcl : r.2.2 = true
  · rw [if_pos hcl]
    obtain ⟨cE, cT, cA, -, -, -, -⟩ :=
      closeInternal_master Sg st1 key false p.time ((tr ++ pre) ++ msgs) uE uT
    obtain ⟨aE, aT1, aT2⟩ :=
      autoPurge_preserve (closeConnectionInternal st1 key false p.time).1 p.time cE
    have hassoc : tr ++ ((pre ++ msgs) ++ (closeConnectionInternal st1 key false p.time).2)
        = ((tr ++ pre) ++ msgs) ++ (closeConnectionInternal st1 key false p.time).2 := by
      simp [List.append_assoc]
    refine ⟨aE, ?_, ?_⟩
    · refine TrInv_congr _ _ _ ?_ aT1 aT2
      rw [hassoc]
      exact cT
    · intro hpk hA
      refine TrAgree_congr Sg _ _ _ ?_ aT1
      rw [hassoc]
      exact cA (uA hpk hA)
  · rw [if_neg hcl]
    obtain ⟨aE, aT1, aT2⟩ := autoPurge_preserve st1 p.time uE
    have hassoc : tr ++ (pre ++ msgs) = (tr ++ pre) ++ msgs := by
      rw [List.append_assoc]
    refine ⟨aE, ?_, ?_⟩
    · refine TrInv_congr _ _ _ ?_ aT1 aT2
      rw [hassoc]
      exact uT
    · intro hpk hA
      refine TrAgree_congr Sg _ _ _ ?_ aT1
      rw [hassoc]
      exact uA hpk hA

/-- Master lemma of `reassemblePacket`: one packet preserves the engine,
trace and agreement invariants. -/
theorem reassemble_master (Sg : Nat → Nat → Nat → Nat) (st : TcpReassembly) (p : Packet)
    (tr : List TraceEvent) (hE : EngInv st) (hT : TrInv st tr) :
    EngInv (reassemblePacket st p).1 ∧
    TrInv (reassemblePacket st p).1 (tr ++ (reassemblePacket st p).2) ∧
    (bytesAgree (Sg p.srcIP p.srcPort) (p.seqNum % SEQ_MOD) p.payload = true →
      TrAgree Sg st tr →
      TrAgree Sg (reassemblePacket st p).1 (tr ++ (reassemblePacket st p).2)) := by
  unfold reassemblePacket
  by_cases htcp : (!p.isTcp) = true
  · rw [if_pos htcp]
    refine ⟨hE, ?_, ?_⟩
    · show TrInv st (tr ++ [])
      rw [List.append_nil]
      exact hT
    · intro _ hA
      show TrAgree Sg st (tr ++ [])
      rw [List.append_nil]
      exact hA
  · rw [if_neg htcp]
    simp only
    cases hlook : lookupConn st.m_ConnectionList (flowKey p) with
    | some c =>
      simp only
      obtain ⟨fE, fT, fA⟩ := processFound_master Sg st (flowKey p) c p [] tr hE
        (by rw [List.append_nil]; exact hT) hlook
      exact ⟨fE, fT, fun hpk hA => fA hpk (by rw [List.append_nil]; exact hA)⟩
    | none =>
      simp only
      by_cases hinfo : flowKey p ∈ st.m_ConnectionInfo
      · rw [if_pos hinfo]
        refine ⟨hE, ?_, ?_⟩
        · show TrInv st (tr ++ [])
          rw [List.append_nil]
          exact hT
        · intro _ hA
          show TrAgree Sg st (tr ++ [])
          rw [List.append_nil]
          exact hA
      · rw [if_neg hinfo]
        obtain ⟨cE, cT, cA⟩ :=
          create_master Sg st (flowKey p) p tr hE hT hlook hinfo
        have hlook1 : lookupConn ({ st with
            m_ConnectionList := st.m_ConnectionList ++ [(flowKey p,
              { numOfSides := 1,
                side0 := { srcIP := p.srcIP, srcPort := p.srcPort },
                connId := st.nextConnId })],
            m_ConnectionInfo := st.m_ConnectionInfo ++ [flowKey p],
            nextConnId := st.nextConnId + 1 } : TcpReassembly).m_ConnectionList
            (flowKey p) = some
              { numOfSides := 1,
                side0 := { srcIP := p.srcIP, srcPort := p.srcPort },
                connId := st.nextConnId } := by
          show lookupConn (st.m_ConnectionList ++ [(flowKey p, _)]) (flowKey p) = some _
          exact lookupConn_append_self st.m_ConnectionList (flowKey p) _ hlook
        obtain ⟨fE, fT, fA⟩ := processFound_master Sg _ (flowKey p) _ p
          [TraceEvent.connStart (flowKey p) st.nextConnId] tr cE cT hlook1
        exact ⟨fE, fT, fun hpk hA => fA hpk (cA hA)⟩

/-- Master lemma of `closeAllGo`: closing a list of keys preserves the
engine, trace and agreement invariants. -/
theorem closeAllGo_master (Sg : Nat → Nat → Nat → Nat) (now : Nat) :
    ∀ (ks : List Nat) (st : TcpReassembly) (tr : List TraceEvent),
    EngInv st → TrInv st tr →
    EngInv (closeAllGo now st ks).1 ∧
    TrInv (closeAllGo now st ks).1 (tr ++ (closeAllGo now st ks).2) ∧
    (TrAgree Sg st tr →
      TrAgree Sg (closeAllGo now st ks).1 (tr ++ (closeAllGo now st ks).2)) := by
  intro ks
  induction ks with
  | nil =>
    intro st tr hE hT
    refine ⟨hE, ?_, ?_⟩
    · show TrInv st (tr ++ [])
      rw [List.append_nil]
      exact hT
    · intro hA
      show TrAgree Sg st (tr ++ [])
      rw [List.append_nil]
      exact hA
  | cons k rest ih =>
    intro st tr hE hT
    simp only [closeAllGo]
    obtain ⟨cE, cT, cA, -, -, -, -⟩ := closeInternal_master Sg st k true now tr hE hT
    obtain ⟨iE, iT, iA⟩ := ih (closeConnection st k now).1
      (tr ++ (closeConnection st k now).2) cE cT
    have hassoc : tr ++ ((closeConnection st k now).2 ++
        (closeAllGo now (closeConnection st k now).1 rest).2) =
        (tr ++ (closeConnection st k now).2) ++
          (closeAllGo now (closeConnection st k now).1 rest).2 := by
      rw [List.append_assoc]
    refine ⟨iE, ?_, ?_⟩
    · rw [hassoc]
      exact iT
    · intro hA
      rw [hassoc]
      exact iA (cA hA)

/-- Master lemma of one interface call. -/
theorem step_master (Sg : Nat → Nat → Nat → Nat) (st : TcpReassembly) (op : EngineOp)
    (tr : List TraceEvent) (hE : EngInv st) (hT : TrInv st tr) :
    EngInv (stepEngine st op).1 ∧
    TrInv (stepEngine st op).1 (tr ++ (stepEngine st op).2) ∧
    ((∀ p, op = EngineOp.packet p →
        bytesAgree (Sg p.srcIP p.srcPort) (p.seqNum % SEQ_MOD) p.payload = true) →
      TrAgree Sg st tr →
      TrAgree Sg (stepEngine st op).1 (tr ++ (stepEngine st op).2)) := by
  cases op with
  | packet p =>
    obtain ⟨rE, rT, rA⟩ := reassemble_master Sg st p tr hE hT
    exact ⟨rE, rT, fun hp hA => rA (hp p rfl) hA⟩
  | close k now =>
    obtain ⟨cE, cT, cA, -, -, -, -⟩ := closeInternal_master Sg st k true now tr hE hT
    exact ⟨cE, cT, fun _ hA => cA hA⟩
  | closeAll now =>
    obtain ⟨cE, cT, cA⟩ := closeAllGo_master Sg now
      (st.m_ConnectionList.map Prod.fst) st tr hE hT
    exact ⟨cE, cT, fun _ hA => cA hA⟩
  | purge limit now =>
    obtain ⟨pE, p1, p2⟩ := purge_preserve st now limit hE
    refine ⟨pE, ?_, ?_⟩
    · show TrInv (purgeClosedConnections st now limit).1 (tr ++ [])
      rw [List.append_nil]
      exact TrInv_congr st _ tr hT p1 p2
    · intro _ hA
      show TrAgree Sg (purgeClosedConnections st now limit).1 (tr ++ [])
      rw [List.append_nil]
      exact TrAgree_congr Sg st _ tr hA p1

/-- Master invariant of engine runs: from any invariant-satisfying state,
running a sequence of interface calls preserves the engine and trace
invariants, and the agreement invariant when every fed packet agrees with
its sender stream. -/
theorem runEngine_master (Sg : Nat → Nat → Nat → Nat) (ops : List EngineOp) :
    ∀ (st : TcpReassembly) (tr : List TraceEvent), EngInv st → TrInv st tr →
    (EngInv (runEngine st ops).1 ∧
      TrInv (runEngine st ops).1 (tr ++ (runEngine st ops).2)) ∧
    ((∀ p, EngineOp.packet p ∈ ops →
        bytesAgree (Sg p.srcIP p.srcPort) (p.seqNum % SEQ_MOD) p.payload = true) →
      TrAgree Sg st tr →
      TrAgree Sg (runEngine st ops).1 (tr ++ (runEngine st ops).2)) := by
  induction ops with
  | nil =>
    intro st tr hE hT
    refine ⟨⟨hE, ?_⟩, ?_⟩
    · show TrInv st (tr ++ [])
      rw [List.append_nil]
      exact hT
    · intro _ hA
      show TrAgree Sg st (tr ++ [])
      rw [List.append_nil]
      exact hA
  | cons op ops ih =>
    intro st tr hE hT
    simp only [runEngine]
    obtain ⟨sE, sT, sA⟩ := step_master Sg st op tr hE hT
    obtain ⟨⟨iE, iT⟩, iA⟩ := ih (stepEngine st op).1 (tr ++ (stepEngine st op).2) sE sT
    have hassoc : tr ++ ((stepEngine st op).2 ++
        (runEngine (stepEngine st op).1 ops).2) =
        (tr ++ (stepEngine st op).2) ++ (runEngine (stepEngine st op).1 ops).2 := by
      rw [List.append_assoc]
    refine ⟨⟨iE, ?_⟩, ?_⟩
    · rw [hassoc]
      exact iT
    · intro hp hA
      rw [hassoc]
      refine iA (fun p hmem => hp p (List.mem_cons_of_mem _ hmem)) ?_
      exact sA (fun p hop => hp p (by rw [hop]; exact List.mem_cons_self _ _)) hA

theorem autoPurge_table (st : TcpReassembly) (now : Nat) :
    (autoPurge st now).m_ConnectionList = st.m_ConnectionList := by
  unfold autoPurge purgeClosedConnections
  split <;> rfl

theorem closeInternal_table (st : TcpReassembly) (key : Nat) (manual : Bool) (now : Nat) :
    (closeConnectionInternal st key manual now).1.m_ConnectionList =
      eraseConn st.m_ConnectionList key ∨
    closeConnectionInternal st key manual now = (st, []) := by
  cases hlook : lookupConn st.m_ConnectionList key with
  | none => exact Or.inr (closeInternal_noconn st key manual now hlook)
  | some c =>
    unfold closeConnectionInternal
    rw [hlook]
    exact Or.inl rfl

theorem closeInternal_lookup_self (st : TcpReassembly) (key : Nat) (manual : Bool)
    (now : Nat) :
    lookupConn (closeConnectionInternal st key manual now).1.m_ConnectionList key = none := by
  cases hlook : lookupConn st.m_ConnectionList key with
  | none =>
    rw [closeInternal_noconn st key manual now hlook]
    exact hlook
  | some c =>
    unfold closeConnectionInternal
    rw [hlook]
    exact lookupConn_eraseConn_self st.m_ConnectionList key

theorem closeInternal_lookup_pres (st : TcpReassembly) (key k' : Nat) (manual : Bool)
    (now : Nat) (h : k' ≠ key) :
    lookupConn (closeConnectionInternal st key manual now).1.m_ConnectionList k' =
      lookupConn st.m_ConnectionList k' := by
  rcases closeInternal_table st key manual now with h2 | h2
  · rw [h2]
    exact lookupConn_eraseConn_ne st.m_ConnectionList key k' h
  · rw [h2]

theorem closeInternal_lookup_none (st : TcpReassembly) (key k' : Nat) (manual : Bool)
    (now : Nat) (h : lookupConn st.m_ConnectionList k' = none) :
    lookupConn (closeConnectionInternal st key manual now).1.m_ConnectionList k' = none := by
  rcases closeInternal_table st key manual now with h2 | h2
  · rw [h2]
    exact lookupConn_eraseConn_none st.m_ConnectionList key k' h
  · rw [h2]
    exact h

theorem closeAllGo_lookup_none (now : Nat) : ∀ (ks : List Nat) (st : TcpReassembly)
    (k : Nat), lookupConn st.m_ConnectionList k = none →
    lookupConn (closeAllGo now st ks).1.m_ConnectionList k = none := by
  intro ks
  induction ks with
  | nil => intro st k h; exact h
  | cons k0 rest ih =>
    intro st k h
    simp only [closeAllGo]
    exact ih (closeConnection st k0 now).1 k
      (closeInternal_lookup_none st k0 k true now h)

theorem closeAllGo_lookup_mem (now : Nat) : ∀ (ks : List Nat) (st : TcpReassembly)
    (k : Nat), k ∈ ks →
    lookupConn (closeAllGo now st ks).1.m_ConnectionList k = none := by
  intro ks
  induction ks with
  | nil => intro st k h; simp at h
  | cons k0 rest ih =>
    intro st k h
    simp only [closeAllGo]
    by_cases hk : k = k0
    · subst hk
      exact closeAllGo_lookup_none now rest (closeConnection st k now).1 k
        (closeInternal_lookup_self st k true now)
    · rcases List.mem_cons.mp h with h | h
      · exact absurd h hk
      · exact ih (closeConnection st k0 now).1 k h

/-- One interface call never moves an expected sequence backwards: a
connection present under the same key before and after the call is the
same instance, and each side's expected sequence weakly advances. -/
theorem stepEngine_mono (st : TcpReassembly) (op : EngineOp) (k : Nat)
    (c c' : TcpReassemblyData) (hE : EngInv st)
    (h1 : lookupConn st.m_ConnectionList k = some c)
    (h2 : lookupConn (stepEngine st op).1.m_ConnectionList k = some c') :
    c'.connId = c.connId ∧
    (∀ i, i < 2 → seqLeOpt (getSide c i).sequence (getSide c' i).sequence) := by
  cases op with
  | packet p =>
    show c'.connId = c.connId ∧ _
    replace h2 : lookupConn (reassemblePacket st p).1.m_ConnectionList k = some c' := h2
    unfold reassemblePacket at h2
    by_cases htcp : (!p.isTcp) = true
    · rw [if_pos htcp] at h2
      replace h2 : lookupConn st.m_ConnectionList k = some c' := h2
      rw [h1] at h2
      injection h2 with h3
      subst h3
      exact ⟨rfl, fun i hi => seqLeOpt_refl _⟩
    · rw [if_neg htcp] at h2
      simp only at h2
      cases hlook : lookupConn st.m_ConnectionList (flowKey p) with
      | some c0 =>
        rw [hlook] at h2
        unfold processFound at h2
        simp only at h2
        by_cases hcl : (processConnPacket c0 p).2.2 = true
        · rw [if_pos hcl] at h2
          replace h2 : lookupConn (autoPurge (closeConnectionInternal
              { st with m_ConnectionList :=
                updateConn st.m_ConnectionList (flowKey p) (processConnPacket c0 p).1 }
              (flowKey p) false p.time).1 p.time).m_ConnectionList k = some c' := h2
          rw [autoPurge_table] at h2
          by_cases hk : k = flowKey p
          · subst hk
            rw [closeInternal_lookup_self] at h2
            cases h2
          · rw [closeInternal_lookup_pres _ _ _ _ _ hk] at h2
            replace h2 : lookupConn (updateConn st.m_ConnectionList (flowKey p)
              (processConnPacket c0 p).1) k = some c' := h2
            rw [lookupConn_updateConn_ne _ _ _ _ hk, h1] at h2
            injection h2 with h3
            subst h3
            exact ⟨rfl, fun i hi => seqLeOpt_refl _⟩
        · rw [if_neg hcl] at h2
          replace h2 : lookupConn (autoPurge
              { st with m_ConnectionList :=
                updateConn st.m_ConnectionList (flowKey p) (processConnPacket c0 p).1 }
              p.time).m_ConnectionList k = some c' := h2
          rw [autoPurge_table] at h2
          replace h2 : lookupConn (updateConn st.m_ConnectionList (flowKey p)
            (processConnPacket c0 p).1) k = some c' := h2
          by_cases hk : k = flowKey p
          · rw [← hk] at h2 hlook
            rw [h1] at hlook
            injection hlook with h4
            subst h4
            rw [lookupConn_updateConn_self st.m_ConnectionList k
              (processConnPacket c p).1 ⟨c, h1⟩] at h2
            injection h2 with h3
            subst h3
            have hcwf : connWF c := hE.connsWF (k, c) (lookupConn_some_mem _ _ _ h1)
            exact ⟨(processConnPacket_spec c p hcwf).2.2.1,
              processConnPacket_mono c p hcwf⟩
          · rw [lookupConn_updateConn_ne _ _ _ _ hk, h1] at h2
            injection h2 with h3
            subst h3
            exact ⟨rfl, fun i hi => seqLeOpt_refl _⟩
      | none =>
        rw [hlook] at h2
        have hk : k ≠ flowKey p := by
          intro heq
          rw [heq, hlook] at h1
          cases h1
        by_cases hinfo : flowKey p ∈ st.m_ConnectionInfo
        · rw [if_pos hinfo] at h2
          replace h2 : lookupConn st.m_ConnectionList k = some c' := h2
          rw [h1] at h2
          injection h2 with h3
          subst h3
          exact ⟨rfl, fun i hi => seqLeOpt_refl _⟩
        · rw [if_neg hinfo] at h2
          simp only at h2
          unfold processFound at h2
          simp only at h2
          set cnew : TcpReassemblyData :=
            { numOfSides := 1,
              side0 := { srcIP := p.srcIP, srcPort := p.srcPort },
              connId := st.nextConnId } with hcnew
          have hbase : lookupConn (updateConn
              (st.m_ConnectionList ++ [(flowKey p, cnew)]) (flowKey p)
              (processConnPacket cnew p).1) k =
              lookupConn st.m_ConnectionList k := by
            rw [lookupConn_updateConn_ne _ _ _ _ hk,
              lookupConn_append_ne _ _ _ _ hk]
          by_cases hcl : (processConnPacket cnew p).2.2 = true
          · rw [if_pos hcl] at h2
            rw [autoPurge_table, closeInternal_lookup_pres _ _ _ _ _ hk] at h2
            replace h2 := hbase ▸ h2
            rw [h1] at h2
            injection h2 with h3
            subst h3
            exact ⟨rfl, fun i hi => seqLeOpt_refl _⟩
          · rw [if_neg hcl] at h2
            rw [autoPurge_table] at h2
            replace h2 := hbase ▸ h2
            rw [h1] at h2
            injection h2 with h3
            subst h3
            exact ⟨rfl, fun i hi => seqLeOpt_refl _⟩
  | close k' now =>
    show c'.connId = c.connId ∧ _
    replace h2 : lookupConn (closeConnectionInternal st k' true now).1.m_ConnectionList k
      = some c' := h2
    by_cases hk : k = k'
    · subst hk
      rw [closeInternal_lookup_self] at h2
      cases h2
    · rw [closeInternal_lookup_pres _ _ _ _ _ hk, h1] at h2
      injection h2 with h3
      subst h3
      exact ⟨rfl, fun i hi => seqLeOpt_refl _⟩
  | closeAll now =>
    have hmem : k ∈ st.m_ConnectionList.map Prod.fst :=
      List.mem_map.mpr ⟨(k, c), lookupConn_some_mem _ _ _ h1, rfl⟩
    replace h2 : lookupConn (closeAllGo now st
      (st.m_ConnectionList.map Prod.fst)).1.m_ConnectionList k = some c' := h2
    rw [closeAllGo_lookup_mem now _ st k hmem] at h2
    cases h2
  | purge limit now =>
    replace h2 : lookupConn st.m_ConnectionList k = some c' := h2
    rw [h1] at h2
    injection h2 with h3
    subst h3
    exact ⟨rfl, fun i hi => seqLeOpt_refl _⟩

theorem runEngine_append (st : TcpReassembly) (l1 l2 : List EngineOp) :
    runEngine st (l1 ++ l2) =
      ((runEngine (runEngine st l1).1 l2).1,
       (runEngine st l1).2 ++ (runEngine (runEngine st l1).1 l2).2) := by
  induction l1 generalizing st with
  | nil => simp [runEngine]
  | cons op ops ih =>
    rw [List.cons_append]
    simp only [runEngine]
    rw [ih (stepEngine st op).1]
    simp [List.append_assoc]

theorem reassemblePacket_nontcp (st : TcpReassembly) (p : Packet)
    (h : (!p.isTcp) = true) : reassemblePacket st p = (st, []) := by
  unfold reassemblePacket
  rw [if_pos h]

theorem reassemblePacket_found (st : TcpReassembly) (p : Packet) (c : TcpReassemblyData)
    (h1 : (!p.isTcp) = false)
    (h2 : lookupConn st.m_ConnectionList (flowKey p) = some c) :
    reassemblePacket st p = processFound st (flowKey p) c p [] := by
  unfold reassemblePacket
  simp only [h1, Bool.false_eq_true, if_false, h2]

theorem reassemblePacket_ignored (st : TcpReassembly) (p : Packet)
    (h1 : (!p.isTcp) = false)
    (h2 : lookupConn st.m_ConnectionList (flowKey p) = none)
    (h3 : flowKey p ∈ st.m_ConnectionInfo) :
    reassemblePacket st p = (st, []) := by
  unfold reassemblePacket
  simp only [h1, Bool.false_eq_true, if_false, h2, if_pos h3]

theorem reassemblePacket_create (st : TcpReassembly) (p : Packet)
    (h1 : (!p.isTcp) = false)
    (h2 : lookupConn st.m_ConnectionList (flowKey p) = none)
    (h3 : ¬ flowKey p ∈ st.m_ConnectionInfo) :
    reassemblePacket st p = processFound { st with
      m_ConnectionList := st.m_ConnectionList ++ [(flowKey p,
        { numOfSides := 1, side0 := { srcIP := p.srcIP, srcPort := p.srcPort },
          connId := st.nextConnId })],
      m_ConnectionInfo := st.m_ConnectionInfo ++ [flowKey p],
      nextConnId := st.nextConnId + 1 } (flowKey p)
      { numOfSides := 1, side0 := { srcIP := p.srcIP, srcPort := p.srcPort },
        connId := st.nextConnId } p
      [TraceEvent.connStart (flowKey p) st.nextConnId] := by
  unfold reassemblePacket
  simp only [h1, Bool.false_eq_true, if_false, h2, if_neg h3]

theorem processFound_trace (st : TcpReassembly) (key : Nat) (c : TcpReassemblyData)
    (p : Packet) (pre : List TraceEvent) :
    (processFound st key c p pre).2 =
      (if (processConnPacket c p).2.2 = true
        then (pre ++ (processConnPacket c p).2.1.map
          (fun sd => TraceEvent.msgReady key c.connId sd.1 sd.2)) ++
          (closeConnectionInternal { st with
            m_ConnectionList := updateConn st.m_ConnectionList key (processConnPacket c p).1 }
            key false p.time).2
        else pre ++ (processConnPacket c p).2.1.map
          (fun sd => TraceEvent.msgReady key c.connId sd.1 sd.2)) := by
  unfold processFound
  simp only
  by_cases h : (processConnPacket c p).2.2 = true
  · rw [if_pos h, if_pos h]
  · rw [if_neg h, if_neg h]

theorem processFound_state (st : TcpReassembly) (key : Nat) (c : TcpReassemblyData)
    (p : Packet) (pre : List TraceEvent) :
    (processFound st key c p pre).1 =
      (if (processConnPacket c p).2.2 = true
        then autoPurge (closeConnectionInternal { st with
          m_ConnectionList := updateConn st.m_ConnectionList key (processConnPacket c p).1 }
          key false p.time).1 p.time
        else autoPurge { st with
          m_ConnectionList := updateConn st.m_ConnectionList key (processConnPacket c p).1 } p.time) := by
  unfold processFound
  simp only
  by_cases h : (processConnPacket c p).2.2 = true
  · rw [if_pos h, if_pos h]
  · rw [if_neg h, if_neg h]

/-- The engine-invariant part of the in-table update step. -/
theorem update_EngInv (st : TcpReassembly) (key : Nat) (c : TcpReassemblyData)
    (p : Packet) (hE : EngInv st)
    (hlook : lookupConn st.m_ConnectionList key = some c) :
    EngInv { st with
      m_ConnectionList := updateConn st.m_ConnectionList key (processConnPacket c p).1 } := by
  have hmem : (key, c) ∈ st.m_ConnectionList := lookupConn_some_mem _ _ _ hlook
  have hcwf : connWF c := hE.connsWF (key, c) hmem
  obtain ⟨pwf, pprog, pcid, ptags, pids⟩ := processConnPacket_spec c p hcwf
  set r := processConnPacket c p with hrdef
  have hentry : ∀ kc ∈ st.m_ConnectionList, kc.1 = key → kc.2 = c := by
    intro kc hkc hk
    have := entry_unique st.m_ConnectionList hE.keysNodup kc (key, c) hkc hmem hk
    rw [this]
  have hmemsplit : ∀ kc, kc ∈ updateConn st.m_ConnectionList key r.1 →
      kc = (key, r.1) ∨ (kc ∈ st.m_ConnectionList ∧ kc.1 ≠ key) :=
    fun kc hkc => mem_updateConn st.m_ConnectionList key r.1 kc hkc
  refine ⟨?_, ?_, ?_, ?_, ?_, ?_, ?_, ?_, ?_, ?_⟩
  · show (updateConn st.m_ConnectionList key r.1).map Prod.fst |>.Nodup
    rw [updateConn_keys]
    exact hE.keysNodup
  · intro kc hkc
    rcases hmemsplit kc hkc with rfl | ⟨h1, -⟩
    · exact pwf
    · exact hE.connsWF kc h1
  · intro kc hkc
    rcases hmemsplit kc hkc with rfl | ⟨h1, -⟩
    · exact hE.tableInfo (key, c) hmem
    · exact hE.tableInfo kc h1
  · exact hE.cleanupInfo
  · exact hE.cleanupNodup
  · intro kc hkc
    rcases hmemsplit kc hkc with rfl | ⟨h1, -⟩
    · exact hE.tableCleanup (key, c) hmem
    · exact hE.tableCleanup kc h1
  · exact hE.cleanupSorted
  · intro kc hkc
    rcases hmemsplit kc hkc with rfl | ⟨h1, -⟩
    · show r.1.connId < st.nextConnId
      rw [pcid]
      exact hE.cidBound (key, c) hmem
    · exact hE.cidBound kc h1
  · show (updateConn st.m_ConnectionList key r.1).map (fun kc => kc.2.connId) |>.Nodup
    rw [updateConn_cids st.m_ConnectionList key r.1 c pcid hentry]
    exact hE.cidsNodup
  · exact hE.infoNodup

theorem closeInternal_info (st : TcpReassembly) (key : Nat) (manual : Bool) (now : Nat) :
    (closeConnectionInternal st key manual now).1.m_ConnectionInfo = st.m_ConnectionInfo := by
  unfold closeConnectionInternal
  split <;> rfl

/-- The common tail of a replay: once the packet's connection holds the
post-state of its first processing, feeding it again yields nothing. -/
theorem processFound_refeed_tail (st1 : TcpReassembly) (c : TcpReassemblyData)
    (p : Packet) (h1 : (!p.isTcp) = false) (hcwf : connWF c)
    (hcl : (processConnPacket c p).2.2 = false)
    (hlook1 : lookupConn st1.m_ConnectionList (flowKey p) = some c) :
    (reassemblePacket (autoPurge { st1 with
      m_ConnectionList := updateConn st1.m_ConnectionList (flowKey p) (processConnPacket c p).1 }
      p.time) p).2 = [] := by
  have hlook2 : lookupConn (autoPurge { st1 with
      m_ConnectionList := updateConn st1.m_ConnectionList (flowKey p) (processConnPacket c p).1 }
      p.time).m_ConnectionList (flowKey p) = some (processConnPacket c p).1 := by
    rw [autoPurge_table]
    exact lookupConn_updateConn_self st1.m_ConnectionList (flowKey p) _ ⟨c, hlook1⟩
  rw [reassemblePacket_found _ p _ h1 hlook2]
  rw [processFound_trace]
  obtain ⟨hd, hcf⟩ := processConnPacket_refeed c p hcwf hcl
  rw [if_neg (by rw [hcf]; exact Bool.false_ne_true), hd]
  rfl

/-- Replaying a packet immediately after its first processing produces no
callback events at all. -/
theorem reassemble_refeed (st : TcpReassembly) (p : Packet) (hE : EngInv st) :
    (reassemblePacket (reassemblePacket st p).1 p).2 = [] := by
  by_cases htcp : (!p.isTcp) = true
  · rw [reassemblePacket_nontcp st p htcp]
    show (reassemblePacket st p).2 = []
    rw [reassemblePacket_nontcp st p htcp]
  · have h1 : (!p.isTcp) = false := by simpa using htcp
    cases hlook : lookupConn st.m_ConnectionList (flowKey p) with
    | some c =>
      have hmem := lookupConn_some_mem st.m_ConnectionList (flowKey p) c hlook
      have hcwf : connWF c := hE.connsWF (flowKey p, c) hmem
      rw [reassemblePacket_found st p c h1 hlook]
      rw [processFound_state st (flowKey p) c p []]
      by_cases hcl : (processConnPacket c p).2.2 = true
      · rw [if_pos hcl]
        have hE1 : EngInv { st with
            m_ConnectionList := updateConn st.m_ConnectionList (flowKey p)
              (processConnPacket c p).1 } :=
          update_EngInv st (flowKey p) c p hE hlook
        have hlook1 : lookupConn (updateConn st.m_ConnectionList (flowKey p)
            (processConnPacket c p).1) (flowKey p) = some (processConnPacket c p).1 :=
          lookupConn_updateConn_self st.m_ConnectionList (flowKey p) _ ⟨c, hlook⟩
        have hfresh := closeInternal_cleanup_fresh { st with
            m_ConnectionList := updateConn st.m_ConnectionList (flowKey p)
              (processConnPacket c p).1 } (flowKey p) false p.time hE1 _ hlook1
        have hinfo1 : flowKey p ∈ (closeConnectionInternal { st with
            m_ConnectionList := updateConn st.m_ConnectionList (flowKey p)
              (processConnPacket c p).1 } (flowKey p) false p.time).1.m_ConnectionInfo := by
          rw [closeInternal_info]
          exact hE.tableInfo (flowKey p, c) hmem
        have hinfo2 : flowKey p ∈ (autoPurge (closeConnectionInternal { st with
            m_ConnectionList := updateConn st.m_ConnectionList (flowKey p)
              (processConnPacket c p).1 } (flowKey p) false p.time).1
            p.time).m_ConnectionInfo :=
          autoPurge_info _ p.time (flowKey p) hinfo1 hfresh
        have hlooknone : lookupConn (autoPurge (closeConnectionInternal { st with
            m_ConnectionList := updateConn st.m_ConnectionList (flowKey p)
              (processConnPacket c p).1 } (flowKey p) false p.time).1
            p.time).m_ConnectionList (flowKey p) = none := by
          rw [autoPurge_table]
          exact closeInternal_lookup_self _ (flowKey p) false p.time
        rw [reassemblePacket_ignored _ p h1 hlooknone hinfo2]
      · have hcl' : (processConnPacket c p).2.2 = false := by simpa using hcl
        rw [if_neg hcl]
        exact processFound_refeed_tail st c p h1 hcwf hcl' hlook
    | none =>
      by_cases hinfo : flowKey p ∈ st.m_ConnectionInfo
      · rw [reassemblePacket_ignored st p h1 hlook hinfo]
        show (reassemblePacket st p).2 = []
        rw [reassemblePacket_ignored st p h1 hlook hinfo]
      · rw [reassemblePacket_create st p h1 hlook hinfo]
        rw [processFound_state]
        set c0 : TcpReassemblyData :=
          { numOfSides := 1, side0 := { srcIP := p.srcIP, srcPort := p.srcPort },
            connId := st.nextConnId } with hc0def
        have hc0wf : connWF c0 := by
          refine ⟨⟨?_, ?_⟩, fun _ => rfl, fun j h => by cases h⟩
          · show sideInv { srcIP := p.srcIP, srcPort := p.srcPort }
            unfold sideInv
            simp
          · show sideInv {}
            unfold sideInv
            simp
        have hdet0 : determineSide c0 p = some (0, c0) := by
          rw [hc0def]
          unfold determineSide
          rw [if_pos ⟨rfl, rfl⟩]
        obtain ⟨-, -, -, hother, -, -, -, -⟩ :=
          processConnPacket_post c0 p 0 c0 hdet0 hc0wf
        have hs1 : (processConnPacket c0 p).1.side1.gotFinOrRst = false := by
          show (getSide (processConnPacket c0 p).1 1).gotFinOrRst = false
          rw [(hother 1 (by decide) (by decide)).2.2, hc0def]
          rfl
        have hclfalse : (processConnPacket c0 p).2.2 = false := by
          rw [processConnPacket_close c0 p 0 c0 hdet0, hs1, Bool.and_false]
        rw [if_neg (by rw [hclfalse]; exact Bool.false_ne_true)]
        exact processFound_refeed_tail { st with
          m_ConnectionList := st.m_ConnectionList ++ [(flowKey p, c0)],
          m_ConnectionInfo := st.m_ConnectionInfo ++ [flowKey p],
          nextConnId := st.nextConnId + 1 } c0 p h1 hc0wf hclfalse
          (lookupConn_append_self st.m_ConnectionList (flowKey p) c0 hlook)

/-! ## Reachable states -/

/-- The engine invariant holds at every reachable state. -/
theorem engInv_run (cfg : TcpReassemblyConfiguration) (t0 : Nat) (ops : List EngineOp) :
    EngInv (runEngine (mkTcpReassembly cfg t0) ops).1 :=
  ((runEngine_master (fun _ _ _ => 0) ops (mkTcpReassembly cfg t0) []
    (engInv_mk cfg t0) (trInv_mk cfg t0)).1).1

/-- The trace invariant holds along every run. -/
theorem trInv_run (cfg : TcpReassemblyConfiguration) (t0 : Nat) (ops : List EngineOp) :
    TrInv (runEngine (mkTcpReassembly cfg t0) ops).1
      (runEngine (mkTcpReassembly cfg t0) ops).2 := by
  have h := ((runEngine_master (fun _ _ _ => 0) ops (mkTcpReassembly cfg t0) []
    (engInv_mk cfg t0) (trInv_mk cfg t0)).1).2
  rwa [List.nil_append] at h

/-- The agreement invariant holds along every run whose packets carry their
sender-stream bytes. -/
theorem trAgree_run (Sg : Nat → Nat → Nat → Nat) (cfg : TcpReassemblyConfiguration)
    (t0 : Nat) (ops : List EngineOp)
    (hp : ∀ p, EngineOp.packet p ∈ ops →
      bytesAgree (Sg p.srcIP p.srcPort) (p.seqNum % SEQ_MOD) p.payload = true) :
    TrAgree Sg (runEngine (mkTcpReassembly cfg t0) ops).1
      (runEngine (mkTcpReassembly cfg t0) ops).2 := by
  have h := (runEngine_master Sg ops (mkTcpReassembly cfg t0) []
    (engInv_mk cfg t0) (trInv_mk cfg t0)).2 hp (trAgree_mk Sg cfg t0)
  rwa [List.nil_append] at h

/-! ## Counting removed info entries -/

theorem filter_split_length (info rem : List Nat) :
    (info.filter (fun k => ¬ k ∈ rem)).length +
      (info.filter (fun k => k ∈ rem)).length = info.length := by
  induction info with
  | nil => rfl
  | cons x xs ih =>
    by_cases hx : x ∈ rem <;>
      simp [List.filter_cons, hx, decide_not] at ih ⊢ <;>
      omega

theorem filter_mem_length (info rem : List Nat) (hinfo : info.Nodup) (hrem : rem.Nodup)
    (hsub : ∀ k ∈ rem, k ∈ info) :
    (info.filter (fun k => k ∈ rem)).length = rem.length := by
  have hp2 : List.Perm (info.filter (fun k => k ∈ rem)) rem := by
    rw [List.perm_ext_iff_of_nodup (hinfo.filter _) hrem]
    intro a
    simp only [List.mem_filter, decide_eq_true_eq]
    exact ⟨fun h => h.2, fun h => ⟨hsub a h, h⟩⟩
  exact hp2.length_eq

theorem filter_count (info rem : List Nat) (hinfo : info.Nodup) (hrem : rem.Nodup)
    (hsub : ∀ k ∈ rem, k ∈ info) :
    (info.filter (fun k => ¬ k ∈ rem)).length + rem.length = info.length := by
  rw [← filter_mem_length info rem hinfo hrem hsub]
  exact filter_split_length info rem

/-! ## The TcpStreamData buffer model (claim C10)

Modelled from the header (lines 150–225): `TcpStreamData` holds a pointer
`m_Data` to a heap buffer of length `m_DataLen` and an ownership flag
`m_DeleteDataOnDestruction`; per the header's documentation the copy
constructor and the assignment operator copy the data buffer from the
source instance, so even if the source instance is destroyed the data in
the copy stays valid, and each instance frees its own buffer when
destroyed.  The heap is made explicit as a map from addresses to byte
buffers with a fresh-address counter. -/

/-- A byte-buffer heap: the allocated addresses with their contents and the
next fresh address.  Every allocated address is below `nextAddr`. -/
structure MemState where
  heap : List (Nat × List Nat) := []
  nextAddr : Nat := 1
deriving DecidableEq, Repr

/-- Read the buffer at an address. -/
def memLookup (m : MemState) (a : Nat) : Option (List Nat) :=
  match m.heap.find? (fun ab => ab.1 = a) with
  | some ab => some ab.2
  | none => none

/-- Allocate a fresh buffer holding `bs`; returns the new heap and address. -/
def memAlloc (m : MemState) (bs : List Nat) : MemState × Nat :=
  ({ heap := (m.nextAddr, bs) :: m.heap, nextAddr := m.nextAddr + 1 }, m.nextAddr)

/-- Release the buffer at an address. -/
def memFree (m : MemState) (a : Nat) : MemState :=
  { m with heap := m.heap.filter (fun ab => ab.1 ≠ a) }

/-- `TcpStreamData` of the header: the buffer pointer, the stored length and
the ownership flag `m_DeleteDataOnDestruction`. -/
structure TcpStreamDataM where
  m_Data : Nat := 0
  m_DataLen : Nat := 0
  m_DeleteDataOnDestruction : Bool := false
deriving DecidableEq, Repr

/-- The copy constructor / assignment operator via `copyData` (header lines
177–190 and 216–224): allocate a new buffer, copy the source's bytes into
it and own it. -/
def copyFrom (m : MemState) (s : TcpStreamDataM) : MemState × TcpStreamDataM :=
  match memLookup m s.m_Data with
  | none => (m, { m_Data := 0, m_DataLen := 0, m_DeleteDataOnDestruction := false })
  | some bs =>
    let r := memAlloc m bs
    (r.1, { m_Data := r.2, m_DataLen := s.m_DataLen, m_DeleteDataOnDestruction := true })

/-- The destructor: free the buffer exactly when the instance owns it. -/
def destroy (m : MemState) (s : TcpStreamDataM) : MemState :=
  if s.m_DeleteDataOnDestruction then memFree m s.m_Data else m

/-- `getData` dereferenced: the bytes of the instance's buffer. -/
def getDataBytes (m : MemState) (s : TcpStreamDataM) : Option (List Nat) :=
  memLookup m s.m_Data

/-- `getDataLength` of the header. -/
def getDataLength (s : TcpStreamDataM) : Nat := s.m_DataLen

theorem find?_filter_of_imp (l : List (Nat × List Nat)) (p q : Nat × List Nat → Bool)
    (h : ∀ x, p x = true → q x = true) : (l.filter q).find? p = l.find? p := by
  induction l with
  | nil => rfl
  | cons x xs ih =>
    by_cases hp : p x = true
    · rw [List.filter_cons, if_pos (h x hp)]
      rw [List.find?_cons_of_pos _ hp, List.find?_cons_of_pos _ hp]
    · rw [List.find?_cons_of_neg _ hp, List.filter_cons]
      by_cases hq : q x = true
      · rw [if_pos hq, List.find?_cons_of_neg _ hp]
        exact ih
      · rw [if_neg hq]
        exact ih

/-- Freeing an address removes its buffer. -/
theorem memLookup_memFree_self (m : MemState) (a : Nat) :
    memLookup (memFree m a) a = none := by
  unfold memLookup memFree
  simp only
  have h : (m.heap.filter (fun ab => ab.1 ≠ a)).find? (fun ab => ab.1 = a) = none := by
    rw [List.find?_eq_none]
    intro x hx
    have h2 := (List.mem_filter.mp hx).2
    simp only [ne_eq, decide_not, Bool.not_eq_true', decide_eq_false_iff_not] at h2
    simp [h2]
  rw [h]

/-- Freeing an address leaves every other buffer unchanged. -/
theorem memLookup_memFree_ne (m : MemState) (a b : Nat) (h : b ≠ a) :
    memLookup (memFree m a) b = memLookup m b := by
  unfold memLookup memFree
  simp only
  rw [find?_filter_of_imp]
  intro x hx
  simp only [decide_eq_true_eq] at hx
  simp only [ne_eq, hx, decide_not, Bool.not_eq_true', decide_eq_false_iff_not]
  simp [h]

/-- C10: copy construction / copy assignment of a `TcpStreamData` with a data
buffer produces an independent byte-for-byte copy of equal length: the
copy reads the same bytes, its length getter returns the same value, its
buffer is a distinct allocation, destroying the source leaves the copy's
contents intact, destroying the copy leaves the source's contents intact,
and destroying the copy releases exactly the copy's own buffer. -/
theorem claim_C10 (m : MemState) (s : TcpStreamDataM) (bs : List Nat)
    (hWF : s.m_Data < m.nextAddr) (hbs : memLookup m s.m_Data = some bs) :
    getDataBytes (copyFrom m s).1 (copyFrom m s).2 = some bs ∧
    getDataLength (copyFrom m s).2 = getDataLength s ∧
    (copyFrom m s).2.m_Data ≠ s.m_Data ∧
    getDataBytes (destroy (copyFrom m s).1 s) (copyFrom m s).2 = some bs ∧
    getDataBytes (destroy (copyFrom m s).1 (copyFrom m s).2) s = some bs ∧
    memLookup (destroy (copyFrom m s).1 (copyFrom m s).2) (copyFrom m s).2.m_Data =
      none := by
  have hne : m.nextAddr ≠ s.m_Data := by omega
  have hcf : copyFrom m s =
      ({ heap := (m.nextAddr, bs) :: m.heap, nextAddr := m.nextAddr + 1 },
       { m_Data := m.nextAddr, m_DataLen := s.m_DataLen,
         m_DeleteDataOnDestruction := true }) := by
    unfold copyFrom
    rw [hbs]
    rfl
  have hc1 : memLookup
      ({ heap := (m.nextAddr, bs) :: m.heap, nextAddr := m.nextAddr + 1 } : MemState)
      m.nextAddr = some bs := by
    unfold memLookup
    simp only
    rw [List.find?_cons_of_pos _ (by simp)]
  have hc5 : memLookup
      ({ heap := (m.nextAddr, bs) :: m.heap, nextAddr := m.nextAddr + 1 } : MemState)
      s.m_Data = some bs := by
    unfold memLookup at hbs ⊢
    simp only
    rw [List.find?_cons_of_neg _ (by simp [hne])]
    exact hbs
  rw [hcf]
  refine ⟨hc1, rfl, by simpa using hne, ?_, ?_, ?_⟩
  · show getDataBytes (destroy _ s) _ = some bs
    unfold destroy
    by_cases hflag : s.m_DeleteDataOnDestruction = true
    · rw [if_pos hflag]
      show memLookup (memFree _ s.m_Data) m.nextAddr = some bs
      rw [memLookup_memFree_ne _ s.m_Data m.nextAddr hne]
      exact hc1
    · rw [if_neg hflag]
      exact hc1
  · show memLookup (memFree _ m.nextAddr) s.m_Data = some bs
    rw [memLookup_memFree_ne _ m.nextAddr s.m_Data (fun h => hne h.symm)]
    exact hc5
  · exact memLookup_memFree_self _ m.nextAddr

theorem claim_C10_witness :
    getDataBytes (copyFrom { heap := [(0, [5])], nextAddr := 1 }
        { m_Data := 0, m_DataLen := 1, m_DeleteDataOnDestruction := true }).1
      (copyFrom { heap := [(0, [5])], nextAddr := 1 }
        { m_Data := 0, m_DataLen := 1, m_DeleteDataOnDestruction := true }).2 =
      some [5] ∧
    getDataLength (copyFrom { heap := [(0, [5])], nextAddr := 1 }
        { m_Data := 0, m_DataLen := 1, m_DeleteDataOnDestruction := true }).2 =
      getDataLength { m_Data := 0, m_DataLen := 1, m_DeleteDataOnDestruction := true } ∧
    (copyFrom { heap := [(0, [5])], nextAddr := 1 }
        { m_Data := 0, m_DataLen := 1, m_DeleteDataOnDestruction := true }).2.m_Data ≠ 0 ∧
    getDataBytes (destroy (copyFrom { heap := [(0, [5])], nextAddr := 1 }
          { m_Data := 0, m_DataLen := 1, m_DeleteDataOnDestruction := true }).1
        { m_Data := 0, m_DataLen := 1, m_DeleteDataOnDestruction := true })
      (copyFrom { heap := [(0, [5])], nextAddr := 1 }
        { m_Data := 0, m_DataLen := 1, m_DeleteDataOnDestruction := true }).2 =
      some [5] ∧
    getDataBytes (destroy (copyFrom { heap := [(0, [5])], nextAddr := 1 }
          { m_Data := 0, m_DataLen := 1, m_DeleteDataOnDestruction := true }).1
        (copyFrom { heap := [(0, [5])], nextAddr := 1 }
          { m_Data := 0, m_DataLen := 1, m_DeleteDataOnDestruction := true }).2)
      { m_Data := 0, m_DataLen := 1, m_DeleteDataOnDestruction := true } = some [5] ∧
    memLookup (destroy (copyFrom { heap := [(0, [5])], nextAddr := 1 }
          { m_Data := 0, m_DataLen := 1, m_DeleteDataOnDestruction := true }).1
        (copyFrom { heap := [(0, [5])], nextAddr := 1 }
          { m_Data := 0, m_DataLen := 1, m_DeleteDataOnDestruction := true }).2)
      (copyFrom { heap := [(0, [5])], nextAddr := 1 }
        { m_Data := 0, m_DataLen := 1, m_DeleteDataOnDestruction := true }).2.m_Data =
      none :=
  claim_C10 { heap := [(0, [5])], nextAddr := 1 }
    { m_Data := 0, m_DataLen := 1, m_DeleteDataOnDestruction := true } [5]
    (by decide) (by rfl)

/-- C9: closing a flow key that is unknown to the engine or already closed
(no entry in the connection table) fires no callback and leaves the whole
engine state unchanged; consequently a second `closeConnection` on the
same key behaves exactly like the first: it is a logged no-op. -/
theorem claim_C9 (st : TcpReassembly) (key now now2 : Nat) :
    (lookupConn st.m_ConnectionList key = none →
      closeConnection st key now = (st, [])) ∧
    closeConnection (closeConnection st key now).1 key now2 =
      ((closeConnection st key now).1, []) := by
  constructor
  · intro h
    show closeConnectionInternal st key true now = (st, [])
    exact closeInternal_noconn st key true now h
  · show closeConnectionInternal (closeConnection st key now).1 key true now2 =
      ((closeConnection st key now).1, [])
    exact closeInternal_noconn _ key true now2
      (closeInternal_lookup_self st key true now)

theorem claim_C9_witness :
    closeConnection ({} : TcpReassembly) 0 1 = ({}, []) ∧
    closeConnection (closeConnection ({} : TcpReassembly) 0 1).1 0 2 =
      ((closeConnection ({} : TcpReassembly) 0 1).1, []) :=
  ⟨(claim_C9 {} 0 1 2).1 (by rfl), (claim_C9 {} 0 1 2).2⟩

/-- C8: in every callback trace the engine produces, each connection
instance's events form a well-shaped episode: at most one
`onConnectionStart`, which is first and hence strictly precedes every
`onMessageReady` of the connection, and at most one `onConnectionEnd`,
which can only be the final event, hence never precedes the start and
strictly follows the last `onMessageReady`; a connection with any event
at all begins with its `onConnectionStart`. -/
theorem claim_C8 (cfg : TcpReassemblyConfiguration) (t0 : Nat) (ops : List EngineOp)
    (cid : Nat) :
    episodeShape (cidEvents (runEngine (mkTcpReassembly cfg t0) ops).2 cid) = true := by
  have hT := trInv_run cfg t0 ops
  by_cases hmem : cid ∈ tableCids (runEngine (mkTcpReassembly cfg t0) ops).1
  · obtain ⟨kc, hkc, hcid⟩ := List.mem_map.mp hmem
    rw [← hcid]
    exact episodeShape_of_open _ (hT.openEp kc hkc)
  · exact hT.closedEp cid hmem

/-- C5: at every reachable state, every fragment buffered in a side's
fragment store of any connection in the table ends strictly beyond the
side's expected sequence in modular order: `seq_lt e (fragEnd f)`. -/
theorem claim_C5 (cfg : TcpReassemblyConfiguration) (t0 : Nat) (ops : List EngineOp)
    (k : Nat) (c : TcpReassemblyData) (i e : Nat) (f : TcpFragment)
    (hc : lookupConn (runEngine (mkTcpReassembly cfg t0) ops).1.m_ConnectionList k =
      some c)
    (hi : i < 2) (hseq : (getSide c i).sequence = some e)
    (hf : f ∈ (getSide c i).tcpFragmentList) :
    seq_lt e (fragEnd f) = true := by
  have hE := engInv_run cfg t0 ops
  have hwf := hE.connsWF (k, c) (lookupConn_some_mem _ _ _ hc)
  have hside : sideInv (getSide c i) := by
    have h01 : i = 0 ∨ i = 1 := by omega
    rcases h01 with rfl | rfl
    · exact hwf.1.1
    · exact hwf.1.2
  have hs : e < SEQ_MOD ∧ ∀ g ∈ (getSide c i).tcpFragmentList,
      fragBase g ∧ fragInv e g := by
    unfold sideInv at hside
    rw [hseq] at hside
    exact hside
  exact ((hs.2 f hf).2).2.2

theorem claim_C5_witness : seq_lt 101 (fragEnd ⟨200, [4]⟩) = true :=
  claim_C5 {} 0
    [EngineOp.packet { srcIP := 1, srcPort := 1, dstIP := 2, dstPort := 2, seqNum := 100, payload := [3] },
     EngineOp.packet { srcIP := 1, srcPort := 1, dstIP := 2, dstPort := 2, seqNum := 200, payload := [4] }]
    67
    { numOfSides := 1, prevSide := some 0,
      side0 := { srcIP := 1, srcPort := 1, sequence := some 101, tcpFragmentList := [⟨200, [4]⟩] },
      connId := 0 }
    0 101 ⟨200, [4]⟩ (by decide) (by decide) (by rfl) (by decide)

/-- C1: for every connection instance and each side, the deliveries of that
side chain contiguously in strictly ascending modular sequence order from
some base — each delivery starts exactly where the previous one ended
(markers covering exactly their declared gap), so there is no duplicated
and no overlapping byte — and, relative to per-endpoint sender streams
`Sg` that the ingested packets agree with, every non-marker payload
reproduces the sender's bytes at its positions: the concatenation of the
non-marker payloads is the sender's byte stream over the delivered
ranges. -/
theorem claim_C1 (Sg : Nat → Nat → Nat → Nat) (cfg : TcpReassemblyConfiguration)
    (t0 : Nat) (ops : List EngineOp)
    (hp : ∀ p, EngineOp.packet p ∈ ops →
      bytesAgree (Sg p.srcIP p.srcPort) (p.seqNum % SEQ_MOD) p.payload = true)
    (cid i : Nat) (hi : i < 2) :
    (∃ b, chainOK b (sideDeliveries (runEngine (mkTcpReassembly cfg t0) ops).2 cid i)
      = true) ∧
    (∃ ip port, ∀ d ∈ sideDeliveries (runEngine (mkTcpReassembly cfg t0) ops).2 cid i,
      d.isMarker = false → bytesAgree (Sg ip port) d.startSeq d.bytes = true) := by
  have hT := trInv_run cfg t0 ops
  have hA := trAgree_run Sg cfg t0 ops hp
  by_cases hmem : cid ∈ tableCids (runEngine (mkTcpReassembly cfg t0) ops).1
  · obtain ⟨kc, hkc, hcid⟩ := List.mem_map.mp hmem
    subst hcid
    constructor
    · exact sideProgress_chain _ _ (hT.openProg kc hkc i hi)
    · exact ⟨(getSide kc.2 i).srcIP, (getSide kc.2 i).srcPort,
        fun d hd hm => hA.openDeliv kc hkc i hi d hd hm⟩
  · exact ⟨hT.closedChain cid hmem i hi, hA.closedDeliv cid hmem i hi⟩

theorem claim_C1_witness :
    (∃ b, chainOK b (sideDeliveries (runEngine (mkTcpReassembly {} 0)
      [EngineOp.packet { srcIP := 1, srcPort := 1, dstIP := 2, dstPort := 2, seqNum := 100, payload := [3] }]).2
      0 0) = true) ∧
    (∃ ip port : Nat, ∀ d ∈ sideDeliveries (runEngine (mkTcpReassembly {} 0)
      [EngineOp.packet { srcIP := 1, srcPort := 1, dstIP := 2, dstPort := 2, seqNum := 100, payload := [3] }]).2
      0 0, d.isMarker = false →
      bytesAgree ((fun (_ _ pos : Nat) => if pos = 100 then 3 else 0) ip port) d.startSeq
        d.bytes = true) :=
  claim_C1 (fun (_ _ pos : Nat) => if pos = 100 then 3 else 0) {} 0
    [EngineOp.packet { srcIP := 1, srcPort := 1, dstIP := 2, dstPort := 2, seqNum := 100, payload := [3] }]
    (by
      intro p h
      rcases List.mem_cons.mp h with h1 | h1
      · cases h1
        decide
      · cases h1)
    0 0 (by decide)

/-- C6: across one engine step of any run — hence across the connection's
whole lifetime — a connection's per-side expected sequence never moves
backwards in modular order: if the connection still exists after the next
operation, each side's expected sequence has not decreased (an
uninitialized side may become initialized, never the converse). -/
theorem claim_C6 (cfg : TcpReassemblyConfiguration) (t0 : Nat) (ops : List EngineOp)
    (n k : Nat) (c c' : TcpReassemblyData) (i : Nat) (hi : i < 2)
    (h1 : lookupConn (runEngine (mkTcpReassembly cfg t0)
      (ops.take n)).1.m_ConnectionList k = some c)
    (h2 : lookupConn (runEngine (mkTcpReassembly cfg t0)
      (ops.take (n + 1))).1.m_ConnectionList k = some c') :
    c'.connId = c.connId ∧
      seqLeOpt (getSide c i).sequence (getSide c' i).sequence := by
  have htake : ops.take (n + 1) = ops.take n ++ ops[n]?.toList := List.take_succ
  rw [htake, runEngine_append] at h2
  cases hop : ops[n]? with
  | none =>
    rw [hop] at h2
    have h2' : lookupConn (runEngine (mkTcpReassembly cfg t0)
        (ops.take n)).1.m_ConnectionList k = some c' := h2
    rw [h1] at h2'
    injection h2' with h3
    subst h3
    exact ⟨rfl, seqLeOpt_refl _⟩
  | some op =>
    rw [hop] at h2
    have h2' : lookupConn (stepEngine (runEngine (mkTcpReassembly cfg t0)
        (ops.take n)).1 op).1.m_ConnectionList k = some c' := h2
    obtain ⟨hcid, hmono⟩ := stepEngine_mono _ op k c c'
      (engInv_run cfg t0 (ops.take n)) h1 h2'
    exact ⟨hcid, hmono i hi⟩

theorem claim_C6_witness :
    ({ numOfSides := 1, prevSide := some 0,
       side0 := { srcIP := 1, srcPort := 1, sequence := some 101, tcpFragmentList := [⟨200, [4]⟩] },
       connId := 0 } : TcpReassemblyData).connId =
      ({ numOfSides := 1, prevSide := some 0,
         side0 := { srcIP := 1, srcPort := 1, sequence := some 101 },
         connId := 0 } : TcpReassemblyData).connId ∧
    seqLeOpt
      (getSide
        { numOfSides := 1, prevSide := some 0,
          side0 := { srcIP := 1, srcPort := 1, sequence := some 101 },
          connId := 0 } 0).sequence
      (getSide
        { numOfSides := 1, prevSide := some 0,
          side0 := { srcIP := 1, srcPort := 1, sequence := some 101, tcpFragmentList := [⟨200, [4]⟩] },
          connId := 0 } 0).sequence :=
  claim_C6 {} 0
    [EngineOp.packet { srcIP := 1, srcPort := 1, dstIP := 2, dstPort := 2, seqNum := 100, payload := [3] },
     EngineOp.packet { srcIP := 1, srcPort := 1, dstIP := 2, dstPort := 2, seqNum := 200, payload := [4] }]
    1 67
    { numOfSides := 1, prevSide := some 0,
      side0 := { srcIP := 1, srcPort := 1, sequence := some 101 },
      connId := 0 }
    { numOfSides := 1, prevSide := some 0,
      side0 := { srcIP := 1, srcPort := 1, sequence := some 101, tcpFragmentList := [⟨200, [4]⟩] },
      connId := 0 }
    0 (by decide) (by decide) (by decide)

/-- C3: replaying a packet immediately after itself yields the same callback
trace as feeding it once — the second copy produces no events at all —
and at the side level a data segment whose span `[seq, seq+len)` ends at
or before the expected sequence in modular order is dropped without any
delivery or state change. -/
theorem claim_C3 (cfg : TcpReassemblyConfiguration) (t0 : Nat) (ops : List EngineOp)
    (p : Packet) (s : TcpOneSideData) (seq : Nat) (payload : List Nat) (e : Nat)
    (hseq : s.sequence = some e) (hpay : payload.isEmpty = false)
    (hseen : (seq_lt ((seq % SEQ_MOD + payload.length) % SEQ_MOD) e ||
      decide ((seq % SEQ_MOD + payload.length) % SEQ_MOD = e)) = true) :
    (runEngine (mkTcpReassembly cfg t0)
        (ops ++ [EngineOp.packet p, EngineOp.packet p])).2 =
      (runEngine (mkTcpReassembly cfg t0) (ops ++ [EngineOp.packet p])).2 ∧
    processTcpPayload s seq payload = (s, []) := by
  constructor
  · have hz := reassemble_refeed (runEngine (mkTcpReassembly cfg t0) ops).1 p
      (engInv_run cfg t0 ops)
    rw [runEngine_append, runEngine_append]
    simp only [runEngine, stepEngine]
    rw [hz]
    rfl
  · exact processTcpPayload_seen s seq payload e hpay hseq hseen

theorem claim_C3_witness :
    (runEngine (mkTcpReassembly {} 0)
        ([] ++ [EngineOp.packet { srcIP := 1, srcPort := 1, dstIP := 2, dstPort := 2, seqNum := 100, payload := [3] },
                EngineOp.packet { srcIP := 1, srcPort := 1, dstIP := 2, dstPort := 2, seqNum := 100, payload := [3] }])).2 =
      (runEngine (mkTcpReassembly {} 0)
        ([] ++ [EngineOp.packet { srcIP := 1, srcPort := 1, dstIP := 2, dstPort := 2, seqNum := 100, payload := [3] }])).2 ∧
    processTcpPayload { sequence := some 101 } 100 [3] =
      ({ sequence := some 101 }, []) :=
  claim_C3 {} 0 []
    { srcIP := 1, srcPort := 1, dstIP := 2, dstPort := 2, seqNum := 100, payload := [3] }
    { sequence := some 101 } 100 [3] 101 rfl rfl (by decide)

/-- C7: `purgeClosedConnections` walks the cleanup queue in time order:
every key it removes sits in a bucket whose time is at or before `now`;
it removes at most the requested limit (or the configured per-call cap
when the limit is 0); the returned count is exactly the number of
connection-info entries removed; it returns 0 when no bucket is due; no
removed key remains in the connection-info table afterwards; and the
remaining queue keeps its ascending time order. -/
theorem claim_C7 (st : TcpReassembly) (now limit : Nat) (hE : EngInv st) :
    (∀ k ∈ (purgeWalk now (if limit ≠ 0 then limit else effectiveMaxClean st)
        st.m_CleanupList).1, ∃ tb ∈ st.m_CleanupList, tb.1 ≤ now ∧ k ∈ tb.2) ∧
    (purgeClosedConnections st now limit).2 ≤
      (if limit ≠ 0 then limit else effectiveMaxClean st) ∧
    (purgeClosedConnections st now limit).1.m_ConnectionInfo.length +
      (purgeClosedConnections st now limit).2 = st.m_ConnectionInfo.length ∧
    ((∀ tb ∈ st.m_CleanupList, now < tb.1) →
      (purgeClosedConnections st now limit).2 = 0) ∧
    (∀ k ∈ (purgeWalk now (if limit ≠ 0 then limit else effectiveMaxClean st)
        st.m_CleanupList).1,
      ¬ k ∈ (purgeClosedConnections st now limit).1.m_ConnectionInfo) ∧
    (purgeClosedConnections st now limit).1.m_CleanupList.Pairwise
      (fun a b => a.1 < b.1) := by
  have hrem : (purgeWalk now (if limit ≠ 0 then limit else effectiveMaxClean st)
      st.m_CleanupList).1.Nodup := by
    have h := hE.cleanupNodup
    rw [← purgeWalk_keys now (if limit ≠ 0 then limit else effectiveMaxClean st)
      st.m_CleanupList] at h
    exact h.of_append_left
  have hsub : ∀ k ∈ (purgeWalk now (if limit ≠ 0 then limit else effectiveMaxClean st)
      st.m_CleanupList).1, k ∈ st.m_ConnectionInfo := by
    intro k hk
    refine hE.cleanupInfo k ?_
    rw [← purgeWalk_keys now (if limit ≠ 0 then limit else effectiveMaxClean st)
      st.m_CleanupList]
    exact List.mem_append_left _ hk
  refine ⟨purgeWalk_eligible now _ st.m_CleanupList, ?_, ?_, ?_, ?_, ?_⟩
  · show (purgeWalk now (if limit ≠ 0 then limit else effectiveMaxClean st)
        st.m_CleanupList).1.length ≤ _
    exact purgeWalk_count now _ st.m_CleanupList
  · show (st.m_ConnectionInfo.filter (fun k => ¬ k ∈ (purgeWalk now
        (if limit ≠ 0 then limit else effectiveMaxClean st)
        st.m_CleanupList).1)).length +
      (purgeWalk now (if limit ≠ 0 then limit else effectiveMaxClean st)
        st.m_CleanupList).1.length = st.m_ConnectionInfo.length
    exact filter_count st.m_ConnectionInfo _ hE.infoNodup hrem hsub
  · intro hno
    have hr : (purgeWalk now (if limit ≠ 0 then limit else effectiveMaxClean st)
        st.m_CleanupList).1 = [] := by
      cases hq : (purgeWalk now (if limit ≠ 0 then limit else effectiveMaxClean st)
          st.m_CleanupList).1 with
      | nil => rfl
      | cons k ks =>
        obtain ⟨tb, htb, hle, -⟩ := purgeWalk_eligible now
          (if limit ≠ 0 then limit else effectiveMaxClean st) st.m_CleanupList k
          (by rw [hq]; exact List.mem_cons_self _ _)
        have := hno tb htb
        omega
    show (purgeWalk now (if limit ≠ 0 then limit else effectiveMaxClean st)
      st.m_CleanupList).1.length = 0
    rw [hr]
    rfl
  · intro k hk hmem
    have h2 := (List.mem_filter.mp hmem).2
    simp only [decide_eq_true_eq] at h2
    exact h2 hk
  · show (purgeWalk now (if limit ≠ 0 then limit else effectiveMaxClean st)
      st.m_CleanupList).2.Pairwise (fun a b => a.1 < b.1)
    exact purgeWalk_sorted now _ st.m_CleanupList hE.cleanupSorted

theorem claim_C7_witness :
    (∀ k ∈ (purgeWalk 5 (if 1 ≠ 0 then 1 else effectiveMaxClean (mkTcpReassembly {} 0))
        (mkTcpReassembly {} 0).m_CleanupList).1,
      ∃ tb ∈ (mkTcpReassembly {} 0).m_CleanupList, tb.1 ≤ 5 ∧ k ∈ tb.2) ∧
    (purgeClosedConnections (mkTcpReassembly {} 0) 5 1).2 ≤
      (if 1 ≠ 0 then 1 else effectiveMaxClean (mkTcpReassembly {} 0)) ∧
    (purgeClosedConnections (mkTcpReassembly {} 0) 5 1).1.m_ConnectionInfo.length +
      (purgeClosedConnections (mkTcpReassembly {} 0) 5 1).2 =
      (mkTcpReassembly {} 0).m_ConnectionInfo.length ∧
    ((∀ tb ∈ (mkTcpReassembly {} 0).m_CleanupList, 5 < tb.1) →
      (purgeClosedConnections (mkTcpReassembly {} 0) 5 1).2 = 0) ∧
    (∀ k ∈ (purgeWalk 5 (if 1 ≠ 0 then 1 else effectiveMaxClean (mkTcpReassembly {} 0))
        (mkTcpReassembly {} 0).m_CleanupList).1,
      ¬ k ∈ (purgeClosedConnections (mkTcpReassembly {} 0) 5 1).1.m_ConnectionInfo) ∧
    (purgeClosedConnections (mkTcpReassembly {} 0) 5 1).1.m_CleanupList.Pairwise
      (fun a b => a.1 < b.1) :=
  claim_C7 (mkTcpReassembly {} 0) 5 1 (engInv_mk {} 0)

/-- C2: when the out-of-order flush runs on a side whose fragment store has a
closest buffered fragment `f` (a direction-switch flush or a close), the
flush round delivers exactly one synthetic marker — whose bytes are the
literal ASCII string `[`, the decimal value of N, ` bytes missing]` with
no trailing newline, where N is the modular distance from the expected
sequence to `f.sequence` — immediately followed by the delivery of `f`
itself at its own sequence (the expected sequence having jumped to
`f.sequence`); the gap N is positive and `f` minimizes the distance over
all buffered fragments. -/
theorem claim_C2 (cw : Bool) (s : TcpOneSideData) (e : Nat) (f : TcpFragment)
    (rest : List TcpFragment) (hs : sideInv s) (hseq : s.sequence = some e)
    (hfc : findClosest e s.tcpFragmentList = some (f, rest)) :
    (∃ q, (checkOutOfOrderFragments cw s).2 =
      markerDelivery e (seq_diff f.sequence e) ::
        ⟨f.sequence, f.data, false, 0⟩ :: q) ∧
    missingDataBytes (seq_diff f.sequence e) =
      stringBytes ("[" ++ toString (seq_diff f.sequence e) ++ " bytes missing]") ∧
    0 < seq_diff f.sequence e ∧
    (∀ g ∈ s.tcpFragmentList, seq_diff f.sequence e ≤ seq_diff g.sequence e) := by
  obtain ⟨hfmem, -, -, hmin⟩ := findClosest_some e s.tcpFragmentList f rest hfc
  have hsi : e < SEQ_MOD ∧ ∀ g ∈ s.tcpFragmentList, fragBase g ∧ fragInv e g := by
    have h := hs
    unfold sideInv at h
    rw [hseq] at h
    exact h
  refine ⟨?_, rfl, ((hsi.2 f hfmem).2).1, hmin⟩
  unfold checkOutOfOrderFragments
  rw [hseq]
  simp only [coofGo]
  rw [hfc]
  simp only [deliverFragment, seq_diff_self, List.drop_zero]
  cases cw with
  | true =>
    simp only [if_pos rfl, List.cons_append]
    exact ⟨_, rfl⟩
  | false =>
    simp only [Bool.false_eq_true, if_false]
    exact ⟨_, rfl⟩

theorem claim_C2_witness :
    (∃ q, (checkOutOfOrderFragments true
        { sequence := some 101, tcpFragmentList := [⟨200, [4]⟩] }).2 =
      markerDelivery 101 (seq_diff 200 101) :: ⟨200, [4], false, 0⟩ :: q) ∧
    missingDataBytes (seq_diff 200 101) =
      stringBytes ("[" ++ toString (seq_diff 200 101) ++ " bytes missing]") ∧
    0 < seq_diff 200 101 ∧
    (∀ g ∈ ({ sequence := some 101, tcpFragmentList := [⟨200, [4]⟩] } : TcpOneSideData).tcpFragmentList,
      seq_diff 200 101 ≤ seq_diff g.sequence 101) :=
  claim_C2 true { sequence := some 101, tcpFragmentList := [⟨200, [4]⟩] } 101
    ⟨200, [4]⟩ []
    (by
      unfold sideInv
      refine ⟨by decide, ?_⟩
      intro g hg
      rw [List.mem_singleton] at hg
      subst hg
      exact ⟨⟨by decide, by decide⟩, by decide, by decide, by decide⟩)
    rfl (by decide)

/-- C4: a segment overlapping the expected sequence from the left
(`seq_lt(seq, expected)` yet ending beyond `expected`) is handled by
trimming exactly `expected − seq` bytes (modular difference) off the
front of its payload and processing the remainder exactly as an exact
match at the expected sequence; the delivered head starts at the expected
sequence with the trimmed payload, so the trimmed bytes are never
delivered again. -/
theorem claim_C4 (s : TcpOneSideData) (seq : Nat) (payload : List Nat) (e : Nat)
    (hs : sideInv s) (hseq : s.sequence = some e) (hpay : payload.isEmpty = false)
    (hseen : (seq_lt ((seq % SEQ_MOD + payload.length) % SEQ_MOD) e ||
      decide ((seq % SEQ_MOD + payload.length) % SEQ_MOD = e)) = false)
    (hlt : seq_lt (seq % SEQ_MOD) e = true) :
    processTcpPayload s seq payload =
      processTcpPayload s e (payload.drop (seq_diff e (seq % SEQ_MOD))) ∧
    (∃ q, (processTcpPayload s seq payload).2 =
      ⟨e, payload.drop (seq_diff e (seq % SEQ_MOD)), false, 0⟩ :: q) := by
  have he : e < SEQ_MOD := by
    have h := hs
    unfold sideInv at h
    rw [hseq] at h
    exact h.1
  have hA : seq_lt ((seq % SEQ_MOD + payload.length) % SEQ_MOD) e = false := by
    rcases Bool.or_eq_false_iff.mp hseen with ⟨h, -⟩
    exact h
  have hB : (seq % SEQ_MOD + payload.length) % SEQ_MOD ≠ e := by
    rcases Bool.or_eq_false_iff.mp hseen with ⟨-, h⟩
    simpa using h
  have hlen : seq_diff e (seq % SEQ_MOD) < payload.length := by
    have he2 := he
    have hB2 := hB
    simp only [seq_lt, seq_diff, SEQ_MOD, SEQ_HALF, decide_eq_true_eq,
      decide_eq_false_iff_not, not_le] at hlt hA hB2 he2 ⊢
    omega
  have h1' : (payload.drop (seq_diff e (seq % SEQ_MOD))).isEmpty = false := by
    cases hd : payload.drop (seq_diff e (seq % SEQ_MOD)) with
    | nil =>
      have h2 := congrArg List.length hd
      rw [List.length_drop] at h2
      simp only [List.length_nil] at h2
      omega
    | cons a l => rfl
  have h5' : e % SEQ_MOD = e := Nat.mod_eq_of_lt he
  have h4' : seq_lt (e % SEQ_MOD) e = false := by
    simp only [seq_lt, seq_diff, SEQ_MOD, SEQ_HALF, decide_eq_false_iff_not, not_le]
    omega
  have hkey : (e % SEQ_MOD +
      (payload.drop (seq_diff e (seq % SEQ_MOD))).length) % SEQ_MOD =
      (seq % SEQ_MOD + payload.length) % SEQ_MOD := by
    rw [h5', List.length_drop]
    exact trim_end_eq e seq payload.length he hlt hA hB
  have h3' : (seq_lt ((e % SEQ_MOD +
      (payload.drop (seq_diff e (seq % SEQ_MOD))).length) % SEQ_MOD) e ||
      decide ((e % SEQ_MOD +
        (payload.drop (seq_diff e (seq % SEQ_MOD))).length) % SEQ_MOD = e)) = false := by
    rw [hkey]
    exact hseen
  constructor
  · rw [processTcpPayload_trim s seq payload e hpay hseq hseen hlt,
      processTcpPayload_exact s e (payload.drop (seq_diff e (seq % SEQ_MOD))) e
        h1' hseq h3' h4' h5']
  · rw [processTcpPayload_trim s seq payload e hpay hseq hseen hlt]
    exact ⟨_, rfl⟩

theorem claim_C4_witness :
    processTcpPayload { sequence := some 101 } 100 [9, 7] =
      processTcpPayload { sequence := some 101 } 101
        ([9, 7].drop (seq_diff 101 (100 % SEQ_MOD))) ∧
    (∃ q, (processTcpPayload { sequence := some 101 } 100 [9, 7]).2 =
      ⟨101, [9, 7].drop (seq_diff 101 (100 % SEQ_MOD)), false, 0⟩ :: q) :=
  claim_C4 { sequence := some 101 } 100 [9, 7] 101
    (by unfold sideInv; exact ⟨by decide, by intro g hg; cases hg⟩)
    rfl rfl (by decide) (by decide)
